import Mathlib

/-!
# shrinkwrap: gzip / block-indexed gzip / zstd stream buffers

A shallow embedding of `include/shrinkwrap/gz.hpp` and `include/shrinkwrap/zstd.hpp`.

* Bytes are natural numbers, byte sequences are lists.
* A `FILE*` opened for reading is a record of the file bytes, the file position and the
  end-of-file indicator; a null handle is `none`.
* zlib and zstd are external: a codec is a record of deterministic step functions
  (`inflate`, `inflateReset`, ...) over a codec state, with the progress guarantees the
  zlib manual gives for them.
* `std::streambuf` get area: `gbuf` holds the bytes of `[eback, egptr)` and `gpos` is
  `gptr - eback`.
* Stream positions (`pos_type`) are signed 64-bit values, modelled as `Int`.
-/

namespace shrinkwrap

/-! ## Machine integers -/

/-- Conversion to `std::uint64_t`. -/
def to_u64 (x : Int) : Nat := (x % (2 ^ 64 : Int)).toNat

/-- The conversion `pos_type(off_type(v))` of a `std::uint64_t`: two's complement. -/
def to_pos (v : Nat) : Int :=
  if v % 2 ^ 64 < 2 ^ 63 then ((v % 2 ^ 64 : Nat) : Int) else ((v % 2 ^ 64 : Nat) : Int) - 2 ^ 64

/-- Subtraction of `std::size_t` / `std::uint64_t` values. -/
def sub_u64 (a b : Nat) : Nat := (a % 2 ^ 64 + 2 ^ 64 - b % 2 ^ 64) % 2 ^ 64

/-- The expression `(compressed_offset << 16) | uncompressed_offset` on `std::uint64_t`. -/
def virtual_offset (compressed_offset uncompressed_offset : Nat) : Nat :=
  ((compressed_offset <<< 16) % 2 ^ 64) ||| (uncompressed_offset % 2 ^ 16)

/-- The first line of `bgz::ibuf::seekpos`:
`(static_cast<std::uint64_t>(pos) >> 16) & 0x0000FFFFFFFFFFFF`. -/
def seekpos_compressed_offset (pos : Int) : Nat := (to_u64 pos >>> 16) &&& 0x0000FFFFFFFFFFFF

/-- The second line of `bgz::ibuf::seekpos`:
`(std::uint16_t) (static_cast<std::uint64_t>(pos) & 0x000000000000FFFF)`. -/
def seekpos_uncompressed_offset (pos : Int) : Nat := (to_u64 pos &&& 0x000000000000FFFF) % 2 ^ 16

/-! ## zlib constants -/

def Z_OK : Int := 0
def Z_STREAM_END : Int := 1
def Z_STREAM_ERROR : Int := -2
def Z_DATA_ERROR : Int := -3
def Z_BUF_ERROR : Int := -5

/-- The constant `default_block_size = 64 * 1024` of the gzip buffers. -/
def default_block_size : Nat := 64 * 1024

/-! ## Files opened for reading -/

/-- A `FILE*` opened with mode "rb". `seekable = false` is a stream that cannot be
repositioned (a pipe): `fseek` and `ftell` fail on it. -/
structure FILE where
  data : List Nat
  pos : Nat
  eof : Bool
  seekable : Bool
deriving DecidableEq, Repr

/-- The call `fread(buf, 1, n, fp)`: the bytes read and the file afterwards. A short read
sets the end-of-file indicator. -/
def fread (f : FILE) (n : Nat) : List Nat × FILE :=
  let bytes := (f.data.drop f.pos).take n
  (bytes, { f with pos := f.pos + bytes.length, eof := f.eof || decide (bytes.length < n) })

/-- The call `ftell(fp)`: the file position, or -1 on a stream that cannot be repositioned
(a pipe), where the call fails. -/
def ftell (f : FILE) : Int := if f.seekable then (f.pos : Int) else -1

/-- The call `feof(fp)`. -/
def feof (f : FILE) : Bool := f.eof

/-- The call `fseek(fp, off, SEEK_SET)`: `none` when it fails (non-zero return), else the
repositioned file with the end-of-file indicator cleared. -/
def fseek (f : FILE) (off : Nat) : Option FILE :=
  if f.seekable then some { f with pos := off, eof := false } else none

/-! ## The decoder (zlib inflate) as an external deterministic step function -/

/-- What one call `inflate(&zstrm_, Z_NO_FLUSH)` does: the new internal state, how many
bytes of `next_in` it consumed, the bytes written at `next_out`, and the return code. -/
structure InflateResult (σ : Type) where
  state : σ
  consumed : Nat
  produced : List Nat
  ret : Int

/-- The zlib decoder. `inflate st inp out` is a call with `avail_in = inp.length` bytes
`inp` at `next_in` and `avail_out = out`. The laws are those of the zlib manual: a call
stays within its windows, `Z_OK` means progress was made, and a stream end cannot be
reached from a reset decoder without consuming input. -/
structure Inflater where
  State : Type
  inflateInit2 : State × Int
  inflateReset : State → State × Int
  inflate : State → List Nat → Nat → InflateResult State
  consumed_le : ∀ st inp out, (inflate st inp out).consumed ≤ inp.length
  produced_le : ∀ st inp out, (inflate st inp out).produced.length ≤ out
  progress : ∀ st inp out, inp ≠ [] → 0 < out → (inflate st inp out).ret = Z_OK →
    0 < (inflate st inp out).consumed ∨ (inflate st inp out).produced ≠ []
  progress_end : ∀ st inp out, inp ≠ [] →
    (inflate (inflateReset st).1 inp out).ret = Z_STREAM_END →
    0 < (inflate (inflateReset st).1 inp out).consumed

namespace gz

/-- The class `gz::ibuf` (and, with the two overrides below, `bgz::ibuf`).
`next_in` holds the `avail_in` bytes at `zstrm_.next_in`. `uncompressed_block_offset_` and
`current_block_position_` are `std::size_t`; `discard_amount_` is `std::uint16_t`. -/
structure ibuf (C : Inflater) where
  zstrm_ : C.State
  next_in : List Nat
  zlib_res_ : Int
  gbuf : List Nat
  gpos : Nat
  discard_amount_ : Nat
  current_block_position_ : Nat
  uncompressed_block_offset_ : Nat
  fp_ : Option FILE

variable {C : Inflater}

/-- The constructor `ibuf(FILE* fp)`. With a null handle `zlib_res_` is left
uninitialised: `res0` is the value it happens to hold. -/
def ibuf.init (C : Inflater) (fp : Option FILE) (res0 : Int) : ibuf C :=
  { zstrm_ := C.inflateInit2.1
    next_in := []
    zlib_res_ := match fp with
      | some _ => C.inflateInit2.2
      | none => res0
    gbuf := []
    gpos := 0
    discard_amount_ := 0
    current_block_position_ := 0
    uncompressed_block_offset_ := 0
    fp_ := fp }

/-- The number `egptr() - gptr()` of unread bytes. -/
def ibuf.unread (s : ibuf C) : Nat := s.gbuf.length - s.gpos

/-- The method `replenish_compressed_buffer`. -/
def replenish_compressed_buffer (s : ibuf C) : ibuf C :=
  match s.fp_ with
  | none => s
  | some f =>
    let r := fread f default_block_size
    { s with next_in := r.1, fp_ := some r.2 }

/-- The condition of the `while` loop of `underflow`. -/
def underflow_cond (s : ibuf C) : Bool :=
  match s.fp_ with
  | none => false
  | some f =>
    (s.zlib_res_ == Z_OK || s.zlib_res_ == Z_STREAM_END) && decide (s.gbuf.length ≤ s.gpos)
      && (decide (0 < s.next_in.length) || !feof f)

/-- The member-boundary step of the loop body: `inflateReset`, then the two
block-position assignments; `to_u64 (ftell f)` is `std::size_t(ftell(fp_))`. -/
def underflow_reset (s : ibuf C) : ibuf C :=
  match s.fp_ with
  | none => s
  | some f =>
    if s.zlib_res_ = Z_STREAM_END ∧ 0 < s.next_in.length then
      { s with
        zstrm_ := (C.inflateReset s.zstrm_).1
        zlib_res_ := (C.inflateReset s.zstrm_).2
        uncompressed_block_offset_ := 0
        current_block_position_ := sub_u64 (to_u64 (ftell f)) s.next_in.length }
    else s

/-- The decode step of the loop body: `inflate`, `setg`, the update of
`uncompressed_block_offset_`, and the discard step. -/
def underflow_inflate (s : ibuf C) : ibuf C :=
  let r := C.inflate s.zstrm_ s.next_in default_block_size
  let advance_amount := min s.discard_amount_ r.produced.length
  { s with
    zstrm_ := r.state
    next_in := s.next_in.drop r.consumed
    zlib_res_ := r.ret
    gbuf := r.produced
    gpos := if 0 < s.discard_amount_ then advance_amount else 0
    uncompressed_block_offset_ := s.uncompressed_block_offset_ + r.produced.length
    discard_amount_ := if 0 < s.discard_amount_ then s.discard_amount_ - advance_amount
                       else s.discard_amount_ }

/-- One pass through the body of the `while` loop of `underflow`. -/
def underflow_body (s : ibuf C) : ibuf C :=
  match s.fp_ with
  | none => s
  | some f =>
    let s1 := if s.next_in.length = 0 ∧ feof f = false then replenish_compressed_buffer s else s
    underflow_inflate (underflow_reset s1)

/-- The `while` loop of `underflow`, run for at most `fuel` passes. -/
def underflow_loop : Nat → ibuf C → ibuf C
  | 0, s => s
  | fuel + 1, s => if underflow_cond s then underflow_loop fuel (underflow_body s) else s

/-- The number of unconsumed compressed bytes left in the file. -/
def ibuf.file_rest (s : ibuf C) : Nat :=
  match s.fp_ with
  | none => 0
  | some f => f.data.length - f.pos

/-- A bound on the number of passes of the loop of `underflow`. -/
def ibuf.passes (s : ibuf C) : Nat :=
  3 * (s.file_rest + s.next_in.length + s.discard_amount_) + 4

/-- The method `underflow`: the result (`none` is `traits_type::eof()`) and the state
afterwards. -/
def underflow (s : ibuf C) : Option Nat × ibuf C :=
  match s.fp_ with
  | none => (none, s)
  | some _ =>
    if s.gpos < s.gbuf.length then (s.gbuf.get? s.gpos, s)
    else
      let t := underflow_loop s.passes s
      if t.zlib_res_ ≠ Z_OK ∧ t.zlib_res_ ≠ Z_STREAM_END then (none, t)
      else if t.gbuf.length ≤ t.gpos then (none, t)
      else (t.gbuf.get? t.gpos, t)

/-- The inherited `std::streambuf::sbumpc`: return the byte at the read cursor and advance,
calling `underflow` when the get area is exhausted. -/
def sbumpc (s : ibuf C) : Option Nat × ibuf C :=
  if s.gpos < s.gbuf.length then (s.gbuf.get? s.gpos, { s with gpos := s.gpos + 1 })
  else
    match underflow s with
    | (none, t) => (none, t)
    | (some b, t) => (some b, { t with gpos := t.gpos + 1 })

/-- The inherited `std::streambuf::sgetc`: the byte at the read cursor, not consumed. -/
def sgetc (s : ibuf C) : Option Nat × ibuf C :=
  if s.gpos < s.gbuf.length then (s.gbuf.get? s.gpos, s) else underflow s

/-- Read with `n` successive `sbumpc` calls; each entry is a byte or end-of-data. -/
def read : Nat → ibuf C → List (Option Nat) × ibuf C
  | 0, s => ([], s)
  | n + 1, s =>
    let r := sbumpc s
    let rs := read n r.2
    (r.1 :: rs.1, rs.2)

/-- The three values of `std::ios_base::seekdir`. -/
inductive seekdir where
  | beg
  | cur
  | end_
deriving DecidableEq, Repr

/-- The method `gz::ibuf::seekoff`: always `pos_type(off_type(-1))`. -/
def seekoff (s : ibuf C) (_off : Int) (_way : seekdir) (_which : Nat) : Int × ibuf C :=
  (-1, s)

end gz

namespace bgz

open gz

variable {C : Inflater}

/-- The method `bgz::ibuf::seekoff` (supports `tellg`). The result is `none` where the
C++ evaluates `ftell` on a null handle, which is undefined. `to_u64 (ftell f)` is the
unchecked conversion `std::size_t(ftell(fp_))`. -/
def seekoff (s : ibuf C) (off : Int) (way : seekdir) (_which : Nat) : Option (Int × ibuf C) :=
  if off = 0 ∧ way = seekdir.cur then
    if s.unread = 0 ∧ s.zlib_res_ = Z_STREAM_END then
      match s.fp_ with
      | none => none
      | some f =>
        let compressed_offset := sub_u64 (to_u64 (ftell f)) s.next_in.length
        some (to_pos (virtual_offset compressed_offset 0), s)
    else
      let compressed_offset := s.current_block_position_
      let uncompressed_offset : Int :=
        ((s.uncompressed_block_offset_ % 2 ^ 16 : Nat) : Int) - ((s.unread % 2 ^ 16 : Nat) : Int)
          + ((s.discard_amount_ : Nat) : Int)
      some (to_pos (virtual_offset compressed_offset (uncompressed_offset % 2 ^ 16).toNat), s)
  else some (-1, s)

/-- The method `bgz::ibuf::seekpos`. The inherited `std::streambuf::sync` returns 0. -/
def seekpos (s : ibuf C) (pos : Int) (_which : Nat) : Int × ibuf C :=
  let compressed_offset := seekpos_compressed_offset pos
  let uncompressed_offset := seekpos_uncompressed_offset pos
  match s.fp_ with
  | none => (-1, s)
  | some f =>
    match fseek f compressed_offset with
    | none => (-1, s)
    | some g =>
      (pos, { s with
        fp_ := some g
        current_block_position_ := compressed_offset
        discard_amount_ := uncompressed_offset
        next_in := []
        zstrm_ := (C.inflateReset s.zstrm_).1
        zlib_res_ := (C.inflateReset s.zstrm_).2
        gbuf := []
        gpos := 0 })

end bgz

/-! ## The zstd reader -/

/-- What one call `ZSTD_decompressStream(strm_, &output, &input_)` does: the new internal
state, by how much `input_.pos` advanced, the bytes written (`output.pos` of them), and the
return value. -/
structure DecompressResult (σ : Type) where
  state : σ
  consumed : Nat
  produced : List Nat
  ret : Nat

/-- The zstd streaming decoder, external like zlib. `DStreamInSize` and `DStreamOutSize` are
the buffer sizes the library recommends; `isError` is `ZSTD_isError`. -/
structure ZDecoder where
  State : Type
  createDStream : State
  initDStream : State → State × Nat
  resetDStream : State → State × Nat
  decompressStream : State → List Nat → Nat → DecompressResult State
  isError : Nat → Bool
  DStreamInSize : Nat
  DStreamOutSize : Nat

namespace zstd

/-- The class `zstd::ibuf`. `input_` holds the `input_.size - input_.pos` bytes of the
compressed buffer not yet consumed. -/
structure ibuf (Z : ZDecoder) where
  strm_ : Z.State
  input_ : List Nat
  res_ : Nat
  gbuf : List Nat
  gpos : Nat
  current_block_position_ : Nat
  fp_ : Option FILE

variable {Z : ZDecoder}

/-- The constructor `ibuf(FILE* fp)`; with a null handle `res_` is left uninitialised. -/
def ibuf.init (Z : ZDecoder) (fp : Option FILE) (res0 : Nat) : ibuf Z :=
  { strm_ := match fp with
      | some _ => (Z.initDStream Z.createDStream).1
      | none => Z.createDStream
    input_ := []
    res_ := match fp with
      | some _ => (Z.initDStream Z.createDStream).2
      | none => res0
    gbuf := []
    gpos := 0
    current_block_position_ := 0
    fp_ := fp }

/-- The method `replenish_compressed_buffer`. -/
def replenish_compressed_buffer (s : ibuf Z) : ibuf Z :=
  match s.fp_ with
  | none => s
  | some f =>
    let r := fread f Z.DStreamInSize
    { s with input_ := r.1, fp_ := some r.2 }

/-- The frame-boundary step of `underflow`: `ZSTD_resetDStream` and the block position. -/
def underflow_reset (s : ibuf Z) : ibuf Z :=
  match s.fp_ with
  | none => s
  | some f =>
    if s.res_ = 0 ∧ 0 < s.input_.length then
      { s with
        strm_ := (Z.resetDStream s.strm_).1
        res_ := (Z.resetDStream s.strm_).2
        current_block_position_ := sub_u64 (to_u64 (ftell f)) s.input_.length }
    else s

/-- The decode step of `underflow`: one `ZSTD_decompressStream` call, and `setg` when it
did not report an error. -/
def underflow_decompress (s : ibuf Z) : ibuf Z :=
  let r := Z.decompressStream s.strm_ s.input_ Z.DStreamOutSize
  let t := { s with strm_ := r.state, input_ := s.input_.drop r.consumed, res_ := r.ret }
  if Z.isError r.ret then t else { t with gbuf := r.produced, gpos := 0 }

/-- The method `underflow` of the zstd reader: one decode step, no loop. -/
def underflow (s : ibuf Z) : Option Nat × ibuf Z :=
  match s.fp_ with
  | none => (none, s)
  | some f =>
    if s.gpos < s.gbuf.length then (s.gbuf.get? s.gpos, s)
    else
      let t :=
        if Z.isError s.res_ then s
        else
          let s1 := if s.input_.length = 0 ∧ feof f = false then replenish_compressed_buffer s
                    else s
          underflow_decompress (underflow_reset s1)
      if t.gbuf.length ≤ t.gpos then (none, t)
      else if Z.isError t.res_ then (none, t)
      else (t.gbuf.get? t.gpos, t)

/-- The method `zstd::ibuf::seekoff`: always `pos_type(off_type(-1))`. -/
def seekoff (s : ibuf Z) (_off : Int) (_way : gz.seekdir) (_which : Nat) : Int × ibuf Z :=
  (-1, s)

end zstd

/-! ## A concrete decoder

A small codec that instantiates the decoder interface: a member is a sequence of pairs
`[1, b]`, one per plaintext byte `b`, closed by the end marker `0`. -/

/-- The parser state of the pair decoder. -/
inductive PairState where
  | tag
  | byte
  | done
  | bad
deriving DecidableEq, Repr

/-- The pair decoder on input `inp` with room for `out` bytes: state reached, bytes
consumed, bytes produced. It stops at the end marker, at a bad tag, when the input runs
out, and when a byte is due and the output window is full. -/
def pair_scan : PairState → List Nat → Nat → PairState × Nat × List Nat
  | PairState.tag, t :: rest, out =>
    if t = 0 then (PairState.done, 1, [])
    else if t = 1 then
      let r := pair_scan PairState.byte rest out
      (r.1, r.2.1 + 1, r.2.2)
    else (PairState.bad, 1, [])
  | PairState.byte, b :: rest, out + 1 =>
    let r := pair_scan PairState.tag rest out
    (r.1, r.2.1 + 1, b :: r.2.2)
  | PairState.byte, _ :: _, 0 => (PairState.byte, 0, [])
  | PairState.done, _ :: _, _ => (PairState.done, 0, [])
  | PairState.bad, _ :: _, _ => (PairState.bad, 0, [])
  | st, [], _ => (st, 0, [])

/-- The return code of a call of the pair decoder. -/
def pair_ret (st : PairState) (consumed : Nat) (produced : List Nat) : Int :=
  if st = PairState.done then Z_STREAM_END
  else if st = PairState.bad then Z_DATA_ERROR
  else if consumed = 0 ∧ produced = [] then Z_BUF_ERROR
  else Z_OK

/-- One `inflate` call of the pair decoder. -/
def pair_inflate (st : PairState) (inp : List Nat) (out : Nat) : InflateResult PairState :=
  let r := pair_scan st inp out
  { state := r.1, consumed := r.2.1, produced := r.2.2, ret := pair_ret r.1 r.2.1 r.2.2 }

/-- The pair decoder as an instance of the decoder interface. -/
def pair_inflater : Inflater where
  State := PairState
  inflateInit2 := (PairState.tag, Z_OK)
  inflateReset := fun _ => (PairState.tag, Z_OK)
  inflate := pair_inflate
  consumed_le := by
    intro st inp out
    show (pair_scan st inp out).2.1 ≤ inp.length
    induction inp generalizing st out with
    | nil => cases st <;> simp [pair_scan]
    | cons t rest ih =>
      cases st with
      | tag =>
        simp only [pair_scan]
        split
        · simp
        · split
          · have := ih PairState.byte out
            simp only [List.length_cons]
            omega
          · simp
      | byte =>
        cases out with
        | zero => simp [pair_scan]
        | succ n =>
          have := ih PairState.tag n
          simp only [pair_scan, List.length_cons]
          omega
      | done => simp [pair_scan]
      | bad => simp [pair_scan]
  produced_le := by
    intro st inp out
    show (pair_scan st inp out).2.2.length ≤ out
    induction inp generalizing st out with
    | nil => cases st <;> simp [pair_scan]
    | cons t rest ih =>
      cases st with
      | tag =>
        simp only [pair_scan]
        split
        · simp
        · split
          · exact ih PairState.byte out
          · simp
      | byte =>
        cases out with
        | zero => simp [pair_scan]
        | succ n =>
          have := ih PairState.tag n
          simp only [pair_scan, List.length_cons]
          omega
      | done => simp [pair_scan]
      | bad => simp [pair_scan]
  progress := by
    intro st inp out _ _ h
    simp only [pair_inflate, pair_ret] at h ⊢
    by_contra hc
    have hc2 : (pair_scan st inp out).2.1 = 0 ∧ (pair_scan st inp out).2.2 = [] := by
      constructor
      · omega
      · by_contra h3
        exact hc (Or.inr h3)
    rw [if_pos hc2] at h
    split at h
    · exact absurd h (by decide)
    · split at h <;> exact absurd h (by decide)
  progress_end := by
    intro st inp out hne _
    cases inp with
    | nil => exact absurd rfl hne
    | cons t rest =>
      show 0 < (pair_scan PairState.tag (t :: rest) out).2.1
      simp only [pair_scan]
      split
      · simp
      · split <;> simp

/-! ## Files opened for writing -/

/-- A `FILE*` opened with mode "wb": the bytes written so far and how many more bytes the
device accepts (`none`: no limit). -/
structure OFILE where
  data : List Nat
  room : Option Nat
deriving DecidableEq, Repr

/-- The call `fwrite(buf, n, 1, fp)` with `bytes` the `n` bytes at `buf`: the number of
items written (1, or 0 on failure; 0 too when `n` is 0, as the C standard says) and the
file afterwards. -/
def fwrite (f : OFILE) (bytes : List Nat) : Nat × OFILE :=
  if bytes.length = 0 then (0, f)
  else
    match f.room with
    | none => (1, { f with data := f.data ++ bytes })
    | some n =>
      if bytes.length ≤ n then (1, { data := f.data ++ bytes, room := some (n - bytes.length) })
      else (0, f)

/-! ## The encoder (zlib deflate) as an external deterministic step function -/

/-- The two flush directives the writers pass to `deflate`. -/
inductive Flush where
  | Z_SYNC_FLUSH
  | Z_FINISH
deriving DecidableEq, Repr

/-- What one call `deflate(&zstrm_, flush)` does. -/
structure DeflateResult (σ : Type) where
  state : σ
  consumed : Nat
  produced : List Nat
  ret : Int

/-- The zlib encoder. `deflate st inp out fl` is a call with `avail_in = inp.length` bytes
`inp` at `next_in` and `avail_out = out`. `rank` bounds how often `deflate` can go on
returning `Z_OK` under one directive when given no new input: each such call either
consumes input or emits pending output. -/
structure Deflater where
  State : Type
  deflateInit2 : State × Int
  deflateReset : State → State × Int
  deflateEnd : State → Int
  deflate : State → List Nat → Nat → Flush → DeflateResult State
  consumed_le : ∀ st inp out fl, (deflate st inp out fl).consumed ≤ inp.length
  produced_le : ∀ st inp out fl, (deflate st inp out fl).produced.length ≤ out
  rank : State → Nat → Flush → Nat
  rank_lt : ∀ st inp out fl, (deflate st inp out fl).ret = Z_OK →
    rank (deflate st inp out fl).state (inp.length - (deflate st inp out fl).consumed) fl
      < rank st inp.length fl

/-- What a writer does to its codec and its file, in order. This record is not a member
of the C++ classes: it instruments the calls the methods make.
`drain fl bytes`: `next_in`/`avail_in` are set to the pending `bytes` ahead of a loop of
`deflate(_, fl)` calls; `deflate fl consumed ret`: one such call;
`reset`: `deflateReset`; `deflate_end`: `deflateEnd`; `fclose`: `fclose`. -/
inductive Event where
  | drain (fl : Flush) (bytes : List Nat)
  | deflate (fl : Flush) (consumed : Nat) (ret : Int)
  | reset
  | deflate_end
  | fclose
deriving DecidableEq, Repr

namespace gz

/-- The class `gz::obuf`. `cbuf` holds the `compressed_buffer_.size() - avail_out` bytes
between `compressed_buffer_.data()` and `next_out`; `pbuf` holds the bytes between
`decompressed_buffer_.data()` and `pptr()`, so that `epptr() - pptr()` is
`default_block_size - pbuf.length` while the file is open. With a null file the put area
is empty (`setp(end, end)`). `log` is the instrumentation. -/
structure obuf (D : Deflater) where
  zstrm_ : D.State
  zlib_res_ : Int
  cbuf : List Nat
  pbuf : List Nat
  fp_ : Option OFILE
  log : List Event

variable {D : Deflater}

/-- The constructor `obuf(FILE* fp)`; with a null handle `zlib_res_` is uninitialised. -/
def obuf.init (D : Deflater) (fp : Option OFILE) (res0 : Int) : obuf D :=
  { zstrm_ := D.deflateInit2.1
    zlib_res_ := match fp with
      | some _ => D.deflateInit2.2
      | none => res0
    cbuf := []
    pbuf := []
    fp_ := fp
    log := [] }

/-- The `while` loop shared by `gz::obuf::overflow` and `gz::obuf::sync`, on the input
`inp` still at `next_in`. The result is the state, the input left, and `false` when the
loop was left by the early `return` after a failed `fwrite`. -/
def deflate_loop : Nat → obuf D → List Nat → obuf D × List Nat × Bool
  | 0, s, inp => (s, inp, true)
  | fuel + 1, s, inp =>
    if s.zlib_res_ = Z_OK ∧ 0 < inp.length then
      match s.fp_ with
      | none => (s, inp, true)
      | some f =>
        let r := D.deflate s.zstrm_ inp (default_block_size - s.cbuf.length) Flush.Z_SYNC_FLUSH
        let cb := s.cbuf ++ r.produced
        let s1 := { s with
          zstrm_ := r.state
          zlib_res_ := r.ret
          cbuf := cb
          log := s.log ++ [Event.deflate Flush.Z_SYNC_FLUSH r.consumed r.ret] }
        if 0 < cb.length ∧ (fwrite f cb).1 = 0 then (s1, inp.drop r.consumed, false)
        else
          deflate_loop fuel
            { s1 with cbuf := [], fp_ := some (if 0 < cb.length then (fwrite f cb).2 else f) }
            (inp.drop r.consumed)
    else (s, inp, true)

/-- The `deflateReset` that follows the loop in `overflow` when the codec reports
`Z_STREAM_END`. -/
def reset_if_stream_end (s : obuf D) : obuf D :=
  if s.zlib_res_ = Z_STREAM_END then
    { s with
      zstrm_ := (D.deflateReset s.zstrm_).1
      zlib_res_ := (D.deflateReset s.zstrm_).2
      log := s.log ++ [Event.reset] }
  else s

/-- The method `gz::obuf::overflow`; `none` is `traits_type::eof()`. -/
def overflow (s : obuf D) (c : Nat) : Option Nat × obuf D :=
  match s.fp_ with
  | none => (none, s)
  | some _ =>
    if s.pbuf.length < default_block_size then
      let s1 := { s with pbuf := s.pbuf ++ [c % 256] }
      (if s1.zlib_res_ = Z_OK then some (c % 256) else none, s1)
    else
      let s0 := { s with log := s.log ++ [Event.drain Flush.Z_SYNC_FLUSH s.pbuf] }
      let r := deflate_loop (D.rank s.zstrm_ s.pbuf.length Flush.Z_SYNC_FLUSH + 1) s0 s.pbuf
      if r.2.2 = false then (none, r.1)
      else
        let s2 := { reset_if_stream_end r.1 with pbuf := [c % 256] }
        (if s2.zlib_res_ = Z_OK then some (c % 256) else none, s2)

/-- The method `gz::obuf::sync`. -/
def sync (s : obuf D) : Int × obuf D :=
  match s.fp_ with
  | none => (-1, s)
  | some _ =>
    if 0 < s.pbuf.length then
      let s0 := { s with log := s.log ++ [Event.drain Flush.Z_SYNC_FLUSH s.pbuf] }
      let r := deflate_loop (D.rank s.zstrm_ s.pbuf.length Flush.Z_SYNC_FLUSH + 1) s0 s.pbuf
      if r.2.2 = false then (-1, r.1)
      else if r.1.zlib_res_ ≠ Z_OK then (-1, r.1)
      else (0, { r.1 with pbuf := [] })
    else (0, s)

/-- The method `gz::obuf::close` (also run by the destructor). The second component is the
file that `fclose` closed. -/
def close (s : obuf D) : obuf D × Option OFILE :=
  match s.fp_ with
  | none => (s, none)
  | some _ =>
    let t := (sync s).2
    let res := D.deflateEnd t.zstrm_
    ({ t with
       zlib_res_ := if t.zlib_res_ = Z_OK then res else t.zlib_res_
       fp_ := none
       log := t.log ++ [Event.deflate_end, Event.fclose] }, t.fp_)

/-- The inherited `std::streambuf::sputc`: store the byte when the put area has room, else
call `overflow`. -/
def sputc (s : obuf D) (c : Nat) : Option Nat × obuf D :=
  match s.fp_ with
  | none => overflow s c
  | some _ =>
    if s.pbuf.length < default_block_size then (some (c % 256), { s with pbuf := s.pbuf ++ [c % 256] })
    else overflow s c

/-- Insert the bytes `cs` with successive `sputc` calls. -/
def write (s : obuf D) (cs : List Nat) : obuf D :=
  cs.foldl (fun t c => (sputc t c).2) s

end gz

namespace bgz

/-- The class `bgz::obuf`: the same members as `gz::obuf`. -/
abbrev obuf (D : Deflater) := gz.obuf D

variable {D : Deflater}

/-- The `while (zlib_res_ == Z_OK)` loop shared by `bgz::obuf::overflow` and
`bgz::obuf::sync`: `deflate(_, Z_FINISH)`, then an unguarded `fwrite`. -/
def deflate_loop : Nat → obuf D → List Nat → obuf D × List Nat × Bool
  | 0, s, inp => (s, inp, true)
  | fuel + 1, s, inp =>
    if s.zlib_res_ = Z_OK then
      match s.fp_ with
      | none => (s, inp, true)
      | some f =>
        let r := D.deflate s.zstrm_ inp (default_block_size - s.cbuf.length) Flush.Z_FINISH
        let cb := s.cbuf ++ r.produced
        let s1 := { s with
          zstrm_ := r.state
          zlib_res_ := r.ret
          cbuf := cb
          log := s.log ++ [Event.deflate Flush.Z_FINISH r.consumed r.ret] }
        if (fwrite f cb).1 = 0 then (s1, inp.drop r.consumed, false)
        else
          deflate_loop fuel { s1 with cbuf := [], fp_ := some (fwrite f cb).2 }
            (inp.drop r.consumed)
    else (s, inp, true)

/-- The method `bgz::obuf::overflow`. -/
def overflow (s : obuf D) (c : Nat) : Option Nat × obuf D :=
  match s.fp_ with
  | none => (none, s)
  | some _ =>
    if s.pbuf.length < default_block_size then
      let s1 := { s with pbuf := s.pbuf ++ [c % 256] }
      (if s1.zlib_res_ = Z_OK then some (c % 256) else none, s1)
    else
      let s0 := { s with log := s.log ++ [Event.drain Flush.Z_FINISH s.pbuf] }
      let r := deflate_loop (D.rank s.zstrm_ s.pbuf.length Flush.Z_FINISH + 1) s0 s.pbuf
      if r.2.2 = false then (none, r.1)
      else
        let s2 := { gz.reset_if_stream_end r.1 with pbuf := [c % 256] }
        (if s2.zlib_res_ = Z_OK then some (c % 256) else none, s2)

/-- The method `bgz::obuf::sync`. -/
def sync (s : obuf D) : Int × obuf D :=
  match s.fp_ with
  | none => (-1, s)
  | some _ =>
    if 0 < s.pbuf.length then
      let s0 := { s with log := s.log ++ [Event.drain Flush.Z_FINISH s.pbuf] }
      let r := deflate_loop (D.rank s.zstrm_ s.pbuf.length Flush.Z_FINISH + 1) s0 s.pbuf
      if r.2.2 = false then (-1, r.1)
      else
        let s1 := gz.reset_if_stream_end r.1
        if s1.zlib_res_ ≠ Z_OK then (-1, s1)
        else (0, { s1 with pbuf := [] })
    else (0, s)

/-- The method `bgz::obuf::close` (also run by the destructor). -/
def close (s : obuf D) : obuf D × Option OFILE :=
  match s.fp_ with
  | none => (s, none)
  | some _ =>
    let t := (sync s).2
    let res := D.deflateEnd t.zstrm_
    ({ t with
       zlib_res_ := if t.zlib_res_ = Z_OK then res else t.zlib_res_
       fp_ := none
       log := t.log ++ [Event.deflate_end, Event.fclose] }, t.fp_)

/-- The inherited `std::streambuf::sputc`. -/
def sputc (s : obuf D) (c : Nat) : Option Nat × obuf D :=
  match s.fp_ with
  | none => overflow s c
  | some _ =>
    if s.pbuf.length < default_block_size then (some (c % 256), { s with pbuf := s.pbuf ++ [c % 256] })
    else overflow s c

/-- Insert the bytes `cs` with successive `sputc` calls. -/
def write (s : obuf D) (cs : List Nat) : obuf D :=
  cs.foldl (fun t c => (sputc t c).2) s

end bgz

/-! ## A concrete encoder, the counterpart of the pair decoder -/

/-- The pair encoding of a plaintext: `[1, b]` for each byte `b`. -/
def pair_encode : List Nat → List Nat
  | [] => []
  | b :: rest => 1 :: b :: pair_encode rest

/-- The state of the pair encoder: output not yet delivered, whether a member was begun,
and whether its end marker was queued. -/
structure PairEnc where
  queue : List Nat
  started : Bool
  finished : Bool
deriving DecidableEq, Repr

/-- All the output the pair encoder owes after taking `inp` under directive `fl`. -/
def pair_owed (st : PairEnc) (inp : List Nat) (fl : Flush) : List Nat :=
  st.queue ++ pair_encode inp ++ (if fl = Flush.Z_FINISH ∧ st.finished = false then [0] else [])

/-- One `deflate` call of the pair encoder: it takes all the input, and delivers as much
of what it owes as the output window holds. -/
def pair_deflate (st : PairEnc) (inp : List Nat) (out : Nat) (fl : Flush) :
    DeflateResult PairEnc :=
  if out = 0 then { state := st, consumed := 0, produced := [], ret := Z_BUF_ERROR }
  else if st.finished = true ∧ inp ≠ [] then
    { state := st, consumed := 0, produced := [], ret := Z_STREAM_ERROR }
  else
    let q := pair_owed st inp fl
    { state := { queue := q.drop out, started := true,
                 finished := st.finished || decide (fl = Flush.Z_FINISH) }
      consumed := inp.length
      produced := q.take out
      ret := if fl = Flush.Z_FINISH then (if q.drop out = [] then Z_STREAM_END else Z_OK)
             else if q = [] then Z_BUF_ERROR else Z_OK }

/-- The pair encoder as an instance of the encoder interface. `deflateEnd` reports
`Z_DATA_ERROR` when a member was begun and not finished, as zlib does. -/
def pair_deflater : Deflater where
  State := PairEnc
  deflateInit2 := ({ queue := [], started := false, finished := false }, Z_OK)
  deflateReset := fun _ => ({ queue := [], started := false, finished := false }, Z_OK)
  deflateEnd := fun st =>
    if st.started = true ∧ ¬ (st.finished = true ∧ st.queue = []) then Z_DATA_ERROR else Z_OK
  deflate := pair_deflate
  consumed_le := by
    intro st inp out fl
    unfold pair_deflate
    split
    · simp
    · split <;> simp
  produced_le := by
    intro st inp out fl
    unfold pair_deflate
    split
    · simp
    · split
      · simp
      · simp only [List.length_take]
        omega
  rank := fun st n _ => st.queue.length + 2 * n + (if st.finished = true then 0 else 1)
  rank_lt := by
    intro st inp out fl h
    have hlen : ∀ xs : List Nat, (pair_encode xs).length = 2 * xs.length := by
      intro xs
      induction xs with
      | nil => rfl
      | cons b rest ih => simp only [pair_encode, List.length_cons, ih]; omega
    unfold pair_deflate at h ⊢
    split at h
    · simp [Z_BUF_ERROR, Z_OK] at h
    · split at h
      · simp [Z_STREAM_ERROR, Z_OK] at h
      · rename_i hout hfin
        rw [if_neg hout, if_neg hfin]
        simp only [] at h ⊢
        cases fl with
        | Z_FINISH =>
          have hq : (pair_owed st inp Flush.Z_FINISH).drop out ≠ [] := by
            intro hc
            simp [hc, Z_STREAM_END, Z_OK] at h
          have hq2 : out < (pair_owed st inp Flush.Z_FINISH).length := by
            by_contra hc
            exact hq (List.drop_eq_nil_of_le (by omega))
          simp only [pair_owed, true_and, List.length_append, hlen] at hq2
          simp only [pair_owed, true_and, List.length_drop, List.length_append, hlen,
            decide_True, Bool.or_true, if_true]
          cases hf : st.finished <;> simp [hf] at hq2 ⊢ <;> omega
        | Z_SYNC_FLUSH =>
          have hq : pair_owed st inp Flush.Z_SYNC_FLUSH ≠ [] := by
            intro hc
            simp [hc, Z_BUF_ERROR, Z_OK] at h
          have hq2 : 0 < (pair_owed st inp Flush.Z_SYNC_FLUSH).length :=
            List.length_pos.mpr hq
          simp only [pair_owed, List.length_append, hlen] at hq2
          simp only [pair_owed, List.length_drop, List.length_append, hlen]
          simp at hq2 ⊢
          omega

/-! ## Concrete inputs -/

/-- A file holding the pair `[1, 5]` followed by the invalid tag `7`. -/
def corrupt_file : FILE := { data := [1, 5, 7], pos := 0, eof := false, seekable := true }

namespace gz

variable {C : Inflater}

/-- A termination measure for the loop of `underflow`: it weighs the compressed bytes not
yet consumed, the bytes still to be discarded, the end-of-file indicator and the codec
status. -/
def ibuf.weight (s : ibuf C) : Nat :=
  3 * (s.file_rest + s.next_in.length + s.discard_amount_)
    + (match s.fp_ with
       | some f => if f.eof = true then 0 else 2
       | none => 0)
    + (if s.zlib_res_ = Z_STREAM_END then 0 else 1)

/-- The loop of `underflow` run to its exit. -/
def underflow_run (s : ibuf C) : ibuf C := underflow_loop s.passes s

end gz

namespace gz

variable {C : Inflater}

/-- The reader `a` is the reader `b` with `j` further bytes still to be skipped: the two
agree on file, codec and block position, `b` owes no discard, and the cursor and
`discard_amount_` of `a` are those of `b` moved `j` bytes on. -/
structure Sim (j : Nat) (a b : ibuf C) : Prop where
  fp : a.fp_ = b.fp_
  zstrm : a.zstrm_ = b.zstrm_
  next_in : a.next_in = b.next_in
  res : a.zlib_res_ = b.zlib_res_
  cbp : a.current_block_position_ = b.current_block_position_
  ubo : a.uncompressed_block_offset_ = b.uncompressed_block_offset_
  gbuf : a.gbuf = b.gbuf
  bdisc : b.discard_amount_ = 0
  bpos : b.gpos ≤ b.gbuf.length
  gpos : a.gpos = min (b.gpos + j) b.gbuf.length
  disc : a.discard_amount_ = (b.gpos + j) - b.gbuf.length

/-- What `sbumpc` returns once the refill loop has run: end-of-data on a codec error or an
empty get area, else the byte at the cursor, which it passes. -/
def bump (t : ibuf C) : Option Nat × ibuf C :=
  if t.zlib_res_ ≠ Z_OK ∧ t.zlib_res_ ≠ Z_STREAM_END then (none, t)
  else if t.gbuf.length ≤ t.gpos then (none, t)
  else (t.gbuf.get? t.gpos, { t with gpos := t.gpos + 1 })

/-- Unread bytes are present only under a codec status that is not an error. -/
def ibuf.status_ok (s : ibuf C) : Prop :=
  s.gpos < s.gbuf.length → s.zlib_res_ = Z_OK ∨ s.zlib_res_ = Z_STREAM_END

end gz

/-- A file of two pair-encoded members, `[10, 11, 12]` at byte 0 and `[20, 21, 22]` at
byte 7. -/
def two_member_file : FILE :=
  { data := [1, 10, 1, 11, 1, 12, 0, 1, 20, 1, 21, 1, 22, 0], pos := 0, eof := false,
    seekable := true }

/-- A fresh block-indexed reader on `two_member_file`. -/
def two_member_reader : gz.ibuf pair_inflater :=
  gz.ibuf.init pair_inflater (some two_member_file) 0

/-- The reader on `two_member_file` after one byte was read: inside the first member. -/
def inside_reader : gz.ibuf pair_inflater := (gz.read 1 two_member_reader).2

/-- An empty file opened for writing on a device without a size limit. -/
def empty_ofile : OFILE := { data := [], room := none }

/-- The plaintext of each member a writer emitted, read off its log. A member is emitted
by a `reset` (the `deflateReset` that follows a finished stream). Its first component is the
number of bytes it was given: the sizes of the drains since the previous `reset`. Its second
component is the number of bytes it took: what the `deflate` calls since the previous
`reset` consumed. `given` and `took` are the two running sums. -/
def members_aux : Nat → Nat → List Event → List (Nat × Nat)
  | _, _, [] => []
  | given, took, Event.drain _ bs :: es => members_aux (given + bs.length) took es
  | given, took, Event.deflate _ c _ :: es => members_aux given (took + c) es
  | given, took, Event.reset :: es => (given, took) :: members_aux 0 0 es
  | given, took, Event.deflate_end :: es => members_aux given took es
  | given, took, Event.fclose :: es => members_aux given took es

/-- The members in a writer log: for each, the bytes it was given and the bytes it took. -/
def members (log : List Event) : List (Nat × Nat) := members_aux 0 0 log

/-- The two requests a caller makes on an open writer: insert a byte, flush. -/
inductive WriterOp where
  | put (c : Nat)
  | flush
deriving DecidableEq, Repr

namespace bgz

variable {D : Deflater}

/-- One request on the block-indexed writer. -/
def step (s : obuf D) : WriterOp → obuf D
  | WriterOp.put c => (sputc s c).2
  | WriterOp.flush => (sync s).2

/-- A sequence of requests on the block-indexed writer. -/
def run (s : obuf D) (ops : List WriterOp) : obuf D := ops.foldl step s

end bgz

/-- A log that ends between two members: its members are `ms`, and nothing was given or
taken since the last of them. -/
def Balanced (log : List Event) (ms : List (Nat × Nat)) : Prop :=
  ∀ rest, members_aux 0 0 (log ++ rest) = ms ++ members_aux 0 0 rest

/-- A block-indexed writer over the pair encoder between two members: the codec fresh, no
compressed output pending, `pb` in the accumulation buffer, `data` in the file, `lg` logged. -/
def pair_writer (pb data : List Nat) (lg : List Event) : bgz.obuf pair_deflater :=
  { zstrm_ := { queue := [], started := false, finished := false }
    zlib_res_ := Z_OK
    cbuf := []
    pbuf := pb
    fp_ := some { data := data, room := none }
    log := lg }

/-- The bytes of "hello world". -/
def hello_world : List Nat := [104, 101, 108, 108, 111, 32, 119, 111, 114, 108, 100]

/-- A closed file reopened for reading. -/
def reopen (f : Option OFILE) : Option FILE :=
  f.map (fun g => { data := g.data, pos := 0, eof := false, seekable := true })

/-- The plaintext of scenario B at its smallest: a full member of 65536 zero bytes and one
further byte 1. -/
def full_member_input : List Nat := List.replicate 65536 0 ++ [1]

/-- The file the block-indexed writer produces for `full_member_input` over the pair
encoder, reopened for reading. -/
def full_member_file : Option FILE :=
  reopen (bgz.close (bgz.write (gz.obuf.init pair_deflater (some empty_ofile) 0)
    full_member_input)).2

/-- A fresh block-indexed reader on `full_member_file`. -/
def full_member_reader : gz.ibuf pair_inflater := gz.ibuf.init pair_inflater full_member_file 0

/-- The pair-encoded file of a member `xa ++ xa` followed by the one-byte member `[y]`. -/
def two_window_file (xa : List Nat) (y : Nat) : List Nat :=
  pair_encode xa ++ (pair_encode xa ++ (0 :: (pair_encode [y] ++ [0])))

/-- The block-indexed reader on `two_window_file xa y`, its file at `pos`, its get area
`gb` with the cursor at `gp`, after `ubo` bytes of the first member were produced. -/
def two_window_reader (xa : List Nat) (y : Nat) (gb : List Nat) (gp ubo pos : Nat) :
    gz.ibuf pair_inflater :=
  { zstrm_ := PairState.tag, next_in := [], zlib_res_ := Z_OK, gbuf := gb, gpos := gp,
    discard_amount_ := 0, current_block_position_ := 0, uncompressed_block_offset_ := ubo,
    fp_ := some { data := two_window_file xa y, pos := pos, eof := false, seekable := true } }

/-- The plaintext of scenario B: 70000 bytes of the repeating pattern `0x00..0xFF`. -/
def pattern_input : List Nat := (List.range 70000).map (fun i => i % 256)

/-- The file the block-indexed writer produces for `pattern_input` over the pair encoder,
reopened for reading. -/
def pattern_file : Option FILE :=
  reopen (bgz.close (bgz.write (gz.obuf.init pair_deflater (some empty_ofile) 0)
    pattern_input)).2

/-- A block-indexed reader over the pair decoder right after a seek to member start `c`
and intra-member offset `k` on the file `data`, no byte having been produced before. -/
def seeked_reader (data : List Nat) (c k : Nat) : gz.ibuf pair_inflater :=
  { zstrm_ := PairState.tag, next_in := [], zlib_res_ := Z_OK, gbuf := [], gpos := 0,
    discard_amount_ := k, current_block_position_ := c, uncompressed_block_offset_ := 0,
    fp_ := some { data := data, pos := c, eof := false, seekable := true } }

/-- The requests a caller makes on a block-indexed reader: get a byte (`sbumpc`), look at
the next byte (`sgetc`), seek to a virtual offset (`seekpos`). -/
inductive ReaderOp where
  | get
  | peek
  | seek (pos : Int)
deriving DecidableEq, Repr

namespace bgz

variable {C : Inflater}

/-- One request on the block-indexed reader. -/
def rstep (s : gz.ibuf C) : ReaderOp → gz.ibuf C
  | ReaderOp.get => (gz.sbumpc s).2
  | ReaderOp.peek => (gz.sgetc s).2
  | ReaderOp.seek pos => (seekpos s pos 0).2

/-- A sequence of requests on the block-indexed reader. -/
def rrun (s : gz.ibuf C) (ops : List ReaderOp) : gz.ibuf C := ops.foldl rstep s

end bgz

namespace gz

variable {C : Inflater}

/-- The invariant `cursor ≤ end ≤ capacity` of the get area, with the range of the
`std::uint16_t` member `discard_amount_`. -/
def ibuf.cursor_ok (s : ibuf C) : Prop :=
  s.gpos ≤ s.gbuf.length ∧ s.gbuf.length ≤ default_block_size ∧ s.discard_amount_ < 2 ^ 16

end gz

namespace gz

variable {C : Inflater}

/-- The refill step of the loop body: `replenish_compressed_buffer` when the compressed
buffer is exhausted and the file is not at end. -/
def underflow_refill (s : ibuf C) : ibuf C :=
  match s.fp_ with
  | none => s
  | some f => if s.next_in.length = 0 ∧ feof f = false then replenish_compressed_buffer s else s

end gz

namespace gz

variable {C : Inflater}

end gz

/-- The plaintext a writer handed to its encoder, read off its log: the bytes of every
drain, in order. -/
def drained : List Event → List Nat
  | [] => []
  | Event.drain _ bs :: es => bs ++ drained es
  | Event.deflate _ _ _ :: es => drained es
  | Event.reset :: es => drained es
  | Event.deflate_end :: es => drained es
  | Event.fclose :: es => drained es

/-- The byte sequence the insert requests of `ops` put into a writer. -/
def inserted : List WriterOp → List Nat
  | [] => []
  | WriterOp.put c :: ops => (c % 256) :: inserted ops
  | WriterOp.flush :: ops => inserted ops

namespace gz

variable {D : Deflater}

/-- One request on the gzip writer. -/
def step (s : obuf D) : WriterOp → obuf D
  | WriterOp.put c => (sputc s c).2
  | WriterOp.flush => (sync s).2

/-- Whether a request on the gzip writer reports success: `sputc` does not return
`traits_type::eof()`, `sync` returns 0. -/
def step_ok (s : obuf D) : WriterOp → Bool
  | WriterOp.put c => (sputc s c).1.isSome
  | WriterOp.flush => decide ((sync s).1 = 0)

/-- A sequence of requests on the gzip writer. -/
def run (s : obuf D) (ops : List WriterOp) : obuf D := ops.foldl step s

/-- Whether every request of a sequence on the gzip writer reports success. -/
def run_ok : obuf D → List WriterOp → Bool
  | _, [] => true
  | s, op :: ops => step_ok s op && run_ok (step s op) ops

end gz

namespace bgz

variable {D : Deflater}

/-- Whether a request on the block-indexed writer reports success. -/
def step_ok (s : obuf D) : WriterOp → Bool
  | WriterOp.put c => (sputc s c).1.isSome
  | WriterOp.flush => decide ((sync s).1 = 0)

/-- Whether every request of a sequence on the block-indexed writer reports success. -/
def run_ok : obuf D → List WriterOp → Bool
  | _, [] => true
  | s, op :: ops => step_ok s op && run_ok (step s op) ops

end bgz

/-! ## A concrete zstd decoder

The pair codec behind the zstd interface: `ZSTD_decompressStream` returns 0 when a frame is
completely decoded, an error code on a bad tag, and a positive hint otherwise. -/

/-- The return value of a call of the pair decoder through the zstd interface. -/
def pair_zret (st : PairState) : Nat :=
  if st = PairState.done then 0
  else if st = PairState.bad then 2 ^ 64 - 20
  else 1

/-- The pair decoder as an instance of the zstd decoder interface. `isError` is the test
`code > (size_t)-ZSTD_error_maxCode` of `ZSTD_isError`. -/
def pair_zdecoder : ZDecoder where
  State := PairState
  createDStream := PairState.tag
  initDStream := fun _ => (PairState.tag, 1)
  resetDStream := fun _ => (PairState.tag, 1)
  decompressStream := fun st inp out =>
    { state := (pair_scan st inp out).1
      consumed := (pair_scan st inp out).2.1
      produced := (pair_scan st inp out).2.2
      ret := pair_zret (pair_scan st inp out).1 }
  isError := fun r => decide (2 ^ 64 - 120 < r)
  DStreamInSize := 131075
  DStreamOutSize := 131072

/-- A file of two pair-encoded members: an empty one at byte 0 and `[20]` at byte 1. -/
def empty_member_file : FILE :=
  { data := [0, 1, 20, 0], pos := 0, eof := false, seekable := true }

/-- A fresh zstd reader on `empty_member_file`. -/
def empty_member_zreader : zstd.ibuf pair_zdecoder :=
  zstd.ibuf.init pair_zdecoder (some empty_member_file) 0

/-- A fresh gzip reader on `empty_member_file`. -/
def empty_member_reader : gz.ibuf pair_inflater :=
  gz.ibuf.init pair_inflater (some empty_member_file) 0

namespace bgz

variable {C : Inflater}

/-- The move assignment `bgz::ibuf::operator=(ibuf&& src)`. An object is its address and its
state; the result is the states of `*this` and of `src` when the call returns. Inside the
class `bgz::ibuf` the name `ibuf` is the injected class name of `bgz::ibuf` itself, so the
call `ibuf::operator=(std::move(src))` in the body is a call of this same operator on the
same two objects. `depth` bounds the depth of nested calls: `none` means the bound was
reached before the outermost call returned. -/
def move_assign : Nat → Nat × gz.ibuf C → Nat × gz.ibuf C → Option (gz.ibuf C × gz.ibuf C)
  | 0, _, _ => none
  | depth + 1, this_, src =>
    if src.1 ≠ this_.1 then move_assign depth this_ src
    else some (this_.2, src.2)

end bgz

/-- The number of plaintext bytes the encoder consumed, read off a writer log: the sum over
its `deflate` calls. -/
def taken : List Event → Nat
  | [] => 0
  | Event.drain _ _ :: es => taken es
  | Event.deflate _ c _ :: es => c + taken es
  | Event.reset :: es => taken es
  | Event.deflate_end :: es => taken es
  | Event.fclose :: es => taken es

theorem to_u64_to_pos (v : Nat) : to_u64 (to_pos v) = v % 2 ^ 64 := by
  unfold to_u64 to_pos
  split <;> omega

theorem to_u64_lt (p : Int) : to_u64 p < 2 ^ 64 := by
  unfold to_u64
  omega

theorem virtual_offset_arith (c k : Nat) :
    virtual_offset c k = 2 ^ 16 * (c % 2 ^ 48) + k % 2 ^ 16 := by
  unfold virtual_offset
  rw [Nat.shiftLeft_eq, Nat.mul_add_lt_is_or (Nat.mod_lt _ (by norm_num))]
  congr 1
  omega

theorem seekpos_compressed_offset_eq (p : Int) :
    seekpos_compressed_offset p = to_u64 p / 2 ^ 16 := by
  unfold seekpos_compressed_offset
  have h := to_u64_lt p
  rw [Nat.shiftRight_eq_div_pow]
  have : (0x0000FFFFFFFFFFFF : Nat) = 2 ^ 48 - 1 := by norm_num
  rw [this, Nat.and_pow_two_sub_one_eq_mod]
  omega

theorem seekpos_uncompressed_offset_eq (p : Int) :
    seekpos_uncompressed_offset p = to_u64 p % 2 ^ 16 := by
  unfold seekpos_uncompressed_offset
  have : (0x000000000000FFFF : Nat) = 2 ^ 16 - 1 := by norm_num
  rw [this, Nat.and_pow_two_sub_one_eq_mod]
  omega

/-- C4: the value `(c << 16) | k` packed by `tell`, for a member start `c < 2^48` and an
intra-member offset `k < 2^16`, is split by `seekpos` into exactly `(c, k)`, with `c` in
bits 16-63 and `k` in bits 0-15; and for every 64-bit value `v`, repacking the two
coordinates `seekpos` extracts from `v` gives back `v`. -/
theorem virtual_offset_wire_format :
    (∀ c k : Nat, c < 2 ^ 48 → k < 2 ^ 16 →
      seekpos_compressed_offset (to_pos (virtual_offset c k)) = c ∧
      seekpos_uncompressed_offset (to_pos (virtual_offset c k)) = k ∧
      virtual_offset c k / 2 ^ 16 = c ∧ virtual_offset c k % 2 ^ 16 = k ∧
      virtual_offset c k < 2 ^ 64) ∧
    (∀ v : Nat, v < 2 ^ 64 →
      virtual_offset (seekpos_compressed_offset (to_pos v))
        (seekpos_uncompressed_offset (to_pos v)) = v) := by
  constructor
  · intro c k hc hk
    rw [seekpos_compressed_offset_eq, seekpos_uncompressed_offset_eq, to_u64_to_pos,
      virtual_offset_arith]
    omega
  · intro v hv
    rw [seekpos_compressed_offset_eq, seekpos_uncompressed_offset_eq, to_u64_to_pos,
      virtual_offset_arith]
    omega

theorem virtual_offset_wire_format_witness :
    (seekpos_compressed_offset (to_pos (virtual_offset 1000 7)) = 1000 ∧
      seekpos_uncompressed_offset (to_pos (virtual_offset 1000 7)) = 7 ∧
      virtual_offset 1000 7 / 2 ^ 16 = 1000 ∧ virtual_offset 1000 7 % 2 ^ 16 = 7 ∧
      virtual_offset 1000 7 < 2 ^ 64) ∧
    virtual_offset (seekpos_compressed_offset (to_pos 65536007))
      (seekpos_uncompressed_offset (to_pos 65536007)) = 65536007 :=
  ⟨virtual_offset_wire_format.1 1000 7 (by norm_num) (by norm_num),
   virtual_offset_wire_format.2 65536007 (by norm_num)⟩

/-! ### tell -/

theorem to_u64_natCast (n : Nat) : to_u64 (n : Int) = n % 2 ^ 64 := by
  unfold to_u64
  omega

theorem sub_u64_mod (a b : Nat) : sub_u64 (a % 2 ^ 64) b = sub_u64 a b := by
  unfold sub_u64
  omega

theorem ftell_seekable (f : FILE) (h : f.seekable = true) : ftell f = (f.pos : Int) := by
  unfold ftell
  rw [if_pos h]

theorem sub_u64_ftell (f : FILE) (n : Nat) (h : f.seekable = true) :
    sub_u64 (to_u64 (ftell f)) n = sub_u64 f.pos n := by
  rw [ftell_seekable f h, to_u64_natCast, sub_u64_mod]

theorem sub_u64_ftell_mk (d : List Nat) (p n : Nat) (e : Bool) :
    sub_u64 (to_u64 (ftell { data := d, pos := p, eof := e, seekable := true })) n
      = sub_u64 p n :=
  sub_u64_ftell _ n rfl

/-- C7: `seekoff` of the plain gzip reader returns the failure position -1 and leaves the
reader state (buffers, cursor, codec status, block position state, file) unchanged, for
every offset, direction and open mode; so does `seekoff` of the zstd reader. -/
theorem seekoff_unsupported (C : Inflater) (Z : ZDecoder) :
    (∀ (s : gz.ibuf C) (off : Int) (way : gz.seekdir) (which : Nat),
      gz.seekoff s off way which = (-1, s)) ∧
    (∀ (s : zstd.ibuf Z) (off : Int) (way : gz.seekdir) (which : Nat),
      zstd.seekoff s off way which = (-1, s)) :=
  ⟨fun _ _ _ _ => rfl, fun _ _ _ _ => rfl⟩

/-! ### Decode errors -/

/-- C10 (evaluation of the code): on a file whose decode step yields one byte and then
reports `Z_DATA_ERROR`, the first `underflow` returns end-of-data and leaves the codec
status at the error, and the next `underflow` returns the byte 5. -/
theorem underflow_byte_after_error :
    (gz.underflow (gz.ibuf.init pair_inflater (some corrupt_file) 0)).1 = none ∧
    (gz.underflow (gz.ibuf.init pair_inflater (some corrupt_file) 0)).2.zlib_res_
      = Z_DATA_ERROR ∧
    (gz.underflow (gz.underflow (gz.ibuf.init pair_inflater (some corrupt_file) 0)).2).1
      = some 5 := by
  decide

/-! ### The refill loop terminates -/

namespace gz

variable {C : Inflater}

theorem underflow_cond_iff (s : ibuf C) :
    underflow_cond s = true ↔
      ∃ f, s.fp_ = some f ∧ (s.zlib_res_ = Z_OK ∨ s.zlib_res_ = Z_STREAM_END) ∧
        s.gbuf.length ≤ s.gpos ∧ (0 < s.next_in.length ∨ f.eof = false) := by
  unfold underflow_cond
  cases h : s.fp_ with
  | none => simp
  | some f => simp [feof, and_assoc]

theorem ibuf.weight_lt_passes (s : ibuf C) : s.weight < s.passes := by
  unfold ibuf.weight ibuf.passes
  have h1 : (match s.fp_ with
       | some f => if f.eof = true then 0 else 2
       | none => 0) ≤ 2 := by
    split
    · split <;> omega
    · omega
  have h2 : (if s.zlib_res_ = Z_STREAM_END then 0 else 1) ≤ 1 := by
    split <;> omega
  omega

theorem underflow_inflate_gpos (s : ibuf C) :
    (underflow_inflate s).gpos
      = min s.discard_amount_ (C.inflate s.zstrm_ s.next_in default_block_size).produced.length := by
  simp only [underflow_inflate]
  split
  · rfl
  · omega

theorem underflow_inflate_discard (s : ibuf C) :
    (underflow_inflate s).discard_amount_
      = s.discard_amount_ - (C.inflate s.zstrm_ s.next_in default_block_size).produced.length := by
  simp only [underflow_inflate]
  split <;> omega

theorem Z_OK_ne_Z_STREAM_END : Z_OK ≠ Z_STREAM_END := by decide

theorem underflow_inflate_weight (s : ibuf C) (f : FILE) (hf : s.fp_ = some f)
    (hne : s.next_in = [] → f.eof = true)
    (hres : s.zlib_res_ = Z_OK ∨ s.zlib_res_ = Z_STREAM_END)
    (hb : underflow_cond (underflow_inflate (underflow_reset s)) = true) :
    (underflow_inflate (underflow_reset s)).weight < s.weight := by
  obtain ⟨g, hg, hres2, hemp2, hin2⟩ := (underflow_cond_iff _).mp hb
  have hB : 0 < default_block_size := by decide
  rw [underflow_inflate_gpos] at hemp2
  have hfp : (underflow_inflate (underflow_reset s)).fp_ = some f := by
    simp only [underflow_inflate, underflow_reset, hf]
    split
    · rfl
    · exact hf
  have hrest : (underflow_inflate (underflow_reset s)).file_rest = s.file_rest := by
    simp only [ibuf.file_rest, hfp, hf]
  have hd := underflow_inflate_discard (underflow_reset s)
  have hds : (underflow_reset s).discard_amount_ = s.discard_amount_ := by
    simp only [underflow_reset, hf]
    split <;> rfl
  have hns : (underflow_reset s).next_in = s.next_in := by
    simp only [underflow_reset, hf]
    split <;> rfl
  have hnx : (underflow_inflate (underflow_reset s)).next_in.length
      = s.next_in.length
        - (C.inflate (underflow_reset s).zstrm_ s.next_in default_block_size).consumed := by
    simp only [underflow_inflate, List.length_drop, hns]
  have hgb : (underflow_inflate (underflow_reset s)).gbuf
      = (C.inflate (underflow_reset s).zstrm_ s.next_in default_block_size).produced := by
    simp only [underflow_inflate, hns]
  have hrt : (underflow_inflate (underflow_reset s)).zlib_res_
      = (C.inflate (underflow_reset s).zstrm_ s.next_in default_block_size).ret := by
    simp only [underflow_inflate, hns]
  rw [hns] at hd hemp2
  rw [hds] at hd hemp2
  rw [hgb] at hemp2
  rw [hrt] at hres2
  rw [hfp] at hg
  cases hg
  simp only [ibuf.weight, hrest, hnx, hd, hfp, hf, hrt]
  by_cases hr : s.zlib_res_ = Z_STREAM_END ∧ 0 < s.next_in.length
  · have hnn : s.next_in ≠ [] := List.length_pos.mp hr.2
    have hz : (underflow_reset s).zstrm_ = (C.inflateReset s.zstrm_).1 := by
      simp only [underflow_reset, hf, if_pos hr]
    rw [hz] at hres2 hemp2 ⊢
    have hp := C.progress (C.inflateReset s.zstrm_).1 s.next_in default_block_size hnn hB
    have he := C.progress_end s.zstrm_ s.next_in default_block_size hnn
    simp only [hr.1, if_true]
    rcases hres2 with h2 | h2
    · simp only [h2, Z_OK_ne_Z_STREAM_END, if_false]
      rcases hp h2 with h3 | h3
      · omega
      · have h4 := List.length_pos.mpr h3
        omega
    · simp only [h2, if_true]
      have h3 := he h2
      omega
  · have hz : (underflow_reset s).zstrm_ = s.zstrm_ := by
      simp only [underflow_reset, hf, if_neg hr]
    rw [hz] at hres2 hemp2 ⊢
    by_cases hnn : s.next_in = []
    · have := hne hnn
      rw [hnx] at hin2
      simp [hnn, this] at hin2
    · have hpos : 0 < s.next_in.length := List.length_pos.mpr hnn
      have hok : s.zlib_res_ = Z_OK := by
        rcases hres with h | h
        · exact h
        · exact absurd ⟨h, hpos⟩ hr
      have hp := C.progress s.zstrm_ s.next_in default_block_size hnn hB
      simp only [hok, Z_OK_ne_Z_STREAM_END, if_false]
      rcases hres2 with h2 | h2
      · simp only [h2, Z_OK_ne_Z_STREAM_END, if_false]
        rcases hp h2 with h3 | h3
        · omega
        · have h4 := List.length_pos.mpr h3
          omega
      · simp only [h2, if_true]
        omega

theorem underflow_body_weight (s : ibuf C) (h : underflow_cond s = true)
    (hb : underflow_cond (underflow_body s) = true) :
    (underflow_body s).weight < s.weight := by
  obtain ⟨f, hf, hres, hemp, hin⟩ := (underflow_cond_iff s).mp h
  unfold underflow_body at hb ⊢
  simp only [hf] at hb ⊢
  by_cases hrep : s.next_in.length = 0 ∧ feof f = false
  · rw [if_pos hrep] at hb ⊢
    have hw : (replenish_compressed_buffer s).weight ≤ s.weight := by
      have h0 := hrep.1
      have e : f.eof = false := hrep.2
      simp only [replenish_compressed_buffer, hf, ibuf.weight, ibuf.file_rest, fread,
        List.length_take, List.length_drop, e, Bool.false_or]
      have h2 : ∀ b : Bool, (if b = true then 0 else 2) ≤ 2 := by
        intro b
        split <;> omega
      have h3 := h2 (decide (min default_block_size (f.data.length - f.pos) < default_block_size))
      simp only [Bool.false_eq_true, if_false]
      omega
    have hf2 : (replenish_compressed_buffer s).fp_ = some (fread f default_block_size).2 := by
      simp only [replenish_compressed_buffer, hf]
    have := underflow_inflate_weight (replenish_compressed_buffer s) _ hf2 (by
      intro hn
      simp only [replenish_compressed_buffer, hf] at hn
      show (f.eof || decide ((fread f default_block_size).1.length < default_block_size)) = true
      rw [hn]
      simp [default_block_size]) (by simpa only [replenish_compressed_buffer, hf] using hres) hb
    omega
  · rw [if_neg hrep] at hb ⊢
    refine underflow_inflate_weight s f hf ?_ hres hb
    intro hn
    by_contra hc
    apply hrep
    simp only [hn, List.length_nil, feof, true_and]
    simpa using hc

theorem underflow_loop_of_not_cond (n : Nat) (s : ibuf C) (h : underflow_cond s = false) :
    underflow_loop n s = s := by
  cases n with
  | zero => rfl
  | succ n => simp only [underflow_loop, h, Bool.false_eq_true, if_false]

theorem underflow_loop_succ (n : Nat) (s : ibuf C) :
    underflow_loop (n + 1) s
      = if underflow_cond s = true then underflow_loop n (underflow_body s) else s := rfl

theorem underflow_loop_fuel (n : Nat) : ∀ (m : Nat) (s : ibuf C), s.weight < n → s.weight < m →
    underflow_loop n s = underflow_loop m s ∧ underflow_cond (underflow_loop n s) = false := by
  induction n with
  | zero => intro m s hn; omega
  | succ n ih =>
    intro m s hn hm
    cases m with
    | zero => omega
    | succ m =>
      rw [underflow_loop_succ, underflow_loop_succ]
      by_cases hc : underflow_cond s = true
      · simp only [hc, if_true]
        by_cases hb : underflow_cond (underflow_body s) = true
        · have := underflow_body_weight s hc hb
          exact ih m (underflow_body s) (by omega) (by omega)
        · have hb2 : underflow_cond (underflow_body s) = false := by simpa using hb
          rw [underflow_loop_of_not_cond n _ hb2, underflow_loop_of_not_cond m _ hb2]
          exact ⟨rfl, hb2⟩
      · have hc2 : underflow_cond s = false := by simpa using hc
        simp only [hc2, Bool.false_eq_true, if_false, and_self]

theorem underflow_run_cond (s : ibuf C) : underflow_cond (underflow_run s) = false :=
  (underflow_loop_fuel s.passes s.passes s s.weight_lt_passes s.weight_lt_passes).2

theorem underflow_run_eq (s : ibuf C) :
    underflow_run s = if underflow_cond s = true then underflow_run (underflow_body s) else s := by
  have hw := s.weight_lt_passes
  unfold underflow_run
  have hp : s.passes = (3 * (s.file_rest + s.next_in.length + s.discard_amount_) + 3) + 1 := rfl
  rw [hp] at hw ⊢
  rw [underflow_loop_succ]
  by_cases hc : underflow_cond s = true
  · simp only [hc, if_true]
    by_cases hb : underflow_cond (underflow_body s) = true
    · have := underflow_body_weight s hc hb
      exact (underflow_loop_fuel _ _ (underflow_body s) (by omega)
        (underflow_body s).weight_lt_passes).1
    · have hb2 : underflow_cond (underflow_body s) = false := by simpa using hb
      rw [underflow_loop_of_not_cond _ _ hb2, underflow_loop_of_not_cond _ _ hb2]
  · have hc2 : underflow_cond s = false := by simpa using hc
    simp only [hc2, Bool.false_eq_true, if_false]

theorem underflow_eq (s : ibuf C) :
    underflow s =
      match s.fp_ with
      | none => (none, s)
      | some _ =>
        if s.gpos < s.gbuf.length then (s.gbuf.get? s.gpos, s)
        else
          if (underflow_run s).zlib_res_ ≠ Z_OK ∧ (underflow_run s).zlib_res_ ≠ Z_STREAM_END then
            (none, underflow_run s)
          else if (underflow_run s).gbuf.length ≤ (underflow_run s).gpos then
            (none, underflow_run s)
          else ((underflow_run s).gbuf.get? (underflow_run s).gpos, underflow_run s) := rfl

end gz

/-! ### Skipping after a seek against reading and dropping -/

namespace gz

variable {C : Inflater}

theorem ibuf.ext_fields (a b : ibuf C) (h1 : a.zstrm_ = b.zstrm_) (h2 : a.next_in = b.next_in)
    (h3 : a.zlib_res_ = b.zlib_res_) (h4 : a.gbuf = b.gbuf) (h5 : a.gpos = b.gpos)
    (h6 : a.discard_amount_ = b.discard_amount_)
    (h7 : a.current_block_position_ = b.current_block_position_)
    (h8 : a.uncompressed_block_offset_ = b.uncompressed_block_offset_)
    (h9 : a.fp_ = b.fp_) : a = b := by
  cases a
  cases b
  simp only [ibuf.mk.injEq]
  simp only at h1 h2 h3 h4 h5 h6 h7 h8 h9
  exact ⟨h1, h2, h3, h4, h5, h6, h7, h8, h9⟩

theorem Sim.eq_of_zero {a b : ibuf C} (h : Sim 0 a b) : a = b := by
  apply ibuf.ext_fields a b h.zstrm h.next_in h.res h.gbuf _ _ h.cbp h.ubo h.fp
  · have := h.gpos
    have := h.bpos
    omega
  · have := h.disc
    have := h.bpos
    have := h.bdisc
    omega

theorem Sim.advance {j : Nat} {a b : ibuf C} (h : Sim (j + 1) a b) (hb : b.gpos < b.gbuf.length) :
    Sim j a { b with gpos := b.gpos + 1 } where
  fp := h.fp
  zstrm := h.zstrm
  next_in := h.next_in
  res := h.res
  cbp := h.cbp
  ubo := h.ubo
  gbuf := h.gbuf
  bdisc := h.bdisc
  bpos := hb
  gpos := by
    have := h.gpos
    simp only
    omega
  disc := by
    have := h.disc
    simp only
    omega

theorem Sim.eq_discard {j : Nat} {a b : ibuf C} (h : Sim j a b) (hb : b.gbuf.length ≤ b.gpos) :
    a = { b with discard_amount_ := j } := by
  refine ibuf.ext_fields a { b with discard_amount_ := j } h.zstrm h.next_in h.res h.gbuf ?_ ?_
    h.cbp h.ubo h.fp
  · have := h.gpos
    have := h.bpos
    simp only
    omega
  · have := h.disc
    have := h.bpos
    simp only
    omega

theorem replenish_discard (b : ibuf C) (j : Nat) :
    replenish_compressed_buffer { b with discard_amount_ := j }
      = { replenish_compressed_buffer b with discard_amount_ := j } := by
  obtain ⟨z, ni, r, gb, gp, d, cbp, ubo, fp⟩ := b
  cases fp <;> rfl

theorem underflow_reset_discard (b : ibuf C) (j : Nat) :
    underflow_reset { b with discard_amount_ := j }
      = { underflow_reset b with discard_amount_ := j } := by
  obtain ⟨z, ni, r, gb, gp, d, cbp, ubo, fp⟩ := b
  cases fp with
  | none => rfl
  | some f =>
    simp only [underflow_reset]
    split <;> rfl

theorem replenish_discard_amount (b : ibuf C) :
    (replenish_compressed_buffer b).discard_amount_ = b.discard_amount_ := by
  obtain ⟨z, ni, r, gb, gp, d, cbp, ubo, fp⟩ := b
  cases fp <;> rfl

theorem underflow_reset_discard_amount (b : ibuf C) :
    (underflow_reset b).discard_amount_ = b.discard_amount_ := by
  obtain ⟨z, ni, r, gb, gp, d, cbp, ubo, fp⟩ := b
  cases fp with
  | none => rfl
  | some f =>
    simp only [underflow_reset]
    split <;> rfl

theorem Sim.inflate (x : ibuf C) (j : Nat) (hd : x.discard_amount_ = 0) :
    Sim j (underflow_inflate { x with discard_amount_ := j }) (underflow_inflate x) where
  fp := rfl
  zstrm := rfl
  next_in := rfl
  res := rfl
  cbp := rfl
  ubo := rfl
  gbuf := rfl
  bdisc := by rw [underflow_inflate_discard, hd]; omega
  bpos := by rw [underflow_inflate_gpos, hd]; omega
  gpos := by
    rw [underflow_inflate_gpos, underflow_inflate_gpos, hd]
    simp only [underflow_inflate]
    omega
  disc := by
    rw [underflow_inflate_discard, underflow_inflate_gpos, hd]
    simp only [underflow_inflate]
    omega

theorem Sim.reset_inflate (x : ibuf C) (j : Nat) (hd : x.discard_amount_ = 0) :
    Sim j (underflow_inflate (underflow_reset { x with discard_amount_ := j }))
      (underflow_inflate (underflow_reset x)) := by
  have e := underflow_reset_discard x j
  rw [e]
  exact Sim.inflate _ j (by rw [underflow_reset_discard_amount, hd])

theorem Sim.body {j : Nat} {a b : ibuf C} (h : Sim j a b) (hb : b.gbuf.length ≤ b.gpos) :
    Sim j (underflow_body a) (underflow_body b) := by
  have hd := h.bdisc
  cases hfp : b.fp_ with
  | none =>
    have hfa : a.fp_ = none := by rw [h.fp, hfp]
    simp only [underflow_body, hfp, hfa]
    exact h
  | some f =>
    have hfa : a.fp_ = some f := by rw [h.fp, hfp]
    have hna : a.next_in = b.next_in := h.next_in
    unfold underflow_body
    rw [hfa, hfp]
    simp only [hna]
    by_cases hc : b.next_in.length = 0 ∧ feof f = false
    · rw [if_pos hc, if_pos hc, h.eq_discard hb]
      have e := replenish_discard b j
      rw [e]
      exact Sim.reset_inflate _ j (by rw [replenish_discard_amount, hd])
    · rw [if_neg hc, if_neg hc, h.eq_discard hb]
      exact Sim.reset_inflate _ j hd

theorem Sim.cond {j : Nat} {a b : ibuf C} (h : Sim j a b) (hb : b.gbuf.length ≤ b.gpos) :
    underflow_cond a = underflow_cond b := by
  rw [h.eq_discard hb]
  rfl

theorem underflow_run_of_nonempty (x : ibuf C) (h : x.gpos < x.gbuf.length) :
    underflow_run x = x := by
  rw [underflow_run_eq]
  have : underflow_cond x = false := by
    cases hc : underflow_cond x with
    | false => rfl
    | true =>
      obtain ⟨f, _, _, h3, _⟩ := (underflow_cond_iff x).mp hc
      omega
  simp only [this, Bool.false_eq_true, if_false]

theorem sbumpc_eq_bump (x : ibuf C) (hfp : x.fp_.isSome = true) (hok : x.status_ok) :
    sbumpc x = bump (underflow_run x) := by
  obtain ⟨f, hf⟩ := Option.isSome_iff_exists.mp hfp
  by_cases hne : x.gpos < x.gbuf.length
  · rw [underflow_run_of_nonempty x hne]
    have hres := hok hne
    have h1 : ¬ (x.zlib_res_ ≠ Z_OK ∧ x.zlib_res_ ≠ Z_STREAM_END) := by
      rintro ⟨h1, h2⟩
      rcases hres with h | h
      · exact h1 h
      · exact h2 h
    have h2 : ¬ (x.gbuf.length ≤ x.gpos) := by omega
    simp only [sbumpc, hne, if_true, bump, h1, h2, if_false]
  · have hu := underflow_eq x
    simp only [hf] at hu
    rw [if_neg hne] at hu
    unfold sbumpc bump
    rw [if_neg hne, hu]
    by_cases h1 : (underflow_run x).zlib_res_ ≠ Z_OK ∧ (underflow_run x).zlib_res_ ≠ Z_STREAM_END
    · rw [if_pos h1, if_pos h1]
    · rw [if_neg h1, if_neg h1]
      by_cases h2 : (underflow_run x).gbuf.length ≤ (underflow_run x).gpos
      · rw [if_pos h2, if_pos h2]
      · rw [if_neg h2, if_neg h2, List.get?_eq_get (by omega)]

theorem read_succ (n : Nat) (s : ibuf C) :
    read (n + 1) s = ((sbumpc s).1 :: (read n (sbumpc s).2).1, (read n (sbumpc s).2).2) := rfl

theorem read_add (j n : Nat) : ∀ s : ibuf C,
    (read (j + n) s).1 = (read j s).1 ++ (read n (read j s).2).1 := by
  induction j with
  | zero =>
    intro s
    simp only [Nat.zero_add, read, List.nil_append]
  | succ j ih =>
    intro s
    have e : j + 1 + n = (j + n) + 1 := by omega
    rw [e, read_succ, read_succ, ih]
    rfl

theorem read_congr (x y : ibuf C) (hx : x.fp_.isSome = true) (hy : y.fp_.isSome = true)
    (hxo : x.status_ok) (hyo : y.status_ok) (hrun : underflow_run x = underflow_run y)
    (n : Nat) : (read n x).1 = (read n y).1 := by
  cases n with
  | zero => rfl
  | succ n =>
    rw [read_succ, read_succ, sbumpc_eq_bump x hx hxo, sbumpc_eq_bump y hy hyo, hrun]

theorem underflow_reset_fp (s : ibuf C) : (underflow_reset s).fp_ = s.fp_ := by
  obtain ⟨z, ni, r, gb, gp, d, cbp, ubo, fp⟩ := s
  cases fp with
  | none => rfl
  | some f =>
    simp only [underflow_reset]
    split <;> rfl

theorem replenish_fp (s : ibuf C) :
    (replenish_compressed_buffer s).fp_.isSome = s.fp_.isSome := by
  obtain ⟨z, ni, r, gb, gp, d, cbp, ubo, fp⟩ := s
  cases fp <;> rfl

theorem underflow_body_fp (b : ibuf C) (h : b.fp_.isSome = true) :
    (underflow_body b).fp_.isSome = true := by
  obtain ⟨f, hf⟩ := Option.isSome_iff_exists.mp h
  unfold underflow_body
  rw [hf]
  simp only
  show (underflow_reset _).fp_.isSome = true
  rw [underflow_reset_fp]
  split
  · rw [replenish_fp]
    exact h
  · exact h

theorem Sim.status_ok {j : Nat} {a b : ibuf C} (h : Sim j a b) (hb : b.status_ok) :
    a.status_ok := by
  intro hlt
  rw [h.res]
  apply hb
  have := h.gpos
  have := h.gbuf
  rw [h.gbuf] at hlt
  omega

theorem bump_ne_none (t : ibuf C) (h : (bump t).1 ≠ none) :
    (t.zlib_res_ = Z_OK ∨ t.zlib_res_ = Z_STREAM_END) ∧ t.gpos < t.gbuf.length ∧
      bump t = (t.gbuf.get? t.gpos, { t with gpos := t.gpos + 1 }) := by
  unfold bump at h ⊢
  split at h
  · exact absurd rfl h
  · rename_i h1
    split at h
    · exact absurd rfl h
    · rename_i h2
      rw [if_neg h1, if_neg h2]
      refine ⟨?_, by omega, rfl⟩
      by_contra hc
      apply h1
      constructor
      · intro h3
        exact hc (Or.inl h3)
      · intro h3
        exact hc (Or.inr h3)

theorem underflow_cond_of_bump (b : ibuf C) (hemp : b.gbuf.length ≤ b.gpos)
    (h : (bump (underflow_run b)).1 ≠ none) : underflow_cond b = true := by
  by_contra hc
  have hc2 : underflow_cond b = false := by simpa using hc
  have e : underflow_run b = b := by
    rw [underflow_run_eq]
    simp only [hc2, Bool.false_eq_true, if_false]
  rw [e] at h
  have := (bump_ne_none b h).2.1
  omega

theorem underflow_run_body (b : ibuf C) (h : underflow_cond b = true) :
    underflow_run b = underflow_run (underflow_body b) := by
  rw [underflow_run_eq b]
  simp only [h, if_true]

theorem sim_read : ∀ (j : Nat) (a b : ibuf C), Sim j a b → b.status_ok → b.fp_.isSome = true →
    (∀ o ∈ (read j b).1, o ≠ none) → ∀ n, (read n a).1 = (read n (read j b).2).1 := by
  intro j
  induction j with
  | zero =>
    intro a b h _ _ _ n
    rw [h.eq_of_zero]
    rfl
  | succ j ih =>
    have step : ∀ (a b : ibuf C), Sim (j + 1) a b → b.status_ok → b.fp_.isSome = true →
        b.gpos < b.gbuf.length → (∀ o ∈ (read (j + 1) b).1, o ≠ none) →
        ∀ n, (read n a).1 = (read n (read (j + 1) b).2).1 := by
      intro a b h hok hfp hne hr n
      have hs : sbumpc b = (b.gbuf.get? b.gpos, { b with gpos := b.gpos + 1 }) := by
        simp only [sbumpc, hne, if_true]
      rw [read_succ, hs]
      simp only
      refine ih a _ (h.advance hne) ?_ hfp ?_ n
      · intro _
        exact hok hne
      · intro o ho
        apply hr
        rw [read_succ, hs]
        exact List.mem_cons_of_mem _ ho
    intro a b
    generalize hw : b.weight = w
    induction w using Nat.strong_induction_on generalizing a b with
    | _ w ihw =>
      intro h hok hfp hr n
      by_cases hne : b.gpos < b.gbuf.length
      · exact step a b h hok hfp hne hr n
      · have hemp : b.gbuf.length ≤ b.gpos := by omega
        have hsb := sbumpc_eq_bump b hfp hok
        have hfirst : (sbumpc b).1 ≠ none :=
          hr _ (by rw [read_succ]; exact List.mem_cons_self _ _)
        have hcond : underflow_cond b = true :=
          underflow_cond_of_bump b hemp (by rw [← hsb]; exact hfirst)
        have hrb := underflow_run_body b hcond
        have hra := underflow_run_body a (by rw [h.cond hemp]; exact hcond)
        have hs1 := h.body hemp
        have hfp1 := underflow_body_fp b hfp
        have hok1 : (underflow_body b).status_ok := by
          intro hlt
          have e := underflow_run_of_nonempty _ hlt
          rw [hsb, hrb, e] at hfirst
          exact (bump_ne_none _ hfirst).1
        have hsb1 := sbumpc_eq_bump _ hfp1 hok1
        have hsame : sbumpc b = sbumpc (underflow_body b) := by rw [hsb, hsb1, hrb]
        have hread : read (j + 1) b = read (j + 1) (underflow_body b) := by
          rw [read_succ, read_succ, hsame]
        have haa : (read n a).1 = (read n (underflow_body a)).1 :=
          read_congr a _ (by rw [h.fp]; exact hfp) (by rw [hs1.fp]; exact hfp1)
            (h.status_ok hok) (hs1.status_ok hok1) hra n
        rw [haa, hread]
        rw [hread] at hr
        by_cases hne1 : (underflow_body b).gpos < (underflow_body b).gbuf.length
        · exact step _ _ hs1 hok1 hfp1 hne1 hr n
        · have hcond1 : underflow_cond (underflow_body b) = true :=
            underflow_cond_of_bump _ (by omega) (by rw [← hsb1, ← hsame]; exact hfirst)
          have hlt := underflow_body_weight b hcond hcond1
          exact ihw _ (by omega) _ _ rfl hs1 hok1 hfp1 hr n

end gz

/-! ### Virtual offset composition -/

theorem seekpos_offsets_of_virtual_offset (c k : Nat) :
    seekpos_compressed_offset (to_pos (virtual_offset c k)) = c % 2 ^ 48 ∧
    seekpos_uncompressed_offset (to_pos (virtual_offset c k)) = k % 2 ^ 16 := by
  rw [seekpos_compressed_offset_eq, seekpos_uncompressed_offset_eq, to_u64_to_pos,
    virtual_offset_arith]
  omega

theorem gz.read_length {C : Inflater} (n : Nat) : ∀ s : gz.ibuf C, (gz.read n s).1.length = n := by
  induction n with
  | zero => intro s; rfl
  | succ n ih =>
    intro s
    rw [gz.read_succ]
    simp only [List.length_cons, ih]

/-- C2: for a block-indexed reader whose seek succeeds (open, seekable file), every member
start `c`, every `k < 65536` and every `n`: if the first `k` bytes read after
`seek((c << 16) | 0)` exist, then the `n` results read after `seek((c << 16) | k)` are the
results of seeking to `(c << 16) | 0`, reading `k + n` and dropping the first `k`. -/
theorem seek_composition {C : Inflater} (s : gz.ibuf C) (f : FILE) (c k n which : Nat)
    (hk : k < 65536) (hf : s.fp_ = some f) (hs : f.seekable = true)
    (hread : ∀ o ∈ (gz.read k (bgz.seekpos s (to_pos (virtual_offset c 0)) which).2).1,
      o ≠ none) :
    (gz.read n (bgz.seekpos s (to_pos (virtual_offset c k)) which).2).1
      = ((gz.read (k + n) (bgz.seekpos s (to_pos (virtual_offset c 0)) which).2).1).drop k := by
  have hA := seekpos_offsets_of_virtual_offset c k
  have hB := seekpos_offsets_of_virtual_offset c 0
  have hsim : gz.Sim k (bgz.seekpos s (to_pos (virtual_offset c k)) which).2
      (bgz.seekpos s (to_pos (virtual_offset c 0)) which).2 := by
    simp only [bgz.seekpos, hf, fseek, hs, if_true, hA.1, hA.2, hB.1, hB.2]
    constructor <;> simp
    omega
  have hok : (bgz.seekpos s (to_pos (virtual_offset c 0)) which).2.status_ok := by
    intro hlt
    simp [bgz.seekpos, hf, fseek, hs] at hlt
  have hfp : (bgz.seekpos s (to_pos (virtual_offset c 0)) which).2.fp_.isSome = true := by
    simp [bgz.seekpos, hf, fseek, hs]
  rw [gz.sim_read k _ _ hsim hok hfp hread n, gz.read_add]
  have hl := gz.read_length k (bgz.seekpos s (to_pos (virtual_offset c 0)) which).2
  rw [List.drop_left' hl]

theorem seek_composition_witness :
    (∀ o ∈ (gz.read 1 (bgz.seekpos two_member_reader (to_pos (virtual_offset 7 0)) 0).2).1,
      o ≠ none) ∧
    (gz.read 1 (bgz.seekpos two_member_reader (to_pos (virtual_offset 7 1)) 0).2).1
      = ((gz.read (1 + 1)
          (bgz.seekpos two_member_reader (to_pos (virtual_offset 7 0)) 0).2).1).drop 1 :=
  ⟨by decide,
   seek_composition two_member_reader two_member_file 7 1 1 0 (by decide) rfl rfl (by decide)⟩

theorem seek_composition_value :
    (gz.read 1 (bgz.seekpos two_member_reader (to_pos (virtual_offset 7 1)) 0).2).1
      = [some 21] := by
  decide

/-- C6 (evaluation of the code): a fresh reader on `two_member_file` reads one byte (the
decode step produced 3 bytes, so `uncompressed_block_offset_` is 3), then `seek(0)`
succeeds and returns 0, and `tell` issued immediately afterwards returns 3 instead of 0:
`seekpos` leaves `uncompressed_block_offset_` at its old value. -/
theorem tell_after_seek_stale :
    inside_reader.uncompressed_block_offset_ = 3 ∧
    (bgz.seekpos inside_reader 0 0).1 = 0 ∧
    (bgz.seekpos inside_reader 0 0).2.uncompressed_block_offset_ = 3 ∧
    (bgz.seekoff (bgz.seekpos inside_reader 0 0).2 0 gz.seekdir.cur 0).map Prod.fst = some 3 := by
  decide

/-! ### The writers: what a drain does to the log -/

theorem gz.sync_flush_loop_log {D : Deflater} (n : Nat) : ∀ (s : gz.obuf D) (inp : List Nat),
    ∃ evs, (gz.deflate_loop n s inp).1.log = s.log ++ evs ∧
      (∀ e ∈ evs, ∃ c r, e = Event.deflate Flush.Z_SYNC_FLUSH c r) ∧
      (gz.deflate_loop n s inp).1.pbuf = s.pbuf ∧
      (gz.deflate_loop n s inp).1.fp_.isSome = s.fp_.isSome := by
  induction n with
  | zero =>
    intro s inp
    exact ⟨[], by simp [gz.deflate_loop]⟩
  | succ n ih =>
    intro s inp
    unfold gz.deflate_loop
    split
    · cases hfp : s.fp_ with
      | none => exact ⟨[], by simp [hfp]⟩
      | some f =>
        simp only
        generalize D.deflate s.zstrm_ inp (default_block_size - s.cbuf.length)
          Flush.Z_SYNC_FLUSH = r
        split
        · exact ⟨[Event.deflate Flush.Z_SYNC_FLUSH r.consumed r.ret], by simp [hfp]⟩
        · obtain ⟨evs, h1, h2, h3, h4⟩ := ih
            { s with
              zstrm_ := r.state
              zlib_res_ := r.ret
              cbuf := []
              fp_ := some (if 0 < (s.cbuf ++ r.produced).length
                then (fwrite f (s.cbuf ++ r.produced)).2 else f)
              log := s.log ++ [Event.deflate Flush.Z_SYNC_FLUSH r.consumed r.ret] }
            (inp.drop r.consumed)
          refine ⟨Event.deflate Flush.Z_SYNC_FLUSH r.consumed r.ret :: evs, ?_, ?_, ?_, ?_⟩
          · rw [h1]
            simp
          · intro e he
            rcases List.mem_cons.mp he with h | h
            · exact ⟨_, _, h⟩
            · exact h2 e h
          · rw [h3]
          · rw [h4]
            simp
    · exact ⟨[], by simp⟩

theorem bgz.finish_loop_log {D : Deflater} (n : Nat) : ∀ (s : bgz.obuf D) (inp : List Nat),
    ∃ evs, (bgz.deflate_loop n s inp).1.log = s.log ++ evs ∧
      (∀ e ∈ evs, ∃ c r, e = Event.deflate Flush.Z_FINISH c r) ∧
      (bgz.deflate_loop n s inp).1.pbuf = s.pbuf ∧
      (bgz.deflate_loop n s inp).1.fp_.isSome = s.fp_.isSome := by
  induction n with
  | zero =>
    intro s inp
    exact ⟨[], by simp [bgz.deflate_loop]⟩
  | succ n ih =>
    intro s inp
    unfold bgz.deflate_loop
    split
    · cases hfp : s.fp_ with
      | none => exact ⟨[], by simp [hfp]⟩
      | some f =>
        simp only
        generalize D.deflate s.zstrm_ inp (default_block_size - s.cbuf.length)
          Flush.Z_FINISH = r
        split
        · exact ⟨[Event.deflate Flush.Z_FINISH r.consumed r.ret], by simp [hfp]⟩
        · obtain ⟨evs, h1, h2, h3, h4⟩ := ih
            { s with
              zstrm_ := r.state
              zlib_res_ := r.ret
              cbuf := []
              fp_ := some (fwrite f (s.cbuf ++ r.produced)).2
              log := s.log ++ [Event.deflate Flush.Z_FINISH r.consumed r.ret] }
            (inp.drop r.consumed)
          refine ⟨Event.deflate Flush.Z_FINISH r.consumed r.ret :: evs, ?_, ?_, ?_, ?_⟩
          · rw [h1]
            simp
          · intro e he
            rcases List.mem_cons.mp he with h | h
            · exact ⟨_, _, h⟩
            · exact h2 e h
          · rw [h3]
          · rw [h4]
            simp
    · exact ⟨[], by simp⟩

/-! ### Close and the finish directive -/

theorem gz.sync_log {D : Deflater} (s : gz.obuf D) :
    ∃ evs, (gz.sync s).2.log = s.log ++ evs ∧
      ∀ e ∈ evs, (∃ bs, e = Event.drain Flush.Z_SYNC_FLUSH bs) ∨
        ∃ c r, e = Event.deflate Flush.Z_SYNC_FLUSH c r := by
  obtain ⟨z, r, cb, pb, fp, lg⟩ := s
  cases fp with
  | none => exact ⟨[], by simp [gz.sync]⟩
  | some f =>
    simp only [gz.sync]
    split
    · obtain ⟨evs, h1, h2, _, _⟩ := gz.sync_flush_loop_log
        (D.rank z pb.length Flush.Z_SYNC_FLUSH + 1)
        ({ zstrm_ := z, zlib_res_ := r, cbuf := cb, pbuf := pb, fp_ := some f,
           log := lg ++ [Event.drain Flush.Z_SYNC_FLUSH pb] } : gz.obuf D) pb
      refine ⟨Event.drain Flush.Z_SYNC_FLUSH pb :: evs, ?_, ?_⟩
      · split
        · rw [h1]
          simp
        · split
          · rw [h1]
            simp
          · simp only
            rw [h1]
            simp
      · intro e he
        rcases List.mem_cons.mp he with h | h
        · exact Or.inl ⟨_, h⟩
        · exact Or.inr (h2 e h)
    · exact ⟨[], by simp⟩

/-- C9 (evaluation of the code): whatever the state of a plain gzip writer, the calls
`gz::obuf::close` makes on the codec are `deflate(_, Z_SYNC_FLUSH)` calls followed by
`deflateEnd`: no call carries the finish directive. On the inserted bytes `[5, 6, 7]` the
closed file is `[1, 5, 1, 6, 1, 7]`, without the end marker `0` that the block-indexed
writer emits, and `deflateEnd` reports the unfinished member as `Z_DATA_ERROR`. -/
theorem gz_close_without_finish :
    (∀ (D : Deflater) (s : gz.obuf D), ∃ evs, (gz.close s).1.log = s.log ++ evs ∧
      ∀ e ∈ evs, (∀ bs, e ≠ Event.drain Flush.Z_FINISH bs) ∧
        ∀ c r, e ≠ Event.deflate Flush.Z_FINISH c r) ∧
    (gz.close (gz.write (gz.obuf.init pair_deflater (some empty_ofile) 0) [5, 6, 7])).2
      = some { data := [1, 5, 1, 6, 1, 7], room := none } ∧
    (gz.close (gz.write (gz.obuf.init pair_deflater (some empty_ofile) 0) [5, 6, 7])).1.zlib_res_
      = Z_DATA_ERROR ∧
    (bgz.close (bgz.write (gz.obuf.init pair_deflater (some empty_ofile) 0) [5, 6, 7])).2
      = some { data := [1, 5, 1, 6, 1, 7, 0], room := none } := by
  refine ⟨?_, by decide, by decide, by decide⟩
  intro D s
  obtain ⟨evs, h1, h2⟩ := gz.sync_log s
  cases hfp : s.fp_ with
  | none => exact ⟨[], by simp [gz.close, hfp]⟩
  | some f =>
    refine ⟨evs ++ [Event.deflate_end, Event.fclose], ?_, ?_⟩
    · simp only [gz.close, hfp]
      rw [h1]
      simp
    · intro e he
      rcases List.mem_append.mp he with h | h
      · rcases h2 e h with ⟨bs, hb⟩ | ⟨c, r, hb⟩
        · subst hb
          exact ⟨fun _ hc => (by cases hc), fun _ _ hc => (by cases hc)⟩
        · subst hb
          exact ⟨fun _ hc => (by cases hc), fun _ _ hc => (by cases hc)⟩
      · simp only [List.mem_cons, List.mem_singleton, List.not_mem_nil, or_false] at h
        rcases h with h | h
        · subst h
          exact ⟨fun _ hc => (by cases hc), fun _ _ hc => (by cases hc)⟩
        · subst h
          exact ⟨fun _ hc => (by cases hc), fun _ _ hc => (by cases hc)⟩

/-! ### Member sizes of the block-indexed writer -/

theorem gz.reset_if_stream_end_log {D : Deflater} (t : gz.obuf D) :
    ∃ tail, (gz.reset_if_stream_end t).log = t.log ++ tail ∧
      (∀ e ∈ tail, ∀ fl bs, e ≠ Event.drain fl bs) ∧
      (gz.reset_if_stream_end t).pbuf = t.pbuf := by
  unfold gz.reset_if_stream_end
  split
  · refine ⟨[Event.reset], rfl, ?_, rfl⟩
    intro e he fl bs hc
    rw [List.mem_singleton] at he
    rw [he] at hc
    cases hc
  · exact ⟨[], by simp⟩

theorem bgz.drain_log {D : Deflater} (s : bgz.obuf D) (n : Nat) :
    ∃ evs, (bgz.deflate_loop n { s with log := s.log ++ [Event.drain Flush.Z_FINISH s.pbuf] }
        s.pbuf).1.log = s.log ++ Event.drain Flush.Z_FINISH s.pbuf :: evs ∧
      (∀ e ∈ evs, ∀ fl bs, e ≠ Event.drain fl bs) ∧
      (bgz.deflate_loop n { s with log := s.log ++ [Event.drain Flush.Z_FINISH s.pbuf] }
        s.pbuf).1.pbuf = s.pbuf := by
  obtain ⟨evs, h1, h2, h3, _⟩ := bgz.finish_loop_log n
    { s with log := s.log ++ [Event.drain Flush.Z_FINISH s.pbuf] } s.pbuf
  refine ⟨evs, ?_, ?_, h3⟩
  · rw [h1]
    simp
  · intro e he fl bs hc
    obtain ⟨c, r, h⟩ := h2 e he
    rw [h] at hc
    cases hc

/-! ### The block-indexed writer over the pair encoder -/

theorem bgz.write_fits {D : Deflater} (cs : List Nat) : ∀ s : bgz.obuf D,
    s.fp_.isSome = true → s.pbuf.length + cs.length ≤ default_block_size →
    bgz.write s cs = { s with pbuf := s.pbuf ++ cs.map (fun c => c % 256) } := by
  induction cs with
  | nil =>
    intro s _ _
    simp [bgz.write]
  | cons c cs ih =>
    intro s hfp hlen
    obtain ⟨f, hf⟩ := Option.isSome_iff_exists.mp hfp
    simp only [List.length_cons] at hlen
    have hlt : s.pbuf.length < default_block_size := by omega
    have h1 : (bgz.sputc s c).2 = { s with pbuf := s.pbuf ++ [c % 256] } := by
      simp only [bgz.sputc, hf, hlt, if_true]
    have h2 := ih { s with pbuf := s.pbuf ++ [c % 256] } hfp
      (by simp only [List.length_append, List.length_singleton]; omega)
    show bgz.write (bgz.sputc s c).2 cs = _
    rw [h1, h2]
    simp

theorem pair_encode_length (xs : List Nat) : (pair_encode xs).length = 2 * xs.length := by
  induction xs with
  | nil => rfl
  | cons b rest ih =>
    simp only [pair_encode, List.length_cons, ih]
    omega

theorem bgz.pair_finish_loop (fuel : Nat) : ∀ (st : PairEnc) (inp pb data : List Nat)
    (lg : List Event),
    ¬ (st.finished = true ∧ inp ≠ []) → pair_owed st inp Flush.Z_FINISH ≠ [] →
    (pair_owed st inp Flush.Z_FINISH).length ≤ fuel →
    ∃ evs st2, bgz.deflate_loop fuel
        ({ zstrm_ := st, zlib_res_ := Z_OK, cbuf := [], pbuf := pb,
           fp_ := some { data := data, room := none }, log := lg } : bgz.obuf pair_deflater) inp
      = (({ zstrm_ := st2, zlib_res_ := Z_STREAM_END, cbuf := [], pbuf := pb,
            fp_ := some { data := data ++ pair_owed st inp Flush.Z_FINISH, room := none },
            log := lg ++ evs } : bgz.obuf pair_deflater), [], true) ∧
      (∀ e ∈ evs, ∃ c r, e = Event.deflate Flush.Z_FINISH c r) ∧
      taken evs = inp.length := by
  induction fuel with
  | zero =>
    intro st inp pb data lg _ hq hlen
    exact absurd (List.length_eq_zero.mp (by omega)) hq
  | succ fuel ih =>
    intro st inp pb data lg hfin hq hlen
    have hB : default_block_size ≠ 0 := by decide
    have hBpos : 0 < default_block_size := by decide
    have hd : pair_deflater.deflate st inp default_block_size Flush.Z_FINISH
        = { state := { queue := (pair_owed st inp Flush.Z_FINISH).drop default_block_size,
                       started := true, finished := true }
            consumed := inp.length
            produced := (pair_owed st inp Flush.Z_FINISH).take default_block_size
            ret := if (pair_owed st inp Flush.Z_FINISH).drop default_block_size = []
                   then Z_STREAM_END else Z_OK } := by
      show pair_deflate st inp default_block_size Flush.Z_FINISH = _
      unfold pair_deflate
      rw [if_neg hB, if_neg hfin]
      simp
    have htake : (pair_owed st inp Flush.Z_FINISH).take default_block_size ≠ [] := by
      intro hc
      have := congrArg List.length hc
      simp only [List.length_take, List.length_nil] at this
      have := List.length_pos.mpr hq
      omega
    have hw : fwrite { data := data, room := none }
        ((pair_owed st inp Flush.Z_FINISH).take default_block_size)
        = (1, { data := data ++ (pair_owed st inp Flush.Z_FINISH).take default_block_size,
                room := none }) := by
      unfold fwrite
      rw [if_neg (by intro hc; exact htake (List.length_eq_zero.mp hc))]
    have h10 : ¬ ((1 : Nat) = 0) := by decide
    unfold bgz.deflate_loop
    simp only [if_true, Nat.sub_zero, List.length_nil, List.nil_append, hd, hw, List.drop_length,
      h10, if_false]
    by_cases hdrop : (pair_owed st inp Flush.Z_FINISH).drop default_block_size = []
    · simp only [hdrop, if_true]
      refine ⟨[Event.deflate Flush.Z_FINISH inp.length Z_STREAM_END], PairEnc.mk [] true true, ?_,
        ?_, ?_⟩
      · have e : (pair_owed st inp Flush.Z_FINISH).take default_block_size
            = pair_owed st inp Flush.Z_FINISH := by
          have := List.take_append_drop default_block_size (pair_owed st inp Flush.Z_FINISH)
          rw [hdrop, List.append_nil] at this
          exact this
        rw [e]
        cases fuel with
        | zero => simp [bgz.deflate_loop]
        | succ k =>
          have hne : ¬ (Z_STREAM_END = Z_OK) := by decide
          simp [bgz.deflate_loop, hne]
      · intro e he
        exact ⟨_, _, List.mem_singleton.mp he⟩
      · simp [taken]
    · simp only [hdrop, if_false]
      have hq2 : pair_owed (PairEnc.mk
          ((pair_owed st inp Flush.Z_FINISH).drop default_block_size) true true) []
          Flush.Z_FINISH
          = (pair_owed st inp Flush.Z_FINISH).drop default_block_size := by
        simp [pair_owed, pair_encode]
      obtain ⟨evs, st2, h1, h2, h3⟩ := ih
        (PairEnc.mk ((pair_owed st inp Flush.Z_FINISH).drop default_block_size) true true)
        [] pb
        (data ++ (pair_owed st inp Flush.Z_FINISH).take default_block_size)
        (lg ++ [Event.deflate Flush.Z_FINISH inp.length Z_OK])
        (by simp) (by rw [hq2]; exact hdrop)
        (by rw [hq2, List.length_drop]; omega)
      rw [hq2] at h1
      refine ⟨Event.deflate Flush.Z_FINISH inp.length Z_OK :: evs, st2, ?_, ?_, ?_⟩
      · rw [h1]
        simp [List.append_assoc, List.take_append_drop]
      · intro e he
        rcases List.mem_cons.mp he with h | h
        · exact ⟨_, _, h⟩
        · exact h2 e h
      · simp [taken, h3]

theorem members_aux_deflates (evs rest : List Event)
    (h : ∀ e ∈ evs, ∃ c r, e = Event.deflate Flush.Z_FINISH c r) (given took : Nat) :
    members_aux given took (evs ++ rest) = members_aux given (took + taken evs) rest := by
  induction evs generalizing took with
  | nil => rfl
  | cons e es ih =>
    obtain ⟨c, r, he⟩ := h e (List.mem_cons_self _ _)
    subst he
    show members_aux given (took + c) (es ++ rest) = members_aux given (took + (c + taken es)) rest
    rw [ih (fun e he => h e (List.mem_cons_of_mem _ he)), Nat.add_assoc]

theorem bgz.pair_drain (pb data : List Nat) (lg : List Event) :
    ∃ evs st2, bgz.deflate_loop
        (pair_deflater.rank (PairEnc.mk [] false false) pb.length Flush.Z_FINISH + 1)
        { pair_writer pb data lg with log := lg ++ [Event.drain Flush.Z_FINISH pb] } pb
      = (({ zstrm_ := st2, zlib_res_ := Z_STREAM_END, cbuf := [], pbuf := pb,
            fp_ := some { data := data ++ (pair_encode pb ++ [0]), room := none },
            log := lg ++ [Event.drain Flush.Z_FINISH pb] ++ evs } : bgz.obuf pair_deflater),
          [], true) ∧
      (∀ e ∈ evs, ∃ c r, e = Event.deflate Flush.Z_FINISH c r) ∧
      taken evs = pb.length := by
  have ho : pair_owed (PairEnc.mk [] false false) pb Flush.Z_FINISH = pair_encode pb ++ [0] := by
    simp [pair_owed]
  have h := bgz.pair_finish_loop
    (pair_deflater.rank (PairEnc.mk [] false false) pb.length Flush.Z_FINISH + 1)
    (PairEnc.mk [] false false) pb pb data (lg ++ [Event.drain Flush.Z_FINISH pb])
    (by simp) (by rw [ho]; simp)
    (by
      rw [ho]
      show (pair_encode pb ++ [0]).length ≤ ([] : List Nat).length + 2 * pb.length + 1 + 1
      simp only [List.length_append, pair_encode_length, List.length_singleton, List.length_nil]
      omega)
  rw [ho] at h
  exact h

theorem bgz.pair_overflow (pb data : List Nat) (lg : List Event) (c : Nat)
    (hfull : default_block_size ≤ pb.length) :
    ∃ evs, (∀ e ∈ evs, ∃ c r, e = Event.deflate Flush.Z_FINISH c r) ∧
      bgz.overflow (pair_writer pb data lg) c
        = (some (c % 256), pair_writer [c % 256] (data ++ (pair_encode pb ++ [0]))
            (lg ++ [Event.drain Flush.Z_FINISH pb] ++ evs ++ [Event.reset])) ∧
      taken evs = pb.length := by
  have hpb : pb ≠ [] := by
    intro hc
    rw [hc] at hfull
    exact absurd hfull (by decide)
  obtain ⟨evs, st2, h1, h2, h3⟩ := bgz.pair_drain pb data lg
  refine ⟨evs, h2, ?_, h3⟩
  have hnl : ¬ (pb.length < default_block_size) := by omega
  simp only [pair_writer] at h1
  simp only [bgz.overflow, pair_writer, hnl, if_false, h1, gz.reset_if_stream_end, if_true]
  rfl

theorem bgz.pair_sync (pb data : List Nat) (lg : List Event) (hpb : pb ≠ []) :
    ∃ evs, (∀ e ∈ evs, ∃ c r, e = Event.deflate Flush.Z_FINISH c r) ∧
      bgz.sync (pair_writer pb data lg)
        = (0, pair_writer [] (data ++ (pair_encode pb ++ [0]))
            (lg ++ [Event.drain Flush.Z_FINISH pb] ++ evs ++ [Event.reset])) ∧
      taken evs = pb.length := by
  obtain ⟨evs, st2, h1, h2, h3⟩ := bgz.pair_drain pb data lg
  refine ⟨evs, h2, ?_, h3⟩
  have hpos : 0 < pb.length := List.length_pos.mpr hpb
  simp only [pair_writer] at h1
  simp only [bgz.sync, pair_writer, hpos, if_true, h1, gz.reset_if_stream_end]
  rfl

theorem bgz.pair_close (pb data : List Nat) (lg : List Event) (hpb : pb ≠ []) :
    ∃ evs, (∀ e ∈ evs, ∃ c r, e = Event.deflate Flush.Z_FINISH c r) ∧
      bgz.close (pair_writer pb data lg)
        = ({ pair_writer [] (data ++ (pair_encode pb ++ [0]))
              (lg ++ [Event.drain Flush.Z_FINISH pb] ++ evs ++ [Event.reset]
                ++ [Event.deflate_end, Event.fclose]) with fp_ := none },
           some { data := data ++ (pair_encode pb ++ [0]), room := none }) ∧
      taken evs = pb.length := by
  obtain ⟨evs, h2, h1, h3⟩ := bgz.pair_sync pb data lg hpb
  refine ⟨evs, h2, ?_, h3⟩
  have e : bgz.close (pair_writer pb data lg)
      = ({ (bgz.sync (pair_writer pb data lg)).2 with
           zlib_res_ := if (bgz.sync (pair_writer pb data lg)).2.zlib_res_ = Z_OK
             then pair_deflater.deflateEnd (bgz.sync (pair_writer pb data lg)).2.zstrm_
             else (bgz.sync (pair_writer pb data lg)).2.zlib_res_
           fp_ := none
           log := (bgz.sync (pair_writer pb data lg)).2.log
             ++ [Event.deflate_end, Event.fclose] },
         (bgz.sync (pair_writer pb data lg)).2.fp_) := rfl
  rw [e, h1]
  rfl

theorem members_two (a b : List Nat) (evs1 evs2 : List Event)
    (e1 : ∀ e ∈ evs1, ∃ c r, e = Event.deflate Flush.Z_FINISH c r)
    (e2 : ∀ e ∈ evs2, ∃ c r, e = Event.deflate Flush.Z_FINISH c r) :
    members ([] ++ [Event.drain Flush.Z_FINISH a] ++ evs1 ++ [Event.reset]
      ++ [Event.drain Flush.Z_FINISH b] ++ evs2 ++ [Event.reset]
      ++ [Event.deflate_end, Event.fclose])
      = [(a.length, taken evs1), (b.length, taken evs2)] := by
  have h : ([] ++ [Event.drain Flush.Z_FINISH a] ++ evs1 ++ [Event.reset]
      ++ [Event.drain Flush.Z_FINISH b] ++ evs2 ++ [Event.reset]
      ++ [Event.deflate_end, Event.fclose])
      = Event.drain Flush.Z_FINISH a :: (evs1 ++ (Event.reset :: Event.drain Flush.Z_FINISH b
          :: (evs2 ++ [Event.reset, Event.deflate_end, Event.fclose]))) := by
    simp
  rw [h]
  unfold members
  rw [members_aux, members_aux_deflates evs1 _ e1, members_aux, members_aux,
    members_aux_deflates evs2 _ e2]
  simp [members_aux]

theorem bgz.pair_two_members (xs ys : List Nat) (hx : xs.length = default_block_size)
    (hy1 : ys ≠ []) (hy2 : ys.length ≤ default_block_size) :
    members (bgz.close (bgz.write (gz.obuf.init pair_deflater (some empty_ofile) 0)
      (xs ++ ys))).1.log
      = [(default_block_size, default_block_size), (ys.length, ys.length)] ∧
    (bgz.close (bgz.write (gz.obuf.init pair_deflater (some empty_ofile) 0) (xs ++ ys))).2
      = some { data := pair_encode (xs.map (fun c => c % 256)) ++ [0]
                 ++ (pair_encode (ys.map (fun c => c % 256)) ++ [0]), room := none } := by
  have h0 : gz.obuf.init pair_deflater (some empty_ofile) 0 = pair_writer [] [] [] := rfl
  have h1 : bgz.write (pair_writer [] [] []) xs
      = pair_writer (xs.map (fun c => c % 256)) [] [] := by
    rw [bgz.write_fits xs (pair_writer [] [] []) rfl
      (by simp only [pair_writer, List.length_nil]; omega)]
    simp [pair_writer]
  cases ys with
  | nil => exact absurd rfl hy1
  | cons y ys =>
    simp only [List.length_cons] at hy2
    obtain ⟨evs1, e1, o1, t1⟩ := bgz.pair_overflow (xs.map (fun c => c % 256)) [] [] y
      (by simp only [List.length_map]; omega)
    have h2 : (bgz.sputc (pair_writer (xs.map (fun c => c % 256)) [] []) y).2
        = pair_writer [y % 256] ([] ++ (pair_encode (xs.map (fun c => c % 256)) ++ [0]))
            ([] ++ [Event.drain Flush.Z_FINISH (xs.map (fun c => c % 256))] ++ evs1
              ++ [Event.reset]) := by
      have hnl : ¬ ((xs.map (fun c => c % 256)).length < default_block_size) := by
        simp only [List.length_map]
        omega
      have e : bgz.sputc (pair_writer (xs.map (fun c => c % 256)) [] []) y
          = bgz.overflow (pair_writer (xs.map (fun c => c % 256)) [] []) y := by
        simp only [bgz.sputc, pair_writer, hnl, if_false]
      rw [e, o1]
    have h3 : bgz.write (pair_writer [] [] []) (xs ++ y :: ys)
        = pair_writer ((y :: ys).map (fun c => c % 256))
            ([] ++ (pair_encode (xs.map (fun c => c % 256)) ++ [0]))
            ([] ++ [Event.drain Flush.Z_FINISH (xs.map (fun c => c % 256))] ++ evs1
              ++ [Event.reset]) := by
      have e : bgz.write (pair_writer [] [] []) (xs ++ y :: ys)
          = bgz.write (bgz.sputc (bgz.write (pair_writer [] [] []) xs) y).2 ys := by
        simp only [bgz.write, List.foldl_append, List.foldl_cons]
      rw [e, h1, h2, bgz.write_fits ys (pair_writer [y % 256] _ _) rfl
        (by simp only [pair_writer, List.length_singleton]; omega)]
      simp [pair_writer]
    obtain ⟨evs2, e2, o2, t2⟩ := bgz.pair_close ((y :: ys).map (fun c => c % 256))
      ([] ++ (pair_encode (xs.map (fun c => c % 256)) ++ [0]))
      ([] ++ [Event.drain Flush.Z_FINISH (xs.map (fun c => c % 256))] ++ evs1
        ++ [Event.reset]) (by simp)
    rw [h0, h3, o2]
    constructor
    · show members (_ ++ [Event.deflate_end, Event.fclose]) = _
      rw [members_two _ _ evs1 evs2 e1 e2, t1, t2]
      simp only [List.length_map, hx, List.length_cons]
    · simp

/-! ### The plain gzip writer over the pair encoder -/

theorem gz.write_fits_plain {D : Deflater} (cs : List Nat) : ∀ s : gz.obuf D,
    s.fp_.isSome = true → s.pbuf.length + cs.length ≤ default_block_size →
    gz.write s cs = { s with pbuf := s.pbuf ++ cs.map (fun c => c % 256) } := by
  induction cs with
  | nil =>
    intro s _ _
    simp [gz.write]
  | cons c cs ih =>
    intro s hfp hlen
    obtain ⟨f, hf⟩ := Option.isSome_iff_exists.mp hfp
    simp only [List.length_cons] at hlen
    have hlt : s.pbuf.length < default_block_size := by omega
    have h1 : (gz.sputc s c).2 = { s with pbuf := s.pbuf ++ [c % 256] } := by
      simp only [gz.sputc, hf, hlt, if_true]
    have h2 := ih { s with pbuf := s.pbuf ++ [c % 256] } hfp
      (by simp only [List.length_append, List.length_singleton]; omega)
    show gz.write (gz.sputc s c).2 cs = _
    rw [h1, h2]
    simp

theorem pair_encode_append (xs ys : List Nat) :
    pair_encode (xs ++ ys) = pair_encode xs ++ pair_encode ys := by
  induction xs with
  | nil => rfl
  | cons b rest ih =>
    show 1 :: b :: pair_encode (rest ++ ys) = 1 :: b :: pair_encode rest ++ pair_encode ys
    rw [ih]
    rfl

theorem gz.deflate_loop_nil {D : Deflater} (k : Nat) (s : gz.obuf D) :
    gz.deflate_loop k s [] = (s, [], true) := by
  cases k with
  | zero => rfl
  | succ k => simp [gz.deflate_loop]

theorem gz.pair_close_file (pb : List Nat) (hpb : pb ≠ []) :
    (gz.close (pair_writer pb [] [])).2
      = some { data := (pair_encode pb).take default_block_size, room := none } := by
  have hpos : 0 < pb.length := List.length_pos.mpr hpb
  have hB : default_block_size ≠ 0 := by decide
  have hq : pair_owed (PairEnc.mk [] false false) pb Flush.Z_SYNC_FLUSH = pair_encode pb := by
    simp [pair_owed]
  have hqne : pair_encode pb ≠ [] := by
    intro hc
    have := congrArg List.length hc
    rw [pair_encode_length, List.length_nil] at this
    omega
  have hd : pair_deflater.deflate (PairEnc.mk [] false false) pb default_block_size
      Flush.Z_SYNC_FLUSH
      = { state := { queue := (pair_encode pb).drop default_block_size, started := true,
                     finished := false }
          consumed := pb.length
          produced := (pair_encode pb).take default_block_size
          ret := Z_OK } := by
    show pair_deflate (PairEnc.mk [] false false) pb default_block_size Flush.Z_SYNC_FLUSH = _
    unfold pair_deflate
    rw [if_neg hB, if_neg (by simp), hq]
    simp [hqne]
  have htake : (pair_encode pb).take default_block_size ≠ [] := by
    intro hc
    have := congrArg List.length hc
    rw [List.length_take, pair_encode_length, List.length_nil] at this
    have : 0 < default_block_size := by decide
    omega
  have hw : fwrite { data := [], room := none } ((pair_encode pb).take default_block_size)
      = (1, { data := [] ++ (pair_encode pb).take default_block_size, room := none }) := by
    unfold fwrite
    rw [if_neg (by intro hc; exact htake (List.length_eq_zero.mp hc))]
  have h10 : ¬ ((1 : Nat) = 0) := by decide
  have hlt : 0 < ((pair_encode pb).take default_block_size).length :=
    List.length_pos.mpr htake
  simp only [gz.close, gz.sync, pair_writer, hpos, if_true]
  rw [gz.deflate_loop]
  simp only [if_true, hpos, and_self, Nat.sub_zero, List.length_nil, List.nil_append, hd, hw,
    h10, and_false, if_false, hlt, List.drop_length, gz.deflate_loop_nil]
  simp

/-- C1 (evaluation of the code): the plain gzip writer, over the pair encoder and a file
that never fails, is given 32768 zero bytes and then the byte 1, and closed; the closed
file holds the encoding of the 32768 zero bytes only, the same file as for the input that
ends in the byte 2. The encoder had more output than the compressed buffer holds; the
loop of `sync` stops once `avail_in` is 0, and `close` ends the codec with that output
still inside it. -/
theorem gz_close_drops_pending_output :
    (gz.close (gz.write (gz.obuf.init pair_deflater (some empty_ofile) 0)
      (List.replicate 32768 0 ++ [1]))).2
      = some { data := pair_encode (List.replicate 32768 0), room := none } ∧
    (gz.close (gz.write (gz.obuf.init pair_deflater (some empty_ofile) 0)
      (List.replicate 32768 0 ++ [2]))).2
      = some { data := pair_encode (List.replicate 32768 0), room := none } := by
  have key : ∀ c : Nat, c < 256 →
      (gz.close (gz.write (gz.obuf.init pair_deflater (some empty_ofile) 0)
        (List.replicate 32768 0 ++ [c]))).2
        = some { data := pair_encode (List.replicate 32768 0), room := none } := by
    intro c hc
    have h0 : gz.obuf.init pair_deflater (some empty_ofile) 0 = pair_writer [] [] [] := rfl
    have hl : (List.replicate 32768 0 ++ [c]).length = 32769 := by
      rw [List.length_append, List.length_replicate, List.length_singleton]
    have hm : (List.replicate 32768 0 ++ [c]).map (fun c => c % 256)
        = List.replicate 32768 0 ++ [c] := by
      rw [List.map_append, List.map_replicate]
      simp only [List.map_cons, List.map_nil, Nat.zero_mod, Nat.mod_eq_of_lt hc]
    rw [h0, gz.write_fits_plain _ (pair_writer [] [] []) rfl
      (by rw [hl]; simp only [pair_writer, List.length_nil]; decide)]
    have e : ({ pair_writer [] [] [] with
        pbuf := (pair_writer [] [] []).pbuf ++ (List.replicate 32768 0 ++ [c]).map
          (fun c => c % 256) } : gz.obuf pair_deflater)
        = pair_writer (List.replicate 32768 0 ++ [c]) [] [] := by
      rw [hm]
      rfl
    have hne : List.replicate 32768 0 ++ [c] ≠ [] := by
      intro h
      have := congrArg List.length h
      rw [hl, List.length_nil] at this
      omega
    rw [e, gz.pair_close_file _ hne]
    rw [pair_encode_append, List.take_append_of_le_length (by
      rw [pair_encode_length, List.length_replicate]
      decide), List.take_of_length_le (by
      rw [pair_encode_length, List.length_replicate]
      decide)]
  exact ⟨key 1 (by decide), key 2 (by decide)⟩

/-- Scenario A over the pair codec: "hello world" written by the plain gzip writer and by
the block-indexed writer and read back through the reader is "hello world" followed by
end-of-data. -/
theorem hello_world_round_trip :
    (gz.read 12 (gz.ibuf.init pair_inflater (reopen (gz.close (gz.write
      (gz.obuf.init pair_deflater (some empty_ofile) 0) hello_world)).2) 0)).1
      = hello_world.map some ++ [none] ∧
    (gz.read 12 (gz.ibuf.init pair_inflater (reopen (bgz.close (bgz.write
      (gz.obuf.init pair_deflater (some empty_ofile) 0) hello_world)).2) 0)).1
      = hello_world.map some ++ [none] := by
  decide

/-! ### The reader over the pair decoder, a compressed window at a time -/

theorem pair_scan_encode (xs : List Nat) : ∀ (rest : List Nat) (out : Nat), xs.length ≤ out →
    pair_scan PairState.tag (pair_encode xs ++ rest) out
      = ((pair_scan PairState.tag rest (out - xs.length)).1,
         (pair_scan PairState.tag rest (out - xs.length)).2.1 + 2 * xs.length,
         xs ++ (pair_scan PairState.tag rest (out - xs.length)).2.2) := by
  induction xs with
  | nil =>
    intro rest out _
    simp [pair_encode]
  | cons b bs ih =>
    intro rest out h
    simp only [List.length_cons] at h
    obtain ⟨k, hk⟩ : ∃ k, out = k + 1 := ⟨out - 1, by omega⟩
    subst hk
    have e : k + 1 - (b :: bs).length = k - bs.length := by
      simp only [List.length_cons]
      omega
    rw [e]
    show pair_scan PairState.tag (1 :: b :: (pair_encode bs ++ rest)) (k + 1) = _
    rw [pair_scan]
    simp only [Nat.one_ne_zero, if_false, if_true, pair_scan]
    rw [ih rest k (by omega)]
    simp only [List.length_cons, List.cons_append, Prod.mk.injEq, true_and, and_true]
    omega

theorem gz.read_buffered {C : Inflater} (n : Nat) : ∀ s : gz.ibuf C,
    s.gpos + n ≤ s.gbuf.length →
    gz.read n s = (((s.gbuf.drop s.gpos).take n).map some, { s with gpos := s.gpos + n }) := by
  induction n with
  | zero =>
    intro s _
    simp [gz.read]
  | succ n ih =>
    intro s h
    have hlt : s.gpos < s.gbuf.length := by omega
    have hs : gz.sbumpc s = (s.gbuf.get? s.gpos, { s with gpos := s.gpos + 1 }) := by
      simp only [gz.sbumpc, hlt, if_true]
    rw [gz.read_succ, hs]
    simp only
    rw [ih { s with gpos := s.gpos + 1 } (by simp only; omega)]
    simp only [Prod.mk.injEq]
    constructor
    · rw [List.get?_eq_get hlt, List.drop_eq_getElem_cons hlt, List.take_succ_cons]
      simp
    · simp only [Nat.add_assoc, Nat.add_comm 1 n]

theorem gz.read_fill {C : Inflater} (s t : gz.ibuf C) (n : Nat) (hfp : s.fp_.isSome = true)
    (hemp : s.gbuf.length ≤ s.gpos) (hrun : gz.underflow_run s = t) (hg : t.gpos = 0)
    (hres : t.zlib_res_ = Z_OK ∨ t.zlib_res_ = Z_STREAM_END) (hn : n ≤ t.gbuf.length)
    (hpos : 0 < n) :
    gz.read n s = ((t.gbuf.take n).map some, { t with gpos := n }) := by
  obtain ⟨k, hk⟩ : ∃ k, n = k + 1 := ⟨n - 1, by omega⟩
  subst hk
  have hok : s.status_ok := by
    intro hlt
    omega
  have h1 : ¬ (t.zlib_res_ ≠ Z_OK ∧ t.zlib_res_ ≠ Z_STREAM_END) := by
    rintro ⟨a, b⟩
    rcases hres with h | h
    · exact a h
    · exact b h
  have h2 : ¬ (t.gbuf.length ≤ t.gpos) := by omega
  have hb : gz.sbumpc s = (t.gbuf.get? t.gpos, { t with gpos := t.gpos + 1 }) := by
    rw [gz.sbumpc_eq_bump s hfp hok, hrun]
    simp only [gz.bump, h1, h2, if_false]
  rw [gz.read_succ, hb]
  simp only
  rw [gz.read_buffered k { t with gpos := t.gpos + 1 } (by simp only; omega)]
  simp only [hg, Prod.mk.injEq]
  constructor
  · have hlt : 0 < t.gbuf.length := by omega
    generalize t.gbuf = gb at hlt ⊢
    cases gb with
    | nil => simp at hlt
    | cons a as => simp
  · simp only [Nat.zero_add, Nat.add_comm 1 k]

theorem pair_inflate_encode (xs : List Nat) (hx : xs ≠ []) (h : xs.length ≤ default_block_size) :
    pair_inflate PairState.tag (pair_encode xs) default_block_size
      = { state := PairState.tag, consumed := 2 * xs.length, produced := xs, ret := Z_OK } := by
  have e : pair_scan PairState.tag (pair_encode xs) default_block_size
      = (PairState.tag, 2 * xs.length, xs) := by
    have := pair_scan_encode xs [] default_block_size h
    rw [List.append_nil] at this
    rw [this]
    simp [pair_scan]
  have hpos : 0 < xs.length := List.length_pos.mpr hx
  unfold pair_inflate
  rw [e]
  simp only [pair_ret]
  rw [if_neg (by decide), if_neg (by decide), if_neg (by
    rintro ⟨h1, _⟩
    omega)]

theorem gz.pair_fill (xs rest data gb : List Nat) (gp cbp ubo pos : Nat) (sk : Bool)
    (hemp : gb.length ≤ gp) (hdata : data.drop pos = pair_encode xs ++ rest)
    (hlen : 2 * xs.length = default_block_size) :
    gz.underflow_run
        ({ zstrm_ := PairState.tag, next_in := [], zlib_res_ := Z_OK, gbuf := gb, gpos := gp,
           discard_amount_ := 0, current_block_position_ := cbp,
           uncompressed_block_offset_ := ubo,
           fp_ := some { data := data, pos := pos, eof := false, seekable := sk } } :
          gz.ibuf pair_inflater)
      = { zstrm_ := PairState.tag, next_in := [], zlib_res_ := Z_OK, gbuf := xs, gpos := 0,
          discard_amount_ := 0, current_block_position_ := cbp,
          uncompressed_block_offset_ := ubo + xs.length,
          fp_ := some { data := data, pos := pos + default_block_size, eof := false,
                        seekable := sk } } := by
  have hB : 0 < default_block_size := by decide
  have hx : xs ≠ [] := by
    intro hc
    rw [hc] at hlen
    simp at hlen
    omega
  have hxl : xs.length ≤ default_block_size := by omega
  have hel : (pair_encode xs).length = default_block_size := by
    rw [pair_encode_length]
    exact hlen
  have hfr : fread { data := data, pos := pos, eof := false, seekable := sk } default_block_size
      = (pair_encode xs, { data := data, pos := pos + default_block_size, eof := false,
                           seekable := sk }) := by
    unfold fread
    simp only [hdata, List.take_left' hel, hel, Nat.lt_irrefl, decide_False, Bool.or_false]
  have hinf : pair_inflater.inflate PairState.tag (pair_encode xs) default_block_size
      = { state := PairState.tag, consumed := 2 * xs.length, produced := xs, ret := Z_OK } :=
    pair_inflate_encode xs hx hxl
  rw [gz.underflow_run_eq]
  have hc : gz.underflow_cond
      ({ zstrm_ := PairState.tag, next_in := [], zlib_res_ := Z_OK, gbuf := gb, gpos := gp,
         discard_amount_ := 0, current_block_position_ := cbp,
         uncompressed_block_offset_ := ubo,
         fp_ := some { data := data, pos := pos, eof := false, seekable := sk } } :
        gz.ibuf pair_inflater) = true := by
    rw [gz.underflow_cond_iff]
    exact ⟨_, rfl, Or.inl rfl, hemp, Or.inr rfl⟩
  rw [if_pos hc]
  have hbody : gz.underflow_body
      ({ zstrm_ := PairState.tag, next_in := [], zlib_res_ := Z_OK, gbuf := gb, gpos := gp,
         discard_amount_ := 0, current_block_position_ := cbp,
         uncompressed_block_offset_ := ubo,
         fp_ := some { data := data, pos := pos, eof := false, seekable := sk } } :
        gz.ibuf pair_inflater)
      = { zstrm_ := PairState.tag, next_in := [], zlib_res_ := Z_OK, gbuf := xs, gpos := 0,
          discard_amount_ := 0, current_block_position_ := cbp,
          uncompressed_block_offset_ := ubo + xs.length,
          fp_ := some { data := data, pos := pos + default_block_size, eof := false,
                        seekable := sk } } := by
    simp only [gz.underflow_body, gz.replenish_compressed_buffer, gz.underflow_reset,
      gz.underflow_inflate, feof, List.length_nil, and_self, if_true, hfr, hinf,
      Z_OK_ne_Z_STREAM_END, false_and, if_false, Nat.lt_irrefl]
    have hdrop : List.drop (2 * xs.length) (pair_encode xs) = [] :=
      List.drop_eq_nil_of_le (by rw [pair_encode_length])
    rw [hdrop]
  rw [hbody, gz.underflow_run_of_nonempty]
  simp only
  exact List.length_pos.mpr hx

theorem gz.read_add_state {C : Inflater} (j n : Nat) : ∀ s : gz.ibuf C,
    (gz.read (j + n) s).2 = (gz.read n (gz.read j s).2).2 := by
  induction j with
  | zero =>
    intro s
    simp only [Nat.zero_add, gz.read]
  | succ j ih =>
    intro s
    have e : j + 1 + n = (j + n) + 1 := by omega
    rw [e, gz.read_succ, gz.read_succ, ih]

theorem two_window_first (xa : List Nat) (y : Nat) (hxa : 2 * xa.length = default_block_size) :
    gz.read xa.length (two_window_reader xa y [] 0 0 0)
      = (xa.map some, two_window_reader xa y xa xa.length xa.length default_block_size) := by
  have hpos : 0 < xa.length := by
    have : 0 < default_block_size := by decide
    omega
  have hrun := gz.pair_fill xa (pair_encode xa ++ (0 :: (pair_encode [y] ++ [0])))
    (two_window_file xa y) [] 0 0 0 0 true (Nat.le_refl _)
    (by rw [List.drop_zero]; rfl) hxa
  rw [gz.read_fill (two_window_reader xa y [] 0 0 0) _ xa.length rfl (Nat.le_refl _) hrun rfl
    (Or.inl rfl) (Nat.le_refl _) hpos]
  simp only [List.take_length, Nat.zero_add]
  rfl

theorem two_window_second (xa : List Nat) (y : Nat)
    (hxa : 2 * xa.length = default_block_size) :
    gz.read xa.length (two_window_reader xa y xa xa.length xa.length default_block_size)
      = (xa.map some,
         two_window_reader xa y xa xa.length (xa.length + xa.length)
           (default_block_size + default_block_size)) := by
  have hpos : 0 < xa.length := by
    have : 0 < default_block_size := by decide
    omega
  have hel : (pair_encode xa).length = default_block_size := by
    rw [pair_encode_length]
    exact hxa
  have hrun := gz.pair_fill xa (0 :: (pair_encode [y] ++ [0]))
    (two_window_file xa y) xa xa.length 0 xa.length default_block_size true (Nat.le_refl _)
    (by
      unfold two_window_file
      rw [List.drop_left' hel]) hxa
  rw [gz.read_fill (two_window_reader xa y xa xa.length xa.length default_block_size) _
    xa.length rfl (Nat.le_refl _) hrun rfl (Or.inl rfl) (Nat.le_refl _) hpos]
  simp only [List.take_length]
  rfl

theorem two_window_read (xa : List Nat) (y : Nat) (hxa : 2 * xa.length = default_block_size) :
    gz.read (xa.length + xa.length) (two_window_reader xa y [] 0 0 0)
      = ((xa ++ xa).map some,
         two_window_reader xa y xa xa.length (xa.length + xa.length)
           (default_block_size + default_block_size)) := by
  have h1 := gz.read_add xa.length xa.length (two_window_reader xa y [] 0 0 0)
  have h2 := gz.read_add_state xa.length xa.length (two_window_reader xa y [] 0 0 0)
  rw [two_window_first xa y hxa] at h1 h2
  simp only at h1 h2
  rw [two_window_second xa y hxa] at h1 h2
  simp only at h1 h2
  rw [Prod.ext_iff]
  simp only [h1, h2, List.map_append, and_self]

theorem two_window_next (xa : List Nat) (y : Nat) (hxa : 2 * xa.length = default_block_size) :
    (gz.sbumpc (two_window_reader xa y xa xa.length (xa.length + xa.length)
      (default_block_size + default_block_size))).1 = some y := by
  have hel : (pair_encode xa).length = default_block_size := by
    rw [pair_encode_length]
    exact hxa
  have hdrop : (two_window_file xa y).drop (default_block_size + default_block_size)
      = [0, 1, y, 0] := by
    unfold two_window_file
    rw [← List.drop_drop, List.drop_left' hel, List.drop_left' hel]
    rfl
  have hfr : fread (FILE.mk (two_window_file xa y) (default_block_size + default_block_size)
      false true) default_block_size
      = ([0, 1, y, 0], FILE.mk (two_window_file xa y)
          (default_block_size + default_block_size + 4) true true) := by
    unfold fread
    simp only [hdrop]
    rw [List.take_of_length_le (by simp [default_block_size])]
    simp [default_block_size]
  have hi1 : pair_inflater.inflate PairState.tag [0, 1, y, 0] default_block_size
      = { state := PairState.done, consumed := 1, produced := [], ret := Z_STREAM_END } := by
    show pair_inflate PairState.tag [0, 1, y, 0] default_block_size = _
    simp [pair_inflate, pair_scan, pair_ret]
  have hi2 : pair_inflater.inflate PairState.tag [1, y, 0] default_block_size
      = { state := PairState.done, consumed := 3, produced := [y], ret := Z_STREAM_END } := by
    show pair_inflate PairState.tag [1, y, 0] (65535 + 1) = _
    unfold pair_inflate
    simp only [pair_scan]
    simp [pair_ret]
  have hb1 : gz.underflow_body (two_window_reader xa y xa xa.length (xa.length + xa.length)
      (default_block_size + default_block_size))
      = { zstrm_ := PairState.done, next_in := [1, y, 0], zlib_res_ := Z_STREAM_END, gbuf := [],
          gpos := 0, discard_amount_ := 0, current_block_position_ := 0,
          uncompressed_block_offset_ := xa.length + xa.length,
          fp_ := some (FILE.mk (two_window_file xa y)
            (default_block_size + default_block_size + 4) true true) } := by
    simp only [two_window_reader, gz.underflow_body, gz.replenish_compressed_buffer,
      gz.underflow_reset, gz.underflow_inflate, feof, List.length_nil, and_self, if_true, hfr,
      hi1, gz.Z_OK_ne_Z_STREAM_END, false_and, if_false, Nat.lt_irrefl]
    simp
  have hb2 : gz.underflow_body
      ({ zstrm_ := PairState.done, next_in := [1, y, 0], zlib_res_ := Z_STREAM_END, gbuf := [],
         gpos := 0, discard_amount_ := 0, current_block_position_ := 0,
         uncompressed_block_offset_ := xa.length + xa.length,
         fp_ := some (FILE.mk (two_window_file xa y)
            (default_block_size + default_block_size + 4) true true) } : gz.ibuf pair_inflater)
      = { zstrm_ := PairState.done, next_in := [], zlib_res_ := Z_STREAM_END, gbuf := [y],
          gpos := 0, discard_amount_ := 0,
          current_block_position_ := sub_u64 (default_block_size + default_block_size + 4) 3,
          uncompressed_block_offset_ := 1,
          fp_ := some (FILE.mk (two_window_file xa y)
            (default_block_size + default_block_size + 4) true true) } := by
    have hr : pair_inflater.inflateReset PairState.done = (PairState.tag, Z_OK) := rfl
    simp only [gz.underflow_body, gz.underflow_reset, gz.underflow_inflate, feof,
      List.length_cons, List.length_nil, Nat.succ_ne_zero, false_and, if_false, true_and,
      Nat.zero_lt_succ, and_self, if_true, hr, hi2, sub_u64_ftell_mk]
    simp [hi2]
  have hrun : gz.underflow_run (two_window_reader xa y xa xa.length (xa.length + xa.length)
      (default_block_size + default_block_size))
      = { zstrm_ := PairState.done, next_in := [], zlib_res_ := Z_STREAM_END, gbuf := [y],
          gpos := 0, discard_amount_ := 0,
          current_block_position_ := sub_u64 (default_block_size + default_block_size + 4) 3,
          uncompressed_block_offset_ := 1,
          fp_ := some (FILE.mk (two_window_file xa y)
            (default_block_size + default_block_size + 4) true true) } := by
    rw [gz.underflow_run_eq, if_pos (by
      rw [gz.underflow_cond_iff]
      exact ⟨_, rfl, Or.inl rfl, Nat.le_refl _, Or.inr rfl⟩), hb1, gz.underflow_run_eq,
      if_pos (by
        rw [gz.underflow_cond_iff]
        exact ⟨_, rfl, Or.inr rfl, Nat.le_refl _, Or.inl (by simp)⟩), hb2,
      gz.underflow_run_of_nonempty _ (by simp)]
  rw [gz.sbumpc_eq_bump (two_window_reader xa y xa xa.length (xa.length + xa.length)
      (default_block_size + default_block_size)) rfl (by
    intro hlt
    simp only [two_window_reader] at hlt
    omega), hrun]
  simp [gz.bump, Z_STREAM_END, Z_OK]

theorem two_window_tell (xa : List Nat) (y : Nat) (hxa : 2 * xa.length = default_block_size) :
    bgz.seekoff (two_window_reader xa y xa xa.length (xa.length + xa.length)
      (default_block_size + default_block_size)) 0 gz.seekdir.cur 0
      = some (0, two_window_reader xa y xa xa.length (xa.length + xa.length)
          (default_block_size + default_block_size)) := by
  have hu : (two_window_reader xa y xa xa.length (xa.length + xa.length)
      (default_block_size + default_block_size)).unread = 0 := by
    simp [gz.ibuf.unread, two_window_reader]
  have hl : xa.length + xa.length = 65536 := by
    have : default_block_size = 65536 := rfl
    omega
  unfold bgz.seekoff
  rw [if_pos ⟨rfl, rfl⟩, if_neg (by
    rintro ⟨_, h⟩
    exact gz.Z_OK_ne_Z_STREAM_END h)]
  simp only [hu]
  simp only [two_window_reader, hl]
  rfl

theorem two_window_seek (xa : List Nat) (y a : Nat) (hxa : 2 * xa.length = default_block_size)
    (ha : xa.get? 0 = some a) :
    (gz.sbumpc (bgz.seekpos (two_window_reader xa y xa xa.length (xa.length + xa.length)
      (default_block_size + default_block_size)) 0 0).2).1 = some a := by
  have hs : (bgz.seekpos (two_window_reader xa y xa xa.length (xa.length + xa.length)
      (default_block_size + default_block_size)) 0 0).2
      = two_window_reader xa y [] 0 (xa.length + xa.length) 0 := by
    have h1 : seekpos_compressed_offset 0 = 0 := by decide
    have h2 : seekpos_uncompressed_offset 0 = 0 := by decide
    simp only [bgz.seekpos, two_window_reader, fseek, if_true, h1, h2]
    rfl
  have hrun := gz.pair_fill xa (pair_encode xa ++ (0 :: (pair_encode [y] ++ [0])))
    (two_window_file xa y) [] 0 0 (xa.length + xa.length) 0 true (Nat.le_refl _)
    (by rw [List.drop_zero]; rfl) hxa
  have hpos : 0 < xa.length := by
    have : 0 < default_block_size := by decide
    omega
  rw [hs, gz.sbumpc_eq_bump (two_window_reader xa y [] 0 (xa.length + xa.length) 0) rfl (by
    intro hlt
    simp only [two_window_reader, List.length_nil] at hlt
    omega)]
  have hrun2 : gz.underflow_run (two_window_reader xa y [] 0 (xa.length + xa.length) 0) = _ :=
    hrun
  rw [hrun2]
  simp only [gz.bump]
  rw [if_neg (by
    rintro ⟨h, _⟩
    exact h rfl), if_neg (by
    intro h
    have h2 : xa.length ≤ 0 := h
    omega)]
  exact ha

/-- C3 (evaluation of the code): the block-indexed writer, over the pair encoder, writes
65536 zero bytes and then the byte 1; a fresh reader on that file reads exactly the 65536
bytes of the full first member. The next byte is then 1. But `tell` returns 0, the virtual
offset of the first byte of the file (the codec has not yet reported the member end, and
the 16-bit intra-member offset 65536 wraps to 0), and after `seek(0)` the next byte read
is 0. -/
theorem tell_seek_after_full_member :
    (gz.read 65536 full_member_reader).1 = List.replicate 65536 (some 0) ∧
    (bgz.seekoff (gz.read 65536 full_member_reader).2 0 gz.seekdir.cur 0).map Prod.fst
      = some 0 ∧
    (gz.sbumpc (gz.read 65536 full_member_reader).2).1 = some 1 ∧
    (gz.sbumpc (bgz.seekpos (gz.read 65536 full_member_reader).2 0 0).2).1 = some 0 := by
  have hlen : (List.replicate 32768 0).length = 32768 := List.length_replicate _ _
  have hxa : 2 * (List.replicate 32768 0).length = default_block_size := by
    rw [hlen]
    rfl
  have hsplit : List.replicate 65536 0 = List.replicate 32768 0 ++ List.replicate 32768 0 := by
    rw [← List.replicate_add]
  have hfile : full_member_file
      = some { data := two_window_file (List.replicate 32768 0) 1, pos := 0, eof := false,
               seekable := true } := by
    have hx : (List.replicate 65536 0).length = default_block_size := by
      rw [List.length_replicate]
      rfl
    have h := (bgz.pair_two_members (List.replicate 65536 0) [1] hx (by simp)
      (by simp [default_block_size])).2
    unfold full_member_file full_member_input
    rw [h]
    have hm : (List.replicate 65536 0).map (fun c => c % 256) = List.replicate 65536 0 := by
      rw [List.map_replicate]
    simp only [reopen, Option.map_some', hm, List.map_cons, List.map_nil]
    rw [hsplit, pair_encode_append]
    simp only [two_window_file, List.append_assoc, List.singleton_append]
  have hreader : full_member_reader = two_window_reader (List.replicate 32768 0) 1 [] 0 0 0 := by
    unfold full_member_reader
    rw [hfile]
    rfl
  have hread := two_window_read (List.replicate 32768 0) 1 hxa
  have hread2 : gz.read 65536 full_member_reader
      = ((List.replicate 32768 0 ++ List.replicate 32768 0).map some,
         two_window_reader (List.replicate 32768 0) 1 (List.replicate 32768 0)
           (List.replicate 32768 0).length
           ((List.replicate 32768 0).length + (List.replicate 32768 0).length)
           (default_block_size + default_block_size)) := by
    rw [hreader, ← hread, hlen]
  rw [hread2]
  refine ⟨?_, ?_, ?_, ?_⟩
  · rw [← hsplit, List.map_replicate]
  · simp only
    rw [two_window_tell _ _ hxa]
    rfl
  · exact two_window_next _ _ hxa
  · have h0 : (List.replicate 32768 0).get? 0 = some 0 := by
      have e : (32768 : Nat) = 32767 + 1 := rfl
      rw [e, List.replicate_succ]
      rfl
    exact two_window_seek _ _ 0 hxa h0

/-! ### Scenario B: a seek into the second member -/

theorem second_member_seek (xs ys : List Nat) (k b : Nat) (hx : 2 * xs.length + 1 < 2 ^ 48)
    (hys : 2 * ys.length + 1 < default_block_size) (hk : k < 65536)
    (hb : ys.get? k = some b) :
    (gz.sbumpc (bgz.seekpos (gz.ibuf.init pair_inflater
      (some (FILE.mk (pair_encode xs ++ [0] ++ (pair_encode ys ++ [0])) 0 false true)) 0)
      (to_pos (virtual_offset (2 * xs.length + 1) k)) 0).2).1 = some b := by
  have hoff := seekpos_offsets_of_virtual_offset (2 * xs.length + 1) k
  rw [Nat.mod_eq_of_lt hx, Nat.mod_eq_of_lt (by omega : k < 2 ^ 16)] at hoff
  have hklt : k < ys.length := by
    rcases Nat.lt_or_ge k ys.length with h | h
    · exact h
    · rw [List.get?_eq_none.mpr h] at hb
      cases hb
  have hs : (bgz.seekpos (gz.ibuf.init pair_inflater
      (some (FILE.mk (pair_encode xs ++ [0] ++ (pair_encode ys ++ [0])) 0 false true)) 0)
      (to_pos (virtual_offset (2 * xs.length + 1) k)) 0).2
      = seeked_reader (pair_encode xs ++ [0] ++ (pair_encode ys ++ [0]))
          (2 * xs.length + 1) k := by
    simp only [bgz.seekpos, gz.ibuf.init, fseek, if_true, hoff.1, hoff.2]
    rfl
  have hdrop : (pair_encode xs ++ [0] ++ (pair_encode ys ++ [0])).drop (2 * xs.length + 1)
      = pair_encode ys ++ [0] := by
    apply List.drop_left'
    rw [List.length_append, pair_encode_length, List.length_singleton]
  have hfr : fread (FILE.mk (pair_encode xs ++ [0] ++ (pair_encode ys ++ [0]))
      (2 * xs.length + 1) false true) default_block_size
      = (pair_encode ys ++ [0], FILE.mk (pair_encode xs ++ [0] ++ (pair_encode ys ++ [0]))
          (2 * xs.length + 1 + (2 * ys.length + 1)) true true) := by
    have hl : (pair_encode ys ++ [0]).length = 2 * ys.length + 1 := by
      rw [List.length_append, pair_encode_length, List.length_singleton]
    unfold fread
    simp only [hdrop]
    rw [List.take_of_length_le (by rw [hl]; omega), hl]
    simp only [Bool.false_or, decide_eq_true hys]
  have hinf : pair_inflater.inflate PairState.tag (pair_encode ys ++ [0]) default_block_size
      = { state := PairState.done, consumed := 1 + 2 * ys.length, produced := ys,
          ret := Z_STREAM_END } := by
    show pair_inflate PairState.tag (pair_encode ys ++ [0]) default_block_size = _
    unfold pair_inflate
    rw [pair_scan_encode ys [0] default_block_size (by omega)]
    simp [pair_scan, pair_ret]
  have hbody : gz.underflow_body
      (seeked_reader (pair_encode xs ++ [0] ++ (pair_encode ys ++ [0])) (2 * xs.length + 1) k)
      = { zstrm_ := PairState.done, next_in := [], zlib_res_ := Z_STREAM_END, gbuf := ys,
          gpos := k, discard_amount_ := 0, current_block_position_ := 2 * xs.length + 1,
          uncompressed_block_offset_ := ys.length,
          fp_ := some (FILE.mk (pair_encode xs ++ [0] ++ (pair_encode ys ++ [0]))
            (2 * xs.length + 1 + (2 * ys.length + 1)) true true) } := by
    have hd : List.drop (1 + 2 * ys.length) (pair_encode ys ++ [0]) = [] :=
      List.drop_eq_nil_of_le (by
        rw [List.length_append, pair_encode_length, List.length_singleton]
        omega)
    have hmin : min k ys.length = k := by omega
    simp only [seeked_reader, gz.underflow_body, gz.replenish_compressed_buffer,
      gz.underflow_reset, gz.underflow_inflate, feof, List.length_nil, and_self, if_true, hfr,
      hinf, gz.Z_OK_ne_Z_STREAM_END, false_and, if_false, hd, hmin, Nat.zero_add]
    by_cases h0 : 0 < k
    · simp only [h0, if_true]
      have : k - k = 0 := by omega
      rw [this]
    · have hk0 : k = 0 := by omega
      subst hk0
      simp
  rw [hs, gz.sbumpc_eq_bump (seeked_reader (pair_encode xs ++ [0] ++ (pair_encode ys ++ [0]))
      (2 * xs.length + 1) k) rfl (by
    intro hlt
    simp only [seeked_reader, List.length_nil] at hlt
    omega), gz.underflow_run_eq, if_pos (by
      rw [gz.underflow_cond_iff]
      exact ⟨_, rfl, Or.inl rfl, Nat.le_refl _, Or.inr rfl⟩), hbody,
    gz.underflow_run_of_nonempty _ hklt]
  simp only [gz.bump]
  rw [if_neg (by
    rintro ⟨_, h⟩
    exact h rfl), if_neg (by
    intro h
    have h2 : ys.length ≤ k := h
    omega)]
  exact hb

/-- Scenario B over the pair codec: 70000 bytes of the pattern `0x00..0xFF` are written by
the block-indexed writer, which puts the second member at byte 131073 of the file; a
reader that seeks to the virtual offset `(131073 << 16) | 4` reads the byte `0x04`, the
65541st byte of the pattern. -/
theorem scenario_B_seek :
    (gz.sbumpc (bgz.seekpos (gz.ibuf.init pair_inflater pattern_file 0)
      (to_pos (virtual_offset 131073 4)) 0).2).1 = some 4 := by
  have hlen : pattern_input.length = 70000 := by
    unfold pattern_input
    rw [List.length_map, List.length_range]
  have hx : (pattern_input.take 65536).length = default_block_size := by
    rw [List.length_take, hlen]
    rfl
  have hyl : (pattern_input.drop 65536).length = 4464 := by
    rw [List.length_drop, hlen]
  have hy1 : pattern_input.drop 65536 ≠ [] := by
    intro hc
    have := congrArg List.length hc
    rw [hyl, List.length_nil] at this
    omega
  have hy2 : (pattern_input.drop 65536).length ≤ default_block_size := by
    rw [hyl]
    decide
  have hfile : pattern_file
      = some (FILE.mk (pair_encode ((pattern_input.take 65536).map (fun c => c % 256)) ++ [0]
          ++ (pair_encode ((pattern_input.drop 65536).map (fun c => c % 256)) ++ [0]))
          0 false true) := by
    have h := (bgz.pair_two_members (pattern_input.take 65536) (pattern_input.drop 65536)
      hx hy1 hy2).2
    rw [List.take_append_drop] at h
    unfold pattern_file
    rw [h]
    rfl
  have hb : ((pattern_input.drop 65536).map (fun c => c % 256)).get? 4 = some 4 := by
    rw [List.get?_eq_getElem?, List.getElem?_map, List.getElem?_drop]
    unfold pattern_input
    rw [List.getElem?_map, List.getElem?_range (by decide)]
    rfl
  have hxl : 2 * ((pattern_input.take 65536).map (fun c => c % 256)).length + 1 = 131073 := by
    rw [List.length_map, hx]
    rfl
  have h := second_member_seek ((pattern_input.take 65536).map (fun c => c % 256))
    ((pattern_input.drop 65536).map (fun c => c % 256)) 4 4
    (by rw [hxl]; decide)
    (by rw [List.length_map, hyl]; decide) (by decide) hb
  rw [hxl] at h
  rw [hfile]
  exact h

/-! ### Seek postcondition -/

theorem to_u64_of_nonneg (p : Int) (h0 : 0 ≤ p) (h1 : p < 2 ^ 63) : (to_u64 p : Int) = p := by
  unfold to_u64
  omega

/-- C11: `bgz::ibuf::seekpos(pos)` on an open file whose reposition to `pos >> 16` succeeds
returns `pos` and leaves the file at `pos >> 16`, `current_block_position_ = pos >> 16`,
`discard_amount_ = pos & 0xFFFF`, the codec reset, no buffered compressed input and an empty
get area; with a null file handle or a failed reposition it returns -1 and leaves the whole
reader as it was. The shift and the mask act on the 64-bit unsigned value of `pos`, which is
`pos` itself for `0 ≤ pos`. -/
theorem seekpos_postcondition {C : Inflater} (s : gz.ibuf C) (pos : Int) (which : Nat) :
    (∀ f g, s.fp_ = some f → fseek f (to_u64 pos / 2 ^ 16) = some g →
      (bgz.seekpos s pos which).1 = pos ∧
      (bgz.seekpos s pos which).2.fp_ = some g ∧
      ftell g = ((to_u64 pos / 2 ^ 16 : Nat) : Int) ∧
      (bgz.seekpos s pos which).2.current_block_position_ = to_u64 pos / 2 ^ 16 ∧
      (bgz.seekpos s pos which).2.discard_amount_ = to_u64 pos % 2 ^ 16 ∧
      (bgz.seekpos s pos which).2.zstrm_ = (C.inflateReset s.zstrm_).1 ∧
      (bgz.seekpos s pos which).2.zlib_res_ = (C.inflateReset s.zstrm_).2 ∧
      (bgz.seekpos s pos which).2.next_in = [] ∧
      (bgz.seekpos s pos which).2.gpos = (bgz.seekpos s pos which).2.gbuf.length ∧
      (bgz.seekpos s pos which).2.unread = 0) ∧
    (s.fp_ = none ∨ (∃ f, s.fp_ = some f ∧ fseek f (to_u64 pos / 2 ^ 16) = none) →
      bgz.seekpos s pos which = (-1, s)) ∧
    (0 ≤ pos → pos < 2 ^ 63 →
      ((to_u64 pos / 2 ^ 16 : Nat) : Int) = pos / 2 ^ 16 ∧
      ((to_u64 pos % 2 ^ 16 : Nat) : Int) = pos % 2 ^ 16) := by
  refine ⟨?_, ?_, ?_⟩
  · intro f g hf hg
    have hpos : g.pos = to_u64 pos / 2 ^ 16 := by
      unfold fseek at hg
      split at hg
      · cases hg
        rfl
      · cases hg
    have hsk : g.seekable = true := by
      unfold fseek at hg
      split at hg
      · rename_i h
        cases hg
        exact h
      · cases hg
    have hu : seekpos_uncompressed_offset pos = to_u64 pos % 2 ^ 16 :=
      seekpos_uncompressed_offset_eq pos
    have ht : ftell g = ((to_u64 pos / 2 ^ 16 : Nat) : Int) := by
      rw [ftell_seekable g hsk, hpos]
    simp only [bgz.seekpos, hf, seekpos_compressed_offset_eq, hg, gz.ibuf.unread, ht, hu]
    simp
  · intro h
    rcases h with h | ⟨f, hf, hg⟩
    · simp only [bgz.seekpos, h]
    · simp only [bgz.seekpos, hf, seekpos_compressed_offset_eq, hg]
  · intro h0 h1
    have := to_u64_of_nonneg pos h0 h1
    constructor <;> omega

theorem seekpos_postcondition_witness :
    ((bgz.seekpos two_member_reader 458753 0).1 = 458753 ∧
      (bgz.seekpos two_member_reader 458753 0).2.fp_
        = some { data := two_member_file.data, pos := 7, eof := false, seekable := true } ∧
      ftell { data := two_member_file.data, pos := 7, eof := false, seekable := true }
        = ((to_u64 458753 / 2 ^ 16 : Nat) : Int) ∧
      (bgz.seekpos two_member_reader 458753 0).2.current_block_position_ = to_u64 458753 / 2 ^ 16 ∧
      (bgz.seekpos two_member_reader 458753 0).2.discard_amount_ = to_u64 458753 % 2 ^ 16 ∧
      (bgz.seekpos two_member_reader 458753 0).2.zstrm_
        = (pair_inflater.inflateReset two_member_reader.zstrm_).1 ∧
      (bgz.seekpos two_member_reader 458753 0).2.zlib_res_
        = (pair_inflater.inflateReset two_member_reader.zstrm_).2 ∧
      (bgz.seekpos two_member_reader 458753 0).2.next_in = [] ∧
      (bgz.seekpos two_member_reader 458753 0).2.gpos
        = (bgz.seekpos two_member_reader 458753 0).2.gbuf.length ∧
      (bgz.seekpos two_member_reader 458753 0).2.unread = 0) ∧
    bgz.seekpos (gz.ibuf.init pair_inflater none 0) 458753 0
      = (-1, gz.ibuf.init pair_inflater none 0) :=
  ⟨(seekpos_postcondition two_member_reader 458753 0).1 two_member_file
      { data := two_member_file.data, pos := 7, eof := false, seekable := true } rfl (by decide),
   (seekpos_postcondition (gz.ibuf.init pair_inflater none 0) 458753 0).2.1 (Or.inl rfl)⟩

/-! ### The discard step and the get area -/

namespace gz

variable {C : Inflater}

theorem underflow_body_eq (s : ibuf C) (f : FILE) (hf : s.fp_ = some f) :
    underflow_body s = underflow_inflate (underflow_reset (underflow_refill s)) := by
  unfold underflow_body underflow_refill
  rw [hf]

theorem underflow_refill_discard_amount (s : ibuf C) :
    (underflow_refill s).discard_amount_ = s.discard_amount_ := by
  unfold underflow_refill
  split
  · rfl
  · split
    · exact replenish_discard_amount s
    · rfl

theorem underflow_inflate_cursor (s : ibuf C) (hd : s.discard_amount_ < 2 ^ 16) :
    (underflow_inflate s).cursor_ok := by
  have hp := C.produced_le s.zstrm_ s.next_in default_block_size
  refine ⟨?_, hp, ?_⟩
  · rw [underflow_inflate_gpos]
    exact Nat.min_le_right _ _
  · rw [underflow_inflate_discard]
    omega

theorem underflow_body_cursor (s : ibuf C) (h : s.cursor_ok) : (underflow_body s).cursor_ok := by
  cases hf : s.fp_ with
  | none =>
    unfold underflow_body
    rw [hf]
    exact h
  | some f =>
    rw [underflow_body_eq s f hf]
    apply underflow_inflate_cursor
    rw [underflow_reset_discard_amount, underflow_refill_discard_amount]
    exact h.2.2

theorem underflow_loop_cursor (n : Nat) : ∀ s : ibuf C, s.cursor_ok →
    (underflow_loop n s).cursor_ok := by
  induction n with
  | zero => intro s h; exact h
  | succ n ih =>
    intro s h
    rw [underflow_loop_succ]
    split
    · exact ih _ (underflow_body_cursor s h)
    · exact h

theorem underflow_cursor (s : ibuf C) (h : s.cursor_ok) : (underflow s).2.cursor_ok := by
  unfold underflow
  split
  · exact h
  · split
    · exact h
    · have := underflow_loop_cursor s.passes s h
      simp only
      split
      · exact this
      · split <;> exact this

theorem underflow_some (s : ibuf C) (b : Nat) (h : (underflow s).1 = some b) :
    (underflow s).2.gpos < (underflow s).2.gbuf.length := by
  unfold underflow at h ⊢
  split at h
  · cases h
  · rename_i g hg
    simp only [hg]
    split at h
    · rename_i hlt
      simp only [if_pos hlt]
      exact hlt
    · rename_i hlt
      simp only [if_neg hlt] at h ⊢
      split at h
      · cases h
      · rename_i h1
        rw [if_neg h1]
        split at h
        · cases h
        · rename_i h2
          rw [if_neg h2]
          show (underflow_loop s.passes s).gpos < (underflow_loop s.passes s).gbuf.length
          omega

theorem sbumpc_cursor (s : ibuf C) (h : s.cursor_ok) : (sbumpc s).2.cursor_ok := by
  unfold sbumpc
  split
  · rename_i hlt
    exact ⟨hlt, h.2⟩
  · have hu := underflow_cursor s h
    cases hr : underflow s with
    | mk o t =>
      rw [hr] at hu
      cases o with
      | none => exact hu
      | some b =>
        have hs := underflow_some s b (by rw [hr])
        rw [hr] at hs
        exact ⟨hs, hu.2⟩

theorem sgetc_cursor (s : ibuf C) (h : s.cursor_ok) : (sgetc s).2.cursor_ok := by
  unfold sgetc
  split
  · exact h
  · exact underflow_cursor s h

end gz

theorem bgz.seekpos_cursor {C : Inflater} (s : gz.ibuf C) (pos : Int) (which : Nat)
    (h : s.cursor_ok) : (bgz.seekpos s pos which).2.cursor_ok := by
  unfold bgz.seekpos
  simp only
  split
  · exact h
  · split
    · exact h
    · refine ⟨Nat.le_refl _, Nat.zero_le _, ?_⟩
      show seekpos_uncompressed_offset pos < 2 ^ 16
      rw [seekpos_uncompressed_offset_eq]
      exact Nat.mod_lt _ (by norm_num)

theorem bgz.rrun_cursor {C : Inflater} (ops : List ReaderOp) : ∀ s : gz.ibuf C, s.cursor_ok →
    (bgz.rrun s ops).cursor_ok := by
  induction ops with
  | nil => intro s h; exact h
  | cons op rest ih =>
    intro s h
    show (bgz.rrun (bgz.rstep s op) rest).cursor_ok
    apply ih
    cases op with
    | get => exact gz.sbumpc_cursor s h
    | peek => exact gz.sgetc_cursor s h
    | seek pos => exact bgz.seekpos_cursor s pos 0 h
/-- C13: a pass of the refill loop that produces `p` bytes while `d` bytes are owed puts the
read cursor at `min d p` and leaves `d - min d p` owed, the subtraction never going below
zero (also in 16-bit arithmetic); and after every request and every seek on a reader the get
area satisfies `cursor ≤ end ≤ capacity`, with `discard_amount_` in the 16-bit range. -/
theorem discard_step {C : Inflater} :
    (∀ (s : gz.ibuf C) (f : FILE), s.fp_ = some f →
      (gz.underflow_body s).gbuf
        = (C.inflate (gz.underflow_reset (gz.underflow_refill s)).zstrm_
            (gz.underflow_reset (gz.underflow_refill s)).next_in default_block_size).produced ∧
      (gz.underflow_body s).gpos = min s.discard_amount_ (gz.underflow_body s).gbuf.length ∧
      (gz.underflow_body s).discard_amount_
          + min s.discard_amount_ (gz.underflow_body s).gbuf.length = s.discard_amount_ ∧
      (s.discard_amount_ < 2 ^ 16 →
        ((s.discard_amount_ : Int)
            - ((min s.discard_amount_ (gz.underflow_body s).gbuf.length : Nat) : Int)) % 2 ^ 16
          = ((gz.underflow_body s).discard_amount_ : Int))) ∧
    (∀ (fp : Option FILE) (res0 : Int) (ops : List ReaderOp),
      (bgz.rrun (gz.ibuf.init C fp res0) ops).gpos
          ≤ (bgz.rrun (gz.ibuf.init C fp res0) ops).gbuf.length ∧
      (bgz.rrun (gz.ibuf.init C fp res0) ops).gbuf.length ≤ default_block_size ∧
      (bgz.rrun (gz.ibuf.init C fp res0) ops).discard_amount_ < 2 ^ 16) := by
  constructor
  · intro s f hf
    rw [gz.underflow_body_eq s f hf]
    have hg := gz.underflow_inflate_gpos (gz.underflow_reset (gz.underflow_refill s))
    have hd := gz.underflow_inflate_discard (gz.underflow_reset (gz.underflow_refill s))
    rw [gz.underflow_reset_discard_amount, gz.underflow_refill_discard_amount] at hg hd
    have hb : (gz.underflow_inflate (gz.underflow_reset (gz.underflow_refill s))).gbuf
        = (C.inflate (gz.underflow_reset (gz.underflow_refill s)).zstrm_
            (gz.underflow_reset (gz.underflow_refill s)).next_in default_block_size).produced :=
      rfl
    rw [hb, hg, hd]
    refine ⟨rfl, rfl, ?_, ?_⟩
    · omega
    · intro hlt
      omega
  · intro fp res0 ops
    exact bgz.rrun_cursor ops _ ⟨Nat.le_refl _, Nat.zero_le _, by show (0 : Nat) < 2 ^ 16; norm_num⟩

theorem discard_step_witness :
    (gz.underflow_body (bgz.seekpos two_member_reader 2 0).2).gbuf = [10, 11, 12] ∧
    (gz.underflow_body (bgz.seekpos two_member_reader 2 0).2).gpos = 2 ∧
    (gz.underflow_body (bgz.seekpos two_member_reader 2 0).2).discard_amount_ = 0 ∧
    (gz.underflow_body (bgz.seekpos two_member_reader 65535 0).2).gbuf = [10, 11, 12] ∧
    (gz.underflow_body (bgz.seekpos two_member_reader 65535 0).2).gpos = 3 ∧
    (gz.underflow_body (bgz.seekpos two_member_reader 65535 0).2).discard_amount_ = 65532 := by
  have h1 := (discard_step).1 (bgz.seekpos two_member_reader 2 0).2 two_member_file rfl
  have h2 := (discard_step).1 (bgz.seekpos two_member_reader 65535 0).2 two_member_file rfl
  have e1 : (gz.underflow_body (bgz.seekpos two_member_reader 2 0).2).gbuf = [10, 11, 12] := by
    decide
  have e2 : (gz.underflow_body (bgz.seekpos two_member_reader 65535 0).2).gbuf = [10, 11, 12] := by
    decide
  have d1 : (bgz.seekpos two_member_reader 2 0).2.discard_amount_ = 2 := by decide
  have d2 : (bgz.seekpos two_member_reader 65535 0).2.discard_amount_ = 65535 := by decide
  rw [e1, d1] at h1
  rw [e2, d2] at h2
  refine ⟨e1, h1.2.1, ?_, e2, h2.2.1, ?_⟩
  · have := h1.2.2.1
    simp only [List.length_cons, List.length_nil] at this
    omega
  · have := h2.2.2.1
    simp only [List.length_cons, List.length_nil] at this
    omega

/-! ### Member start tracking -/

namespace gz

variable {C : Inflater}

end gz
namespace gz

variable {C : Inflater}

end gz
theorem drained_append (l1 l2 : List Event) : drained (l1 ++ l2) = drained l1 ++ drained l2 := by
  induction l1 with
  | nil => rfl
  | cons e es ih =>
    cases e <;> simp [drained, ih]

theorem drained_no_drain (evs : List Event) (h : ∀ e ∈ evs, ∀ fl bs, e ≠ Event.drain fl bs) :
    drained evs = [] := by
  induction evs with
  | nil => rfl
  | cons e es ih =>
    have ih2 := ih (fun x hx => h x (List.mem_cons_of_mem _ hx))
    cases e with
    | drain fl bs => exact absurd rfl (h _ (List.mem_cons_self _ _) fl bs)
    | deflate fl c r => simpa [drained] using ih2
    | reset => simpa [drained] using ih2
    | deflate_end => simpa [drained] using ih2
    | fclose => simpa [drained] using ih2

theorem gz.drain_log_plain {D : Deflater} (s : gz.obuf D) (n : Nat) :
    ∃ evs, (gz.deflate_loop n { s with log := s.log ++ [Event.drain Flush.Z_SYNC_FLUSH s.pbuf] }
        s.pbuf).1.log = s.log ++ Event.drain Flush.Z_SYNC_FLUSH s.pbuf :: evs ∧
      (∀ e ∈ evs, ∀ fl bs, e ≠ Event.drain fl bs) ∧
      (gz.deflate_loop n { s with log := s.log ++ [Event.drain Flush.Z_SYNC_FLUSH s.pbuf] }
        s.pbuf).1.pbuf = s.pbuf := by
  obtain ⟨evs, h1, h2, h3, _⟩ := gz.sync_flush_loop_log n
    { s with log := s.log ++ [Event.drain Flush.Z_SYNC_FLUSH s.pbuf] } s.pbuf
  refine ⟨evs, ?_, ?_, h3⟩
  · rw [h1]
    simp
  · intro e he fl bs hc
    obtain ⟨c, r, h⟩ := h2 e he
    rw [h] at hc
    cases hc

theorem drained_drain_segment (lg evs tail : List Event) (fl : Flush) (pb : List Nat)
    (h2 : ∀ e ∈ evs, ∀ fl bs, e ≠ Event.drain fl bs)
    (t2 : ∀ e ∈ tail, ∀ fl bs, e ≠ Event.drain fl bs) :
    drained ((lg ++ Event.drain fl pb :: evs) ++ tail) = drained lg ++ pb := by
  rw [drained_append, drained_append]
  simp only [drained]
  rw [drained_no_drain evs h2, drained_no_drain tail t2]
  simp

theorem gz.overflow_bytes {D : Deflater} (s : gz.obuf D) (c : Nat)
    (hok : (gz.overflow s c).1.isSome = true) :
    (s.pbuf.length < default_block_size →
      (gz.overflow s c).2.log = s.log ∧ (gz.overflow s c).2.pbuf = s.pbuf ++ [c % 256]) ∧
    (¬ s.pbuf.length < default_block_size →
      drained (gz.overflow s c).2.log = drained s.log ++ s.pbuf ∧
      (gz.overflow s c).2.pbuf = [c % 256]) := by
  obtain ⟨z, r, cb, pb, fp, lg⟩ := s
  cases fp with
  | none => simp [gz.overflow] at hok
  | some f =>
    simp only [gz.overflow] at hok ⊢
    split
    · rename_i hlt
      exact ⟨fun _ => ⟨rfl, rfl⟩, fun h => absurd hlt h⟩
    · rename_i hfull
      rw [if_neg hfull] at hok
      refine ⟨fun h => absurd h hfull, fun _ => ?_⟩
      obtain ⟨evs, h1, h2, h3⟩ := gz.drain_log_plain
        ({ zstrm_ := z, zlib_res_ := r, cbuf := cb, pbuf := pb, fp_ := some f, log := lg } :
          gz.obuf D) (D.rank z pb.length Flush.Z_SYNC_FLUSH + 1)
      simp only at h1 h3
      split
      · rename_i hfail
        rw [if_pos hfail] at hok
        simp at hok
      · obtain ⟨tail, t1, t2, _⟩ := gz.reset_if_stream_end_log
          (gz.deflate_loop (D.rank z pb.length Flush.Z_SYNC_FLUSH + 1)
            ({ zstrm_ := z, zlib_res_ := r, cbuf := cb, pbuf := pb, fp_ := some f,
               log := lg ++ [Event.drain Flush.Z_SYNC_FLUSH pb] } : gz.obuf D) pb).1
        refine ⟨?_, rfl⟩
        simp only
        rw [t1, h1]
        exact drained_drain_segment lg evs tail _ pb h2 t2

theorem gz.sync_bytes {D : Deflater} (s : gz.obuf D) (hok : (gz.sync s).1 = 0) :
    drained (gz.sync s).2.log = drained s.log ++ s.pbuf ∧ (gz.sync s).2.pbuf = [] := by
  obtain ⟨z, r, cb, pb, fp, lg⟩ := s
  cases fp with
  | none => simp [gz.sync] at hok
  | some f =>
    simp only [gz.sync] at hok ⊢
    split
    · rename_i hpos
      rw [if_pos hpos] at hok
      obtain ⟨evs, h1, h2, h3⟩ := gz.drain_log_plain
        ({ zstrm_ := z, zlib_res_ := r, cbuf := cb, pbuf := pb, fp_ := some f, log := lg } :
          gz.obuf D) (D.rank z pb.length Flush.Z_SYNC_FLUSH + 1)
      simp only at h1 h3
      split
      · rename_i hfail
        rw [if_pos hfail] at hok
        simp at hok
      · rename_i hfail
        rw [if_neg hfail] at hok
        split
        · rename_i hres
          rw [if_pos hres] at hok
          simp at hok
        · refine ⟨?_, rfl⟩
          simp only
          rw [h1]
          have := drained_drain_segment lg evs [] Flush.Z_SYNC_FLUSH pb h2
            (fun e he => by cases he)
          simpa using this
    · rename_i hpos
      have : pb = [] := by
        cases pb with
        | nil => rfl
        | cons a as => simp at hpos
      subst this
      simp
theorem bgz.indexed_overflow_bytes {D : Deflater} (s : bgz.obuf D) (c : Nat)
    (hok : (bgz.overflow s c).1.isSome = true) :
    (s.pbuf.length < default_block_size →
      (bgz.overflow s c).2.log = s.log ∧ (bgz.overflow s c).2.pbuf = s.pbuf ++ [c % 256]) ∧
    (¬ s.pbuf.length < default_block_size →
      drained (bgz.overflow s c).2.log = drained s.log ++ s.pbuf ∧
      (bgz.overflow s c).2.pbuf = [c % 256]) := by
  obtain ⟨z, r, cb, pb, fp, lg⟩ := s
  cases fp with
  | none => simp [bgz.overflow] at hok
  | some f =>
    simp only [bgz.overflow] at hok ⊢
    split
    · rename_i hlt
      exact ⟨fun _ => ⟨rfl, rfl⟩, fun h => absurd hlt h⟩
    · rename_i hfull
      rw [if_neg hfull] at hok
      refine ⟨fun h => absurd h hfull, fun _ => ?_⟩
      obtain ⟨evs, h1, h2, h3⟩ := bgz.drain_log
        ({ zstrm_ := z, zlib_res_ := r, cbuf := cb, pbuf := pb, fp_ := some f, log := lg } :
          bgz.obuf D) (D.rank z pb.length Flush.Z_FINISH + 1)
      simp only at h1 h3
      split
      · rename_i hfail
        rw [if_pos hfail] at hok
        simp at hok
      · obtain ⟨tail, t1, t2, _⟩ := gz.reset_if_stream_end_log
          (bgz.deflate_loop (D.rank z pb.length Flush.Z_FINISH + 1)
            ({ zstrm_ := z, zlib_res_ := r, cbuf := cb, pbuf := pb, fp_ := some f,
               log := lg ++ [Event.drain Flush.Z_FINISH pb] } : bgz.obuf D) pb).1
        refine ⟨?_, rfl⟩
        simp only
        rw [t1, h1]
        exact drained_drain_segment lg evs tail _ pb h2 t2

theorem bgz.indexed_sync_bytes {D : Deflater} (s : bgz.obuf D) (hok : (bgz.sync s).1 = 0) :
    drained (bgz.sync s).2.log = drained s.log ++ s.pbuf ∧ (bgz.sync s).2.pbuf = [] := by
  obtain ⟨z, r, cb, pb, fp, lg⟩ := s
  cases fp with
  | none => simp [bgz.sync] at hok
  | some f =>
    simp only [bgz.sync] at hok ⊢
    split
    · rename_i hpos
      rw [if_pos hpos] at hok
      obtain ⟨evs, h1, h2, h3⟩ := bgz.drain_log
        ({ zstrm_ := z, zlib_res_ := r, cbuf := cb, pbuf := pb, fp_ := some f, log := lg } :
          bgz.obuf D) (D.rank z pb.length Flush.Z_FINISH + 1)
      simp only at h1 h3
      obtain ⟨tail, t1, t2, _⟩ := gz.reset_if_stream_end_log
        (bgz.deflate_loop (D.rank z pb.length Flush.Z_FINISH + 1)
          ({ zstrm_ := z, zlib_res_ := r, cbuf := cb, pbuf := pb, fp_ := some f,
             log := lg ++ [Event.drain Flush.Z_FINISH pb] } : bgz.obuf D) pb).1
      split
      · rename_i hfail
        rw [if_pos hfail] at hok
        simp at hok
      · rename_i hfail
        rw [if_neg hfail] at hok
        split
        · rename_i hres
          rw [if_pos hres] at hok
          simp at hok
        · refine ⟨?_, rfl⟩
          simp only
          rw [t1, h1]
          exact drained_drain_segment lg evs tail _ pb h2 t2
    · rename_i hpos
      have : pb = [] := by
        cases pb with
        | nil => rfl
        | cons a as => simp at hpos
      subst this
      simp

theorem gz.sputc_bytes {D : Deflater} (s : gz.obuf D) (c : Nat)
    (hok : (gz.sputc s c).1.isSome = true) :
    drained (gz.sputc s c).2.log ++ (gz.sputc s c).2.pbuf
      = drained s.log ++ s.pbuf ++ [c % 256] := by
  unfold gz.sputc at hok ⊢
  cases hfp : s.fp_ with
  | none =>
    rw [hfp] at hok
    simp only at hok
    have := gz.overflow_bytes s c hok
    by_cases hlt : s.pbuf.length < default_block_size
    · rw [(this.1 hlt).1, (this.1 hlt).2, List.append_assoc]
    · rw [(this.2 hlt).1, (this.2 hlt).2]
  | some f =>
    rw [hfp] at hok
    simp only at hok ⊢
    by_cases hlt : s.pbuf.length < default_block_size
    · rw [if_pos hlt]
      simp
    · rw [if_neg hlt] at hok ⊢
      have := gz.overflow_bytes s c hok
      rw [(this.2 hlt).1, (this.2 hlt).2]

theorem bgz.indexed_sputc_bytes {D : Deflater} (s : bgz.obuf D) (c : Nat)
    (hok : (bgz.sputc s c).1.isSome = true) :
    drained (bgz.sputc s c).2.log ++ (bgz.sputc s c).2.pbuf
      = drained s.log ++ s.pbuf ++ [c % 256] := by
  unfold bgz.sputc at hok ⊢
  cases hfp : s.fp_ with
  | none =>
    rw [hfp] at hok
    simp only at hok
    have := bgz.indexed_overflow_bytes s c hok
    by_cases hlt : s.pbuf.length < default_block_size
    · rw [(this.1 hlt).1, (this.1 hlt).2, List.append_assoc]
    · rw [(this.2 hlt).1, (this.2 hlt).2]
  | some f =>
    rw [hfp] at hok
    simp only at hok ⊢
    by_cases hlt : s.pbuf.length < default_block_size
    · rw [if_pos hlt]
      simp
    · rw [if_neg hlt] at hok ⊢
      have := bgz.indexed_overflow_bytes s c hok
      rw [(this.2 hlt).1, (this.2 hlt).2]

theorem gz.run_bytes {D : Deflater} (ops : List WriterOp) : ∀ s : gz.obuf D,
    gz.run_ok s ops = true →
    drained (gz.run s ops).log ++ (gz.run s ops).pbuf
      = drained s.log ++ s.pbuf ++ inserted ops := by
  induction ops with
  | nil =>
    intro s _
    simp [gz.run, inserted]
  | cons op ops ih =>
    intro s hok
    simp only [gz.run_ok, Bool.and_eq_true] at hok
    show drained (gz.run (gz.step s op) ops).log ++ (gz.run (gz.step s op) ops).pbuf = _
    rw [ih _ hok.2]
    cases op with
    | put c =>
      have := gz.sputc_bytes s c hok.1
      simp only [gz.step, inserted]
      rw [this]
      simp
    | flush =>
      have h0 : (gz.sync s).1 = 0 := by simpa [gz.step_ok] using hok.1
      have := gz.sync_bytes s h0
      simp only [gz.step, inserted]
      rw [this.1, this.2]
      simp

theorem bgz.indexed_run_bytes {D : Deflater} (ops : List WriterOp) : ∀ s : bgz.obuf D,
    bgz.run_ok s ops = true →
    drained (bgz.run s ops).log ++ (bgz.run s ops).pbuf
      = drained s.log ++ s.pbuf ++ inserted ops := by
  induction ops with
  | nil =>
    intro s _
    simp [bgz.run, inserted]
  | cons op ops ih =>
    intro s hok
    simp only [bgz.run_ok, Bool.and_eq_true] at hok
    show drained (bgz.run (bgz.step s op) ops).log ++ (bgz.run (bgz.step s op) ops).pbuf = _
    rw [ih _ hok.2]
    cases op with
    | put c =>
      have := bgz.indexed_sputc_bytes s c hok.1
      simp only [bgz.step, inserted]
      rw [this]
      simp
    | flush =>
      have h0 : (bgz.sync s).1 = 0 := by simpa [bgz.step_ok] using hok.1
      have := bgz.indexed_sync_bytes s h0
      simp only [bgz.step, inserted]
      rw [this.1, this.2]
      simp
theorem gz.overflow_fits {D : Deflater} (s : gz.obuf D) (c : Nat)
    (hp : s.pbuf.length ≤ default_block_size) :
    (gz.overflow s c).2.pbuf.length ≤ default_block_size := by
  obtain ⟨z, r, cb, pb, fp, lg⟩ := s
  simp only at hp
  cases fp with
  | none => exact hp
  | some f =>
    simp only [gz.overflow]
    split
    · simp only [List.length_append, List.length_singleton]
      omega
    · obtain ⟨evs, _, _, h3⟩ := gz.drain_log_plain
        ({ zstrm_ := z, zlib_res_ := r, cbuf := cb, pbuf := pb, fp_ := some f, log := lg } :
          gz.obuf D) (D.rank z pb.length Flush.Z_SYNC_FLUSH + 1)
      simp only at h3
      split
      · simp only
        rw [h3]
        exact hp
      · simp only [List.length_singleton]
        decide

theorem gz.sync_fits {D : Deflater} (s : gz.obuf D)
    (hp : s.pbuf.length ≤ default_block_size) :
    (gz.sync s).2.pbuf.length ≤ default_block_size := by
  obtain ⟨z, r, cb, pb, fp, lg⟩ := s
  simp only at hp
  cases fp with
  | none => exact hp
  | some f =>
    simp only [gz.sync]
    split
    · obtain ⟨evs, _, _, h3⟩ := gz.drain_log_plain
        ({ zstrm_ := z, zlib_res_ := r, cbuf := cb, pbuf := pb, fp_ := some f, log := lg } :
          gz.obuf D) (D.rank z pb.length Flush.Z_SYNC_FLUSH + 1)
      simp only at h3
      split
      · simp only
        rw [h3]
        exact hp
      · split
        · simp only
          rw [h3]
          exact hp
        · simp
    · exact hp

theorem gz.run_fits {D : Deflater} (ops : List WriterOp) : ∀ s : gz.obuf D,
    s.pbuf.length ≤ default_block_size → (gz.run s ops).pbuf.length ≤ default_block_size := by
  induction ops with
  | nil => intro s hp; exact hp
  | cons op ops ih =>
    intro s hp
    show (gz.run (gz.step s op) ops).pbuf.length ≤ default_block_size
    apply ih
    cases op with
    | flush => exact gz.sync_fits s hp
    | put c =>
      simp only [gz.step, gz.sputc]
      cases hfp : s.fp_ with
      | none => exact gz.overflow_fits s c hp
      | some f =>
        simp only
        split
        · simp only [List.length_append, List.length_singleton]
          omega
        · exact gz.overflow_fits s c hp

theorem taken_append (l1 l2 : List Event) : taken (l1 ++ l2) = taken l1 + taken l2 := by
  induction l1 with
  | nil => simp [taken]
  | cons e es ih =>
    cases e <;> simp [taken, ih]
    omega

theorem gz.deflate_loop_taken {D : Deflater} (n : Nat) : ∀ (s : gz.obuf D) (inp : List Nat),
    taken (gz.deflate_loop n s inp).1.log + (gz.deflate_loop n s inp).2.1.length
      = taken s.log + inp.length := by
  induction n with
  | zero => intro s inp; rfl
  | succ n ih =>
    intro s inp
    unfold gz.deflate_loop
    split
    · cases hfp : s.fp_ with
      | none => rfl
      | some f =>
        simp only
        have hc := D.consumed_le s.zstrm_ inp (default_block_size - s.cbuf.length)
          Flush.Z_SYNC_FLUSH
        generalize D.deflate s.zstrm_ inp (default_block_size - s.cbuf.length)
          Flush.Z_SYNC_FLUSH = r at hc
        split
        · simp only [taken_append, taken, List.length_drop]
          omega
        · rw [ih]
          simp only [taken_append, taken, List.length_drop]
          omega
    · rfl

theorem bgz.finish_loop_taken {D : Deflater} (n : Nat) : ∀ (s : bgz.obuf D) (inp : List Nat),
    taken (bgz.deflate_loop n s inp).1.log + (bgz.deflate_loop n s inp).2.1.length
      = taken s.log + inp.length := by
  induction n with
  | zero => intro s inp; rfl
  | succ n ih =>
    intro s inp
    unfold bgz.deflate_loop
    split
    · cases hfp : s.fp_ with
      | none => rfl
      | some f =>
        simp only
        have hc := D.consumed_le s.zstrm_ inp (default_block_size - s.cbuf.length)
          Flush.Z_FINISH
        generalize D.deflate s.zstrm_ inp (default_block_size - s.cbuf.length)
          Flush.Z_FINISH = r at hc
        split
        · simp only [taken_append, taken, List.length_drop]
          omega
        · rw [ih]
          simp only [taken_append, taken, List.length_drop]
          omega
    · rfl

theorem bgz.finish_loop_nil {D : Deflater} (n : Nat) : ∀ (s : bgz.obuf D),
    (bgz.deflate_loop n s []).2.1 = [] := by
  induction n with
  | zero => intro s; rfl
  | succ n ih =>
    intro s
    unfold bgz.deflate_loop
    split
    · cases hfp : s.fp_ with
      | none => rfl
      | some f =>
        simp only
        split
        · simp
        · simp only [List.drop_nil]
          exact ih _
    · rfl

theorem gz.deflate_loop_exit {D : Deflater}
    (hend : ∀ st inp out fl, (D.deflate st inp out fl).ret = Z_STREAM_END →
      (D.deflate st inp out fl).consumed = inp.length)
    (n : Nat) : ∀ (s : gz.obuf D) (inp : List Nat), s.fp_.isSome = true →
    (s.zlib_res_ = Z_OK → D.rank s.zstrm_ inp.length Flush.Z_SYNC_FLUSH < n) →
    s.zlib_res_ ≠ Z_STREAM_END →
    (gz.deflate_loop n s inp).1.zlib_res_ = Z_OK ∨
      (gz.deflate_loop n s inp).1.zlib_res_ = Z_STREAM_END →
    (gz.deflate_loop n s inp).2.2 = true →
    (gz.deflate_loop n s inp).2.1 = [] := by
  induction n with
  | zero =>
    intro s inp _ hr hne hres _
    have h1 : (gz.deflate_loop 0 s inp).1.zlib_res_ = s.zlib_res_ := rfl
    rw [h1] at hres
    rcases hres with h | h
    · exact absurd (hr h) (by omega)
    · exact absurd h hne
  | succ n ih =>
    intro s inp hsome hr hne
    unfold gz.deflate_loop
    split
    · rename_i hcond
      cases hfp : s.fp_ with
      | none =>
        rw [hfp] at hsome
        cases hsome
      | some f =>
        simp only
        have hrk := D.rank_lt s.zstrm_ inp (default_block_size - s.cbuf.length)
          Flush.Z_SYNC_FLUSH
        have he := hend s.zstrm_ inp (default_block_size - s.cbuf.length) Flush.Z_SYNC_FLUSH
        generalize D.deflate s.zstrm_ inp (default_block_size - s.cbuf.length)
          Flush.Z_SYNC_FLUSH = r at hrk he
        split
        · intro _ hflag
          simp at hflag
        · intro hres hflag
          by_cases hre : r.ret = Z_STREAM_END
          · have hnil : inp.drop r.consumed = [] := by
              rw [he hre]
              exact List.drop_length inp
            rw [hnil, gz.deflate_loop_nil]
          · refine ih _ _ rfl ?_ hre hres hflag
            intro hok
            have := hrk hok
            have hr2 := hr hcond.1
            simp only [List.length_drop]
            omega
    · rename_i hcond
      intro hres _
      simp only at hres ⊢
      rcases hres with h | h
      · have : ¬ 0 < inp.length := fun hp => hcond ⟨h, hp⟩
        exact List.length_eq_zero.mp (by omega)
      · exact absurd h hne

theorem bgz.finish_loop_exit {D : Deflater}
    (hend : ∀ st inp out fl, (D.deflate st inp out fl).ret = Z_STREAM_END →
      (D.deflate st inp out fl).consumed = inp.length)
    (n : Nat) : ∀ (s : bgz.obuf D) (inp : List Nat), s.fp_.isSome = true →
    s.zlib_res_ ≠ Z_STREAM_END →
    (bgz.deflate_loop n s inp).1.zlib_res_ = Z_STREAM_END →
    (bgz.deflate_loop n s inp).2.1 = [] := by
  induction n with
  | zero =>
    intro s inp _ hne hres
    exact absurd hres hne
  | succ n ih =>
    intro s inp hsome hne
    unfold bgz.deflate_loop
    split
    · cases hfp : s.fp_ with
      | none =>
        rw [hfp] at hsome
        cases hsome
      | some f =>
        simp only
        have he := hend s.zstrm_ inp (default_block_size - s.cbuf.length) Flush.Z_FINISH
        generalize D.deflate s.zstrm_ inp (default_block_size - s.cbuf.length)
          Flush.Z_FINISH = r at he
        by_cases hre : r.ret = Z_STREAM_END
        · have hnil : inp.drop r.consumed = [] := by
            rw [he hre]
            exact List.drop_length inp
          split
          · intro _
            exact hnil
          · intro _
            rw [hnil]
            exact bgz.finish_loop_nil n _
        · split
          · intro hres
            exact absurd hres hre
          · intro hres
            exact ih _ _ rfl hre hres
    · intro hres
      exact absurd hres hne
theorem bgz.deflate_loop_not_ok {D : Deflater} (n : Nat) : ∀ (s : bgz.obuf D) (inp : List Nat),
    s.fp_.isSome = true →
    (s.zlib_res_ = Z_OK → D.rank s.zstrm_ inp.length Flush.Z_FINISH < n) →
    (bgz.deflate_loop n s inp).2.2 = true →
    (bgz.deflate_loop n s inp).1.zlib_res_ ≠ Z_OK := by
  induction n with
  | zero =>
    intro s inp _ hr _ hres
    exact absurd (hr hres) (by omega)
  | succ n ih =>
    intro s inp hsome hr
    unfold bgz.deflate_loop
    split
    · rename_i hcond
      cases hfp : s.fp_ with
      | none =>
        rw [hfp] at hsome
        cases hsome
      | some f =>
        simp only
        have hrk := D.rank_lt s.zstrm_ inp (default_block_size - s.cbuf.length) Flush.Z_FINISH
        generalize D.deflate s.zstrm_ inp (default_block_size - s.cbuf.length)
          Flush.Z_FINISH = r at hrk
        split
        · intro hflag
          simp at hflag
        · intro hflag
          refine ih _ _ rfl ?_ hflag
          intro hok
          have := hrk hok
          have hr2 := hr hcond
          simp only [List.length_drop]
          omega
    · rename_i hcond
      intro _
      exact hcond

theorem gz.reset_if_stream_end_taken {D : Deflater} (t : gz.obuf D) :
    taken (gz.reset_if_stream_end t).log = taken t.log ∧
    (t.zlib_res_ ≠ Z_STREAM_END → gz.reset_if_stream_end t = t) := by
  unfold gz.reset_if_stream_end
  split
  · rename_i h
    refine ⟨?_, fun hn => absurd h hn⟩
    simp [taken_append, taken]
  · exact ⟨rfl, fun _ => rfl⟩

theorem gz.overflow_taken {D : Deflater}
    (hend : ∀ st inp out fl, (D.deflate st inp out fl).ret = Z_STREAM_END →
      (D.deflate st inp out fl).consumed = inp.length)
    (s : gz.obuf D) (c : Nat) (hne : s.zlib_res_ ≠ Z_STREAM_END)
    (hok : (gz.overflow s c).1.isSome = true) :
    taken (gz.overflow s c).2.log
        = taken s.log + (if s.pbuf.length < default_block_size then 0 else s.pbuf.length) ∧
    (gz.overflow s c).2.zlib_res_ ≠ Z_STREAM_END := by
  obtain ⟨z, r, cb, pb, fp, lg⟩ := s
  simp only at hne
  cases fp with
  | none => simp [gz.overflow] at hok
  | some f =>
    simp only [gz.overflow] at hok ⊢
    by_cases hlt : pb.length < default_block_size
    · simp only [if_pos hlt]
      exact ⟨rfl, hne⟩
    · simp only [if_neg hlt] at hok ⊢
      have hcons := gz.deflate_loop_taken (D.rank z pb.length Flush.Z_SYNC_FLUSH + 1)
        ({ zstrm_ := z, zlib_res_ := r, cbuf := cb, pbuf := pb, fp_ := some f,
           log := lg ++ [Event.drain Flush.Z_SYNC_FLUSH pb] } : gz.obuf D) pb
      have hexit := gz.deflate_loop_exit hend (D.rank z pb.length Flush.Z_SYNC_FLUSH + 1)
        ({ zstrm_ := z, zlib_res_ := r, cbuf := cb, pbuf := pb, fp_ := some f,
           log := lg ++ [Event.drain Flush.Z_SYNC_FLUSH pb] } : gz.obuf D) pb rfl
        (fun _ => Nat.lt_succ_self _) hne
      have hrs := gz.reset_if_stream_end_taken
        (gz.deflate_loop (D.rank z pb.length Flush.Z_SYNC_FLUSH + 1)
          ({ zstrm_ := z, zlib_res_ := r, cbuf := cb, pbuf := pb, fp_ := some f,
             log := lg ++ [Event.drain Flush.Z_SYNC_FLUSH pb] } : gz.obuf D) pb).1
      generalize gz.deflate_loop (D.rank z pb.length Flush.Z_SYNC_FLUSH + 1)
          ({ zstrm_ := z, zlib_res_ := r, cbuf := cb, pbuf := pb, fp_ := some f,
             log := lg ++ [Event.drain Flush.Z_SYNC_FLUSH pb] } : gz.obuf D) pb = L
        at hok hcons hexit hrs ⊢
      by_cases hflag : L.2.2 = false
      · rw [if_pos hflag] at hok
        simp at hok
      · rw [if_neg hflag] at hok ⊢
        have hflag2 : L.2.2 = true := by simpa using hflag
        simp only at hok ⊢
        have hres : (gz.reset_if_stream_end L.1).zlib_res_ = Z_OK := by
          by_contra hcon
          rw [if_neg hcon] at hok
          simp at hok
        have hL : L.1.zlib_res_ = Z_OK ∨ L.1.zlib_res_ = Z_STREAM_END := by
          by_cases he : L.1.zlib_res_ = Z_STREAM_END
          · exact Or.inr he
          · left
            rw [hrs.2 he] at hres
            exact hres
        have hnil := hexit hL hflag2
        rw [hnil] at hcons
        refine ⟨?_, ?_⟩
        · rw [hrs.1]
          simp only [taken_append, taken, List.length_nil] at hcons
          omega
        · rw [hres]
          decide
theorem gz.sync_taken {D : Deflater}
    (hend : ∀ st inp out fl, (D.deflate st inp out fl).ret = Z_STREAM_END →
      (D.deflate st inp out fl).consumed = inp.length)
    (s : gz.obuf D) (hne : s.zlib_res_ ≠ Z_STREAM_END) (hok : (gz.sync s).1 = 0) :
    taken (gz.sync s).2.log = taken s.log + s.pbuf.length ∧
    (gz.sync s).2.zlib_res_ ≠ Z_STREAM_END := by
  obtain ⟨z, r, cb, pb, fp, lg⟩ := s
  simp only at hne
  cases fp with
  | none => simp [gz.sync] at hok
  | some f =>
    simp only [gz.sync] at hok ⊢
    by_cases hpos : 0 < pb.length
    · simp only [if_pos hpos] at hok ⊢
      have hcons := gz.deflate_loop_taken (D.rank z pb.length Flush.Z_SYNC_FLUSH + 1)
        ({ zstrm_ := z, zlib_res_ := r, cbuf := cb, pbuf := pb, fp_ := some f,
           log := lg ++ [Event.drain Flush.Z_SYNC_FLUSH pb] } : gz.obuf D) pb
      have hexit := gz.deflate_loop_exit hend (D.rank z pb.length Flush.Z_SYNC_FLUSH + 1)
        ({ zstrm_ := z, zlib_res_ := r, cbuf := cb, pbuf := pb, fp_ := some f,
           log := lg ++ [Event.drain Flush.Z_SYNC_FLUSH pb] } : gz.obuf D) pb rfl
        (fun _ => Nat.lt_succ_self _) hne
      generalize gz.deflate_loop (D.rank z pb.length Flush.Z_SYNC_FLUSH + 1)
          ({ zstrm_ := z, zlib_res_ := r, cbuf := cb, pbuf := pb, fp_ := some f,
             log := lg ++ [Event.drain Flush.Z_SYNC_FLUSH pb] } : gz.obuf D) pb = L
        at hok hcons hexit ⊢
      by_cases hflag : L.2.2 = false
      · rw [if_pos hflag] at hok
        simp at hok
      · rw [if_neg hflag] at hok ⊢
        have hflag2 : L.2.2 = true := by simpa using hflag
        by_cases hres : L.1.zlib_res_ ≠ Z_OK
        · rw [if_pos hres] at hok
          simp at hok
        · rw [if_neg hres]
          have hres2 : L.1.zlib_res_ = Z_OK := by
            by_contra hcon
            exact hres hcon
          have hnil := hexit (Or.inl hres2) hflag2
          rw [hnil] at hcons
          refine ⟨?_, ?_⟩
          · simp only [taken_append, taken, List.length_nil] at hcons ⊢
            omega
          · show L.1.zlib_res_ ≠ Z_STREAM_END
            rw [hres2]
            decide
    · simp only [if_neg hpos]
      exact ⟨by omega, hne⟩

theorem bgz.indexed_overflow_taken {D : Deflater}
    (hend : ∀ st inp out fl, (D.deflate st inp out fl).ret = Z_STREAM_END →
      (D.deflate st inp out fl).consumed = inp.length)
    (s : bgz.obuf D) (c : Nat) (hne : s.zlib_res_ ≠ Z_STREAM_END)
    (hok : (bgz.overflow s c).1.isSome = true) :
    taken (bgz.overflow s c).2.log
        = taken s.log + (if s.pbuf.length < default_block_size then 0 else s.pbuf.length) ∧
    (bgz.overflow s c).2.zlib_res_ ≠ Z_STREAM_END := by
  obtain ⟨z, r, cb, pb, fp, lg⟩ := s
  simp only at hne
  cases fp with
  | none => simp [bgz.overflow] at hok
  | some f =>
    simp only [bgz.overflow] at hok ⊢
    by_cases hlt : pb.length < default_block_size
    · simp only [if_pos hlt]
      exact ⟨rfl, hne⟩
    · simp only [if_neg hlt] at hok ⊢
      have hcons := bgz.finish_loop_taken (D.rank z pb.length Flush.Z_FINISH + 1)
        ({ zstrm_ := z, zlib_res_ := r, cbuf := cb, pbuf := pb, fp_ := some f,
           log := lg ++ [Event.drain Flush.Z_FINISH pb] } : bgz.obuf D) pb
      have hexit := bgz.finish_loop_exit hend (D.rank z pb.length Flush.Z_FINISH + 1)
        ({ zstrm_ := z, zlib_res_ := r, cbuf := cb, pbuf := pb, fp_ := some f,
           log := lg ++ [Event.drain Flush.Z_FINISH pb] } : bgz.obuf D) pb rfl hne
      have hnok := bgz.deflate_loop_not_ok (D.rank z pb.length Flush.Z_FINISH + 1)
        ({ zstrm_ := z, zlib_res_ := r, cbuf := cb, pbuf := pb, fp_ := some f,
           log := lg ++ [Event.drain Flush.Z_FINISH pb] } : bgz.obuf D) pb rfl
        (fun _ => Nat.lt_succ_self _)
      have hrs := gz.reset_if_stream_end_taken
        (bgz.deflate_loop (D.rank z pb.length Flush.Z_FINISH + 1)
          ({ zstrm_ := z, zlib_res_ := r, cbuf := cb, pbuf := pb, fp_ := some f,
             log := lg ++ [Event.drain Flush.Z_FINISH pb] } : bgz.obuf D) pb).1
      generalize bgz.deflate_loop (D.rank z pb.length Flush.Z_FINISH + 1)
          ({ zstrm_ := z, zlib_res_ := r, cbuf := cb, pbuf := pb, fp_ := some f,
             log := lg ++ [Event.drain Flush.Z_FINISH pb] } : bgz.obuf D) pb = L
        at hok hcons hexit hnok hrs ⊢
      by_cases hflag : L.2.2 = false
      · rw [if_pos hflag] at hok
        simp at hok
      · rw [if_neg hflag] at hok ⊢
        have hflag2 : L.2.2 = true := by simpa using hflag
        simp only at hok ⊢
        have hres : (gz.reset_if_stream_end L.1).zlib_res_ = Z_OK := by
          by_contra hcon
          rw [if_neg hcon] at hok
          simp at hok
        have hL : L.1.zlib_res_ = Z_STREAM_END := by
          by_contra he
          rw [hrs.2 he] at hres
          exact hnok hflag2 hres
        have hnil := hexit hL
        rw [hnil] at hcons
        refine ⟨?_, ?_⟩
        · rw [hrs.1]
          simp only [taken_append, taken, List.length_nil] at hcons
          omega
        · rw [hres]
          decide

theorem bgz.indexed_sync_taken {D : Deflater}
    (hend : ∀ st inp out fl, (D.deflate st inp out fl).ret = Z_STREAM_END →
      (D.deflate st inp out fl).consumed = inp.length)
    (s : bgz.obuf D) (hne : s.zlib_res_ ≠ Z_STREAM_END) (hok : (bgz.sync s).1 = 0) :
    taken (bgz.sync s).2.log = taken s.log + s.pbuf.length ∧
    (bgz.sync s).2.zlib_res_ ≠ Z_STREAM_END := by
  obtain ⟨z, r, cb, pb, fp, lg⟩ := s
  simp only at hne
  cases fp with
  | none => simp [bgz.sync] at hok
  | some f =>
    simp only [bgz.sync] at hok ⊢
    by_cases hpos : 0 < pb.length
    · simp only [if_pos hpos] at hok ⊢
      have hcons := bgz.finish_loop_taken (D.rank z pb.length Flush.Z_FINISH + 1)
        ({ zstrm_ := z, zlib_res_ := r, cbuf := cb, pbuf := pb, fp_ := some f,
           log := lg ++ [Event.drain Flush.Z_FINISH pb] } : bgz.obuf D) pb
      have hexit := bgz.finish_loop_exit hend (D.rank z pb.length Flush.Z_FINISH + 1)
        ({ zstrm_ := z, zlib_res_ := r, cbuf := cb, pbuf := pb, fp_ := some f,
           log := lg ++ [Event.drain Flush.Z_FINISH pb] } : bgz.obuf D) pb rfl hne
      have hnok := bgz.deflate_loop_not_ok (D.rank z pb.length Flush.Z_FINISH + 1)
        ({ zstrm_ := z, zlib_res_ := r, cbuf := cb, pbuf := pb, fp_ := some f,
           log := lg ++ [Event.drain Flush.Z_FINISH pb] } : bgz.obuf D) pb rfl
        (fun _ => Nat.lt_succ_self _)
      have hrs := gz.reset_if_stream_end_taken
        (bgz.deflate_loop (D.rank z pb.length Flush.Z_FINISH + 1)
          ({ zstrm_ := z, zlib_res_ := r, cbuf := cb, pbuf := pb, fp_ := some f,
             log := lg ++ [Event.drain Flush.Z_FINISH pb] } : bgz.obuf D) pb).1
      generalize bgz.deflate_loop (D.rank z pb.length Flush.Z_FINISH + 1)
          ({ zstrm_ := z, zlib_res_ := r, cbuf := cb, pbuf := pb, fp_ := some f,
             log := lg ++ [Event.drain Flush.Z_FINISH pb] } : bgz.obuf D) pb = L
        at hok hcons hexit hnok hrs ⊢
      by_cases hflag : L.2.2 = false
      · rw [if_pos hflag] at hok
        simp at hok
      · rw [if_neg hflag] at hok ⊢
        have hflag2 : L.2.2 = true := by simpa using hflag
        by_cases hres : (gz.reset_if_stream_end L.1).zlib_res_ ≠ Z_OK
        · rw [if_pos hres] at hok
          simp at hok
        · rw [if_neg hres]
          have hres2 : (gz.reset_if_stream_end L.1).zlib_res_ = Z_OK := by
            by_contra hcon
            exact hres hcon
          have hL : L.1.zlib_res_ = Z_STREAM_END := by
            by_contra he
            rw [hrs.2 he] at hres2
            exact hnok hflag2 hres2
          have hnil := hexit hL
          rw [hnil] at hcons
          refine ⟨?_, ?_⟩
          · show taken (gz.reset_if_stream_end L.1).log = _
            rw [hrs.1]
            simp only [taken_append, taken, List.length_nil] at hcons
            omega
          · show (gz.reset_if_stream_end L.1).zlib_res_ ≠ Z_STREAM_END
            rw [hres2]
            decide
    · simp only [if_neg hpos]
      exact ⟨by omega, hne⟩
theorem gz.step_taken {D : Deflater}
    (hend : ∀ st inp out fl, (D.deflate st inp out fl).ret = Z_STREAM_END →
      (D.deflate st inp out fl).consumed = inp.length)
    (s : gz.obuf D) (op : WriterOp) (hne : s.zlib_res_ ≠ Z_STREAM_END)
    (hinv : taken s.log = (drained s.log).length) (hok : gz.step_ok s op = true) :
    taken (gz.step s op).log = (drained (gz.step s op).log).length ∧
    (gz.step s op).zlib_res_ ≠ Z_STREAM_END := by
  cases op with
  | flush =>
    have h0 : (gz.sync s).1 = 0 := by simpa [gz.step_ok] using hok
    have h1 := gz.sync_taken hend s hne h0
    have h2 := gz.sync_bytes s h0
    simp only [gz.step]
    rw [h1.1, h2.1, List.length_append, hinv]
    exact ⟨rfl, h1.2⟩
  | put c =>
    simp only [gz.step_ok] at hok
    simp only [gz.step]
    by_cases hlt : s.pbuf.length < default_block_size
    · cases hfp : s.fp_ with
      | none =>
        have e : gz.sputc s c = gz.overflow s c := by
          unfold gz.sputc
          rw [hfp]
        rw [e] at hok
        simp [gz.overflow, hfp] at hok
      | some f =>
        have e : gz.sputc s c = (some (c % 256), { s with pbuf := s.pbuf ++ [c % 256] }) := by
          unfold gz.sputc
          rw [hfp]
          simp only
          rw [if_pos hlt]
        rw [e]
        exact ⟨hinv, hne⟩
    · have e : gz.sputc s c = gz.overflow s c := by
        unfold gz.sputc
        cases s.fp_ with
        | none => rfl
        | some f =>
          simp only
          rw [if_neg hlt]
      rw [e] at hok ⊢
      have h1 := gz.overflow_taken hend s c hne hok
      have h2 := (gz.overflow_bytes s c hok).2 hlt
      rw [if_neg hlt] at h1
      rw [h1.1, h2.1, List.length_append, hinv]
      exact ⟨rfl, h1.2⟩

theorem bgz.indexed_step_taken {D : Deflater}
    (hend : ∀ st inp out fl, (D.deflate st inp out fl).ret = Z_STREAM_END →
      (D.deflate st inp out fl).consumed = inp.length)
    (s : bgz.obuf D) (op : WriterOp) (hne : s.zlib_res_ ≠ Z_STREAM_END)
    (hinv : taken s.log = (drained s.log).length) (hok : bgz.step_ok s op = true) :
    taken (bgz.step s op).log = (drained (bgz.step s op).log).length ∧
    (bgz.step s op).zlib_res_ ≠ Z_STREAM_END := by
  cases op with
  | flush =>
    have h0 : (bgz.sync s).1 = 0 := by simpa [bgz.step_ok] using hok
    have h1 := bgz.indexed_sync_taken hend s hne h0
    have h2 := bgz.indexed_sync_bytes s h0
    simp only [bgz.step]
    rw [h1.1, h2.1, List.length_append, hinv]
    exact ⟨rfl, h1.2⟩
  | put c =>
    simp only [bgz.step_ok] at hok
    simp only [bgz.step]
    by_cases hlt : s.pbuf.length < default_block_size
    · cases hfp : s.fp_ with
      | none =>
        have e : bgz.sputc s c = bgz.overflow s c := by
          unfold bgz.sputc
          rw [hfp]
        rw [e] at hok
        simp [bgz.overflow, hfp] at hok
      | some f =>
        have e : bgz.sputc s c = (some (c % 256), { s with pbuf := s.pbuf ++ [c % 256] }) := by
          unfold bgz.sputc
          rw [hfp]
          simp only
          rw [if_pos hlt]
        rw [e]
        exact ⟨hinv, hne⟩
    · have e : bgz.sputc s c = bgz.overflow s c := by
        unfold bgz.sputc
        cases s.fp_ with
        | none => rfl
        | some f =>
          simp only
          rw [if_neg hlt]
      rw [e] at hok ⊢
      have h1 := bgz.indexed_overflow_taken hend s c hne hok
      have h2 := (bgz.indexed_overflow_bytes s c hok).2 hlt
      rw [if_neg hlt] at h1
      rw [h1.1, h2.1, List.length_append, hinv]
      exact ⟨rfl, h1.2⟩

theorem gz.run_taken {D : Deflater}
    (hend : ∀ st inp out fl, (D.deflate st inp out fl).ret = Z_STREAM_END →
      (D.deflate st inp out fl).consumed = inp.length)
    (ops : List WriterOp) : ∀ s : gz.obuf D, s.zlib_res_ ≠ Z_STREAM_END →
    taken s.log = (drained s.log).length → gz.run_ok s ops = true →
    taken (gz.run s ops).log = (drained (gz.run s ops).log).length := by
  induction ops with
  | nil => intro s _ hinv _; exact hinv
  | cons op ops ih =>
    intro s hne hinv hok
    simp only [gz.run_ok, Bool.and_eq_true] at hok
    have h := gz.step_taken hend s op hne hinv hok.1
    exact ih (gz.step s op) h.2 h.1 hok.2

theorem bgz.indexed_run_taken {D : Deflater}
    (hend : ∀ st inp out fl, (D.deflate st inp out fl).ret = Z_STREAM_END →
      (D.deflate st inp out fl).consumed = inp.length)
    (ops : List WriterOp) : ∀ s : bgz.obuf D, s.zlib_res_ ≠ Z_STREAM_END →
    taken s.log = (drained s.log).length → bgz.run_ok s ops = true →
    taken (bgz.run s ops).log = (drained (bgz.run s ops).log).length := by
  induction ops with
  | nil => intro s _ hinv _; exact hinv
  | cons op ops ih =>
    intro s hne hinv hok
    simp only [bgz.run_ok, Bool.and_eq_true] at hok
    have h := bgz.indexed_step_taken hend s op hne hinv hok.1
    exact ih (bgz.step s op) h.2 h.1 hok.2

theorem gz.pair_sync_loop (k : Nat) (pb : List Nat) (lg : List Event) (hpos : 0 < pb.length) :
    (gz.deflate_loop (k + 1)
      ({ zstrm_ := PairEnc.mk [] false false, zlib_res_ := Z_OK, cbuf := [], pbuf := pb,
         fp_ := some { data := [], room := none }, log := lg } : gz.obuf pair_deflater) pb).2.2
      = true ∧
    (gz.deflate_loop (k + 1)
      ({ zstrm_ := PairEnc.mk [] false false, zlib_res_ := Z_OK, cbuf := [], pbuf := pb,
         fp_ := some { data := [], room := none }, log := lg } : gz.obuf pair_deflater) pb).1.zlib_res_
      = Z_OK := by
  have hB : default_block_size ≠ 0 := by decide
  have hq : pair_owed (PairEnc.mk [] false false) pb Flush.Z_SYNC_FLUSH = pair_encode pb := by
    simp [pair_owed]
  have hqne : pair_encode pb ≠ [] := by
    intro hc
    have := congrArg List.length hc
    rw [pair_encode_length, List.length_nil] at this
    omega
  have hd : pair_deflater.deflate (PairEnc.mk [] false false) pb default_block_size
      Flush.Z_SYNC_FLUSH
      = { state := { queue := (pair_encode pb).drop default_block_size, started := true,
                     finished := false }
          consumed := pb.length
          produced := (pair_encode pb).take default_block_size
          ret := Z_OK } := by
    show pair_deflate (PairEnc.mk [] false false) pb default_block_size Flush.Z_SYNC_FLUSH = _
    unfold pair_deflate
    rw [if_neg hB, if_neg (by simp), hq]
    simp [hqne]
  have htake : (pair_encode pb).take default_block_size ≠ [] := by
    intro hc
    have := congrArg List.length hc
    rw [List.length_take, pair_encode_length, List.length_nil] at this
    have : 0 < default_block_size := by decide
    omega
  have hw : fwrite { data := [], room := none } ((pair_encode pb).take default_block_size)
      = (1, { data := [] ++ (pair_encode pb).take default_block_size, room := none }) := by
    unfold fwrite
    rw [if_neg (by intro hc; exact htake (List.length_eq_zero.mp hc))]
  have h10 : ¬ ((1 : Nat) = 0) := by decide
  have hlt : 0 < ((pair_encode pb).take default_block_size).length :=
    List.length_pos.mpr htake
  rw [gz.deflate_loop]
  simp only [if_true, hpos, and_self, Nat.sub_zero, List.length_nil, List.nil_append, hd, hw,
    h10, and_false, if_false, hlt, List.drop_length, gz.deflate_loop_nil]

theorem gz.pair_overflow_plain (pb : List Nat) (c : Nat) (hfull : pb.length = default_block_size) :
    (gz.overflow (pair_writer pb [] []) c).1 = some (c % 256) := by
  have hpos : 0 < pb.length := by rw [hfull]; decide
  have hnl : ¬ (pb.length < default_block_size) := by omega
  have hne : Z_OK ≠ Z_STREAM_END := by decide
  have hl := gz.pair_sync_loop
    (pair_deflater.rank (PairEnc.mk [] false false) pb.length Flush.Z_SYNC_FLUSH) pb
    ([] ++ [Event.drain Flush.Z_SYNC_FLUSH pb]) hpos
  simp only [gz.overflow, pair_writer, hnl, if_false, hl.1, gz.reset_if_stream_end, hl.2, hne,
    Bool.true_eq_false, if_true]

theorem bgz.indexed_overflow_fits {D : Deflater} (s : bgz.obuf D) (c : Nat)
    (hp : s.pbuf.length ≤ default_block_size) :
    (bgz.overflow s c).2.pbuf.length ≤ default_block_size := by
  obtain ⟨z, r, cb, pb, fp, lg⟩ := s
  simp only at hp
  cases fp with
  | none => exact hp
  | some f =>
    simp only [bgz.overflow]
    split
    · simp only [List.length_append, List.length_singleton]
      omega
    · obtain ⟨evs, _, _, h3⟩ := bgz.drain_log
        ({ zstrm_ := z, zlib_res_ := r, cbuf := cb, pbuf := pb, fp_ := some f, log := lg } :
          bgz.obuf D) (D.rank z pb.length Flush.Z_FINISH + 1)
      simp only at h3
      split
      · simp only
        rw [h3]
        exact hp
      · simp only [List.length_singleton]
        decide

theorem bgz.indexed_sync_fits {D : Deflater} (s : bgz.obuf D)
    (hp : s.pbuf.length ≤ default_block_size) :
    (bgz.sync s).2.pbuf.length ≤ default_block_size := by
  obtain ⟨z, r, cb, pb, fp, lg⟩ := s
  simp only at hp
  cases fp with
  | none => exact hp
  | some f =>
    simp only [bgz.sync]
    split
    · obtain ⟨evs, _, _, h3⟩ := bgz.drain_log
        ({ zstrm_ := z, zlib_res_ := r, cbuf := cb, pbuf := pb, fp_ := some f, log := lg } :
          bgz.obuf D) (D.rank z pb.length Flush.Z_FINISH + 1)
      simp only at h3
      obtain ⟨tail, _, _, t3⟩ := gz.reset_if_stream_end_log
        (bgz.deflate_loop (D.rank z pb.length Flush.Z_FINISH + 1)
          ({ zstrm_ := z, zlib_res_ := r, cbuf := cb, pbuf := pb, fp_ := some f,
             log := lg ++ [Event.drain Flush.Z_FINISH pb] } : bgz.obuf D) pb).1
      split
      · simp only
        rw [h3]
        exact hp
      · split
        · simp only
          rw [t3, h3]
          exact hp
        · simp
    · exact hp

theorem bgz.indexed_step_fits {D : Deflater} (s : bgz.obuf D) (op : WriterOp)
    (hp : s.pbuf.length ≤ default_block_size) :
    (bgz.step s op).pbuf.length ≤ default_block_size := by
  cases op with
  | flush => exact bgz.indexed_sync_fits s hp
  | put c =>
    simp only [bgz.step, bgz.sputc]
    cases hfp : s.fp_ with
    | none => exact bgz.indexed_overflow_fits s c hp
    | some f =>
      simp only
      split
      · simp only [List.length_append, List.length_singleton]
        omega
      · exact bgz.indexed_overflow_fits s c hp

theorem bgz.indexed_run_fits {D : Deflater} (ops : List WriterOp) : ∀ s : bgz.obuf D,
    s.pbuf.length ≤ default_block_size → (bgz.run s ops).pbuf.length ≤ default_block_size := by
  induction ops with
  | nil => intro s hp; exact hp
  | cons op ops ih =>
    intro s hp
    show (bgz.run (bgz.step s op) ops).pbuf.length ≤ default_block_size
    exact ih _ (bgz.indexed_step_fits s op hp)

/-- C14: on the gzip and the block-indexed writer, after any sequence of single-byte inserts
and explicit flushes that all reported success, the plaintext handed to the encoder followed
by the bytes pending in the accumulation buffer is the inserted byte sequence, in order, and
the accumulation buffer holds at most `default_block_size` bytes; a successful insert into a
full buffer hands over exactly that buffer and leaves exactly the inserted byte pending; a
successful explicit flush hands over the pending bytes and leaves nothing pending. With an
encoder that reports a stream end only when it has consumed all its input, the encoder has
then consumed every byte it was handed. -/
theorem write_path_preserves_bytes {D : Deflater} :
    (∀ (fp : Option OFILE) (res0 : Int) (ops : List WriterOp),
      gz.run_ok (gz.obuf.init D fp res0) ops = true →
      drained (gz.run (gz.obuf.init D fp res0) ops).log
          ++ (gz.run (gz.obuf.init D fp res0) ops).pbuf = inserted ops ∧
      (gz.run (gz.obuf.init D fp res0) ops).pbuf.length ≤ default_block_size) ∧
    (∀ (fp : Option OFILE) (res0 : Int) (ops : List WriterOp),
      bgz.run_ok (gz.obuf.init D fp res0) ops = true →
      drained (bgz.run (gz.obuf.init D fp res0) ops).log
          ++ (bgz.run (gz.obuf.init D fp res0) ops).pbuf = inserted ops ∧
      (bgz.run (gz.obuf.init D fp res0) ops).pbuf.length ≤ default_block_size) ∧
    (∀ (s : gz.obuf D) (c : Nat), s.pbuf.length = default_block_size →
      (gz.sputc s c).1.isSome = true →
      drained (gz.sputc s c).2.log = drained s.log ++ s.pbuf ∧
      (gz.sputc s c).2.pbuf = [c % 256]) ∧
    (∀ (s : bgz.obuf D) (c : Nat), s.pbuf.length = default_block_size →
      (bgz.sputc s c).1.isSome = true →
      drained (bgz.sputc s c).2.log = drained s.log ++ s.pbuf ∧
      (bgz.sputc s c).2.pbuf = [c % 256]) ∧
    (∀ s : gz.obuf D, (gz.sync s).1 = 0 →
      drained (gz.sync s).2.log = drained s.log ++ s.pbuf ∧ (gz.sync s).2.pbuf = []) ∧
    (∀ s : bgz.obuf D, (bgz.sync s).1 = 0 →
      drained (bgz.sync s).2.log = drained s.log ++ s.pbuf ∧ (bgz.sync s).2.pbuf = []) ∧
    ((∀ st inp out fl, (D.deflate st inp out fl).ret = Z_STREAM_END →
        (D.deflate st inp out fl).consumed = inp.length) →
      D.deflateInit2.2 ≠ Z_STREAM_END →
      ∀ (f : OFILE) (res0 : Int) (ops : List WriterOp),
        (gz.run_ok (gz.obuf.init D (some f) res0) ops = true →
          taken (gz.run (gz.obuf.init D (some f) res0) ops).log
            = (drained (gz.run (gz.obuf.init D (some f) res0) ops).log).length) ∧
        (bgz.run_ok (gz.obuf.init D (some f) res0) ops = true →
          taken (bgz.run (gz.obuf.init D (some f) res0) ops).log
            = (drained (bgz.run (gz.obuf.init D (some f) res0) ops).log).length)) := by
  refine ⟨?_, ?_, ?_, ?_, ?_, ?_, ?_⟩
  · intro fp res0 ops hok
    have := gz.run_bytes ops (gz.obuf.init D fp res0) hok
    refine ⟨?_, gz.run_fits ops _ (Nat.zero_le _)⟩
    rw [this]
    simp [gz.obuf.init, drained]
  · intro fp res0 ops hok
    have := bgz.indexed_run_bytes ops (gz.obuf.init D fp res0) hok
    refine ⟨?_, bgz.indexed_run_fits ops _ (Nat.zero_le _)⟩
    rw [this]
    simp [gz.obuf.init, drained]
  · intro s c hfull hok
    have hn : ¬ s.pbuf.length < default_block_size := by omega
    have e : gz.sputc s c = gz.overflow s c := by
      unfold gz.sputc
      cases s.fp_ with
      | none => rfl
      | some f =>
        simp only
        rw [if_neg hn]
    rw [e] at hok ⊢
    exact (gz.overflow_bytes s c hok).2 hn
  · intro s c hfull hok
    have hn : ¬ s.pbuf.length < default_block_size := by omega
    have e : bgz.sputc s c = bgz.overflow s c := by
      unfold bgz.sputc
      cases s.fp_ with
      | none => rfl
      | some f =>
        simp only
        rw [if_neg hn]
    rw [e] at hok ⊢
    exact (bgz.indexed_overflow_bytes s c hok).2 hn
  · intro s hok
    exact gz.sync_bytes s hok
  · intro s hok
    exact bgz.indexed_sync_bytes s hok
  · intro hend hinit f res0 ops
    exact ⟨gz.run_taken hend ops _ hinit rfl, bgz.indexed_run_taken hend ops _ hinit rfl⟩

theorem write_path_preserves_bytes_witness :
    (drained (gz.run (gz.obuf.init pair_deflater (some empty_ofile) 0)
          [WriterOp.put 104, WriterOp.flush, WriterOp.put 33]).log
        ++ (gz.run (gz.obuf.init pair_deflater (some empty_ofile) 0)
          [WriterOp.put 104, WriterOp.flush, WriterOp.put 33]).pbuf = [104, 33]) ∧
    (drained (bgz.run (gz.obuf.init pair_deflater (some empty_ofile) 0)
          [WriterOp.put 104, WriterOp.flush, WriterOp.put 33]).log
        ++ (bgz.run (gz.obuf.init pair_deflater (some empty_ofile) 0)
          [WriterOp.put 104, WriterOp.flush, WriterOp.put 33]).pbuf = [104, 33]) ∧
    (gz.sputc (pair_writer (List.replicate 65536 0) [] []) 1).2.pbuf = [1] ∧
    (bgz.sputc (pair_writer (List.replicate 65536 0) [] []) 1).2.pbuf = [1] ∧
    (gz.sync (pair_writer [5] [] [])).2.pbuf = [] ∧
    (bgz.sync (pair_writer [5] [] [])).2.pbuf = [] ∧
    taken (gz.run (gz.obuf.init pair_deflater (some empty_ofile) 0)
        [WriterOp.put 104, WriterOp.flush, WriterOp.put 33]).log
      = (drained (gz.run (gz.obuf.init pair_deflater (some empty_ofile) 0)
        [WriterOp.put 104, WriterOp.flush, WriterOp.put 33]).log).length ∧
    taken (bgz.run (gz.obuf.init pair_deflater (some empty_ofile) 0)
        [WriterOp.put 104, WriterOp.flush, WriterOp.put 33]).log
      = (drained (bgz.run (gz.obuf.init pair_deflater (some empty_ofile) 0)
        [WriterOp.put 104, WriterOp.flush, WriterOp.put 33]).log).length := by
  have hlen : (pair_writer (List.replicate 65536 0) [] []).pbuf.length = default_block_size :=
    List.length_replicate _ _
  have hn : ¬ (pair_writer (List.replicate 65536 0) [] []).pbuf.length < default_block_size := by
    omega
  have e1 : gz.sputc (pair_writer (List.replicate 65536 0) [] []) 1
      = gz.overflow (pair_writer (List.replicate 65536 0) [] []) 1 := by
    unfold gz.sputc
    show (if _ then _ else _) = _
    rw [if_neg hn]
  have e2 : bgz.sputc (pair_writer (List.replicate 65536 0) [] []) 1
      = bgz.overflow (pair_writer (List.replicate 65536 0) [] []) 1 := by
    unfold bgz.sputc
    show (if _ then _ else _) = _
    rw [if_neg hn]
  have ok1 : (gz.sputc (pair_writer (List.replicate 65536 0) [] []) 1).1.isSome = true := by
    have := gz.pair_overflow_plain (List.replicate 65536 0) 1 (List.length_replicate _ _)
    rw [e1, this]
    rfl
  have ok2 : (bgz.sputc (pair_writer (List.replicate 65536 0) [] []) 1).1.isSome = true := by
    obtain ⟨evs, _, h, _⟩ := bgz.pair_overflow (List.replicate 65536 0) [] [] 1
      (by rw [List.length_replicate]; decide)
    rw [e2, h]
    rfl
  have hend : ∀ st inp out fl, (pair_deflater.deflate st inp out fl).ret = Z_STREAM_END →
      (pair_deflater.deflate st inp out fl).consumed = inp.length := by
    intro st inp out fl h
    have h2 : (pair_deflate st inp out fl).ret = Z_STREAM_END := h
    show (pair_deflate st inp out fl).consumed = inp.length
    unfold pair_deflate at h2 ⊢
    split
    · rename_i h0
      rw [if_pos h0] at h2
      have h3 : Z_BUF_ERROR = Z_STREAM_END := h2
      exact absurd h3 (by decide)
    · rename_i h0
      rw [if_neg h0] at h2
      split
      · rename_i h1
        rw [if_pos h1] at h2
        have h3 : Z_STREAM_ERROR = Z_STREAM_END := h2
        exact absurd h3 (by decide)
      · rfl
  have hinit : pair_deflater.deflateInit2.2 ≠ Z_STREAM_END := by decide
  exact ⟨(write_path_preserves_bytes.1 (some empty_ofile) 0
            [WriterOp.put 104, WriterOp.flush, WriterOp.put 33] (by decide)).1,
         (write_path_preserves_bytes.2.1 (some empty_ofile) 0
            [WriterOp.put 104, WriterOp.flush, WriterOp.put 33] (by decide)).1,
         (write_path_preserves_bytes.2.2.1 _ 1 hlen ok1).2,
         (write_path_preserves_bytes.2.2.2.1 _ 1 hlen ok2).2,
         (write_path_preserves_bytes.2.2.2.2.1 (pair_writer [5] [] []) (by decide)).2,
         (write_path_preserves_bytes.2.2.2.2.2.1 (pair_writer [5] [] []) (by decide)).2,
         (write_path_preserves_bytes.2.2.2.2.2.2 hend hinit empty_ofile 0
            [WriterOp.put 104, WriterOp.flush, WriterOp.put 33]).1 (by decide),
         (write_path_preserves_bytes.2.2.2.2.2.2 hend hinit empty_ofile 0
            [WriterOp.put 104, WriterOp.flush, WriterOp.put 33]).2 (by decide)⟩

/-! ### End-of-data -/

theorem gz.underflow_loop_fp {C : Inflater} (n : Nat) : ∀ s : gz.ibuf C, s.fp_.isSome = true →
    (gz.underflow_loop n s).fp_.isSome = true := by
  induction n with
  | zero => intro s h; exact h
  | succ n ih =>
    intro s h
    rw [gz.underflow_loop_succ]
    split
    · exact ih _ (gz.underflow_body_fp s h)
    · exact h

theorem gz.underflow_eof_only_at_end {C : Inflater} (s : gz.ibuf C) (f : FILE)
    (hf : s.fp_ = some f) (hemp : s.gbuf.length ≤ s.gpos) (hnone : (gz.underflow s).1 = none) :
    ((gz.underflow s).2.zlib_res_ ≠ Z_OK ∧ (gz.underflow s).2.zlib_res_ ≠ Z_STREAM_END) ∨
    ((gz.underflow s).2.next_in = [] ∧ ∃ g, (gz.underflow s).2.fp_ = some g ∧ feof g = true) := by
  have hlt : ¬ s.gpos < s.gbuf.length := by omega
  have hu := gz.underflow_eq s
  rw [hf] at hu
  simp only [if_neg hlt] at hu
  have hc := gz.underflow_run_cond s
  have hfp : (gz.underflow_run s).fp_.isSome = true :=
    gz.underflow_loop_fp _ s (by rw [hf]; rfl)
  obtain ⟨g, hg⟩ := Option.isSome_iff_exists.mp hfp
  rw [hu] at hnone ⊢
  by_cases herr : (gz.underflow_run s).zlib_res_ ≠ Z_OK ∧ (gz.underflow_run s).zlib_res_ ≠ Z_STREAM_END
  · rw [if_pos herr]
    exact Or.inl herr
  · rw [if_neg herr] at hnone ⊢
    by_cases he : (gz.underflow_run s).gbuf.length ≤ (gz.underflow_run s).gpos
    · rw [if_pos he]
      right
      simp only [gz.underflow_cond, hg] at hc
      have hok : ((gz.underflow_run s).zlib_res_ == Z_OK
          || (gz.underflow_run s).zlib_res_ == Z_STREAM_END) = true := by
        by_contra hcon
        apply herr
        simp only [Bool.or_eq_true, beq_iff_eq, not_or] at hcon
        exact hcon
      simp only [hok, he, decide_True, Bool.and_self, Bool.true_and, Bool.or_eq_false_iff,
        decide_eq_false_iff_not, Bool.not_eq_false'] at hc
      refine ⟨?_, g, hg, ?_⟩
      · show (gz.underflow_run s).next_in = []
        exact List.length_eq_zero.mp (by omega)
      · simpa [feof] using hc.2
    · rw [if_neg he] at hnone
      simp only at hnone
      have : (gz.underflow_run s).gpos < (gz.underflow_run s).gbuf.length := by omega
      rw [List.get?_eq_getElem?, List.getElem?_eq_getElem this] at hnone
      cases hnone
/-- C15 (evaluation of the code): the gzip reader returns end-of-data from a request on an
empty get area only after a codec error or with the file at end and no compressed byte left,
and on a file that opens with an empty member its first request returns the byte 20 of the
second member. The zstd reader makes one decode step per request: on the same file its first
request returns end-of-data although the decoder reported no error and three compressed
bytes are unconsumed, and its next request returns the byte 20. -/
theorem zstd_underflow_single_step :
    (∀ (C : Inflater) (s : gz.ibuf C) (f : FILE), s.fp_ = some f → s.gbuf.length ≤ s.gpos →
      (gz.underflow s).1 = none →
      ((gz.underflow s).2.zlib_res_ ≠ Z_OK ∧ (gz.underflow s).2.zlib_res_ ≠ Z_STREAM_END) ∨
      ((gz.underflow s).2.next_in = [] ∧
        ∃ g, (gz.underflow s).2.fp_ = some g ∧ feof g = true)) ∧
    (gz.underflow empty_member_reader).1 = some 20 ∧
    (zstd.underflow empty_member_zreader).1 = none ∧
    pair_zdecoder.isError (zstd.underflow empty_member_zreader).2.res_ = false ∧
    (zstd.underflow empty_member_zreader).2.input_ = [1, 20, 0] ∧
    (zstd.underflow (zstd.underflow empty_member_zreader).2).1 = some 20 := by
  refine ⟨fun C s f hf hemp hnone => gz.underflow_eof_only_at_end s f hf hemp hnone, ?_, ?_, ?_,
    ?_, ?_⟩
  · decide
  · decide
  · decide
  · decide
  · decide

theorem zstd_underflow_single_step_witness :
    ((gz.underflow (gz.read 6 two_member_reader).2).2.zlib_res_ ≠ Z_OK ∧
        (gz.underflow (gz.read 6 two_member_reader).2).2.zlib_res_ ≠ Z_STREAM_END) ∨
    ((gz.underflow (gz.read 6 two_member_reader).2).2.next_in = [] ∧
      ∃ g, (gz.underflow (gz.read 6 two_member_reader).2).2.fp_ = some g ∧ feof g = true) :=
  zstd_underflow_single_step.1 pair_inflater (gz.read 6 two_member_reader).2
    { data := two_member_file.data, pos := 14, eof := true, seekable := true }
    (by decide) (by decide) (by decide)

/-! ### Move assignment of the block-indexed reader -/

/-- C16 (evaluation of the code): `bgz::ibuf::operator=` from a distinct source calls itself
on the same two objects, so whatever depth of nested calls is allowed the outermost call has
not returned; only the self-assignment returns, leaving the object as it was. -/
theorem bgz_move_assign_never_returns {C : Inflater} :
    (∀ (depth : Nat) (this_ src : Nat × gz.ibuf C), src.1 ≠ this_.1 →
      bgz.move_assign depth this_ src = none) ∧
    (∀ (depth : Nat) (this_ : Nat × gz.ibuf C),
      bgz.move_assign (depth + 1) this_ this_ = some (this_.2, this_.2)) := by
  constructor
  · intro depth this_ src h
    induction depth with
    | zero => rfl
    | succ n ih =>
      unfold bgz.move_assign
      rw [if_pos h]
      exact ih
  · intro depth this_
    unfold bgz.move_assign
    rw [if_neg (fun h => h rfl)]

theorem bgz_move_assign_never_returns_witness :
    bgz.move_assign 1000 (1, gz.ibuf.init pair_inflater none 0) (2, two_member_reader) = none :=
  bgz_move_assign_never_returns.1 1000 (1, gz.ibuf.init pair_inflater none 0)
    (2, two_member_reader) (by decide)

/-! ### Member sizes of the block-indexed writer -/

theorem Balanced.nil : Balanced [] [] := fun _ => rfl

end shrinkwrap
